import Mathlib

/-!
Verification of the `bplus` B+ tree core (files `src/pages.c`, `src/writer.c`).

Shallow embedding conventions:

* The backing file is a `List Nat` of bytes; the writer's `filesize` field is
  the list's length (`bp__writer_create` initialises it from `lseek(fd, 0,
  SEEK_END)` and the append-only writes keep the two in sync).
* `uint64_t` quantities are `Nat`.  Wrap-around is modelled explicitly with
  `% 2 ^ 64` where C arithmetic can overflow on attacker-controlled inputs
  (the bounds check of `bp__writer_read`); serialisation of 64-bit fields
  truncates with `% 2 ^ 64` exactly as the byte encoding does.
* The block compressor is an external collaborator (not part of the core; it
  must satisfy `decompress ∘ compress = id`).  It is modelled as the
  identity, so a compressed block's size equals its uncompressed size.
* `malloc` and file system calls are assumed to succeed, so the error codes
  `EALLOC`, `EFILE*`, `ECOMP`, `EDECOMP` arise in the model only where the
  logic itself produces them.  A failing C `assert` aborts the process; it is
  modelled as the distinguished result `EASSERTFAIL`.  The C page routines
  recurse on the tree depth; the model gives them explicit fuel and returns
  the distinguished result `EFUEL` when the fuel runs out (any fuel larger
  than the tree height makes the model agree with the C code).
-/

namespace Bplus

/-- Error codes (`bplus.h` is not under `src/`; the constructors follow the
spec's stable error list).  `BP_OK` is modelled by successful results.
`EASSERTFAIL` and `EFUEL` are model artifacts described in the header. -/
inductive BpErr where
  | EALLOC | EFILE | EFILEREAD | EFILEREAD_OOB | EFILEWRITE | EFILERENAME
  | ECOMPACT_EXISTS | ECOMP | EDECOMP | ENOTFOUND | ESPLITPAGE | EEMPTYPAGE
  | EASSERTFAIL | EFUEL
  deriving DecidableEq, Repr

/-- `enum comp_type` from `private/writer.h`. -/
inductive CompType where
  | kNotCompressed | kCompressed
  deriving DecidableEq, Repr

/-- The backing file owned by `bp__writer_t`: an append-only byte string.
`w->filesize` is its length. -/
abbrev Disk := List Nat

/-- `bp__writer_write` (src/writer.c:150-200).  Returns the new file, the
offset reported through `*offset` and the byte count reported through
`*size`.  The `sizeof(w->padding)` of the C code is 8 (one `uint64_t`).
A `NULL` data/size pair is modelled by an empty `data` list (the C code
treats both the same way: only padding is written).  Compression is the
identity (see header), so for both `comp` values the payload is appended
verbatim and the reported size equals `data.length`.  `write(2)` failures
(`EFILEWRITE`) and `malloc` failures are assumed not to occur. -/
def bp__writer_write (comp : CompType) (data : List Nat) (d : Disk) :
    Disk × Nat × Nat :=
  let padding := 8 - d.length % 8
  let d1 := if padding ≠ 8 then d ++ List.replicate padding 0 else d
  if data.length = 0 then (d1, d1.length, 0)
  else (d1 ++ data, d1.length, data.length)

/-- `bp__writer_read` (src/writer.c:90-147).  Returns the bytes handed back
through `*data` (`none` models the `NULL` pointer of an empty read) and the
size reported back through `*size`.  The bounds check `w->filesize <
offset + *size` is 64-bit arithmetic, hence the explicit `% 2 ^ 64`.
`pread` delivers exactly `*size` bytes iff `offset + *size` (as unbounded
integers) fits in the file; otherwise it returns a short count (or `-1`
for an out-of-range `off_t`) and the function reports `EFILEREAD`.
Decompression is the identity (see header). -/
def bp__writer_read (comp : CompType) (offset size : Nat) (d : Disk) :
    Except BpErr (Option (List Nat) × Nat) :=
  if d.length < (offset + size) % 2 ^ 64 then .error .EFILEREAD_OOB
  else if size = 0 then .ok (none, size)
  else if offset + size ≤ d.length then .ok (some ((d.drop offset).take size), size)
  else .error .EFILEREAD

/-- The file produced by the padding step of `bp__writer_write`. -/
def padTo8 (d : Disk) : Disk :=
  if 8 - d.length % 8 ≠ 8 then d ++ List.replicate (8 - d.length % 8) 0 else d

theorem padTo8_length (d : Disk) :
    (padTo8 d).length = d.length + (8 - d.length % 8) % 8 := by
  have h8 : d.length % 8 < 8 := Nat.mod_lt _ (by norm_num)
  unfold padTo8
  by_cases h : 8 - d.length % 8 ≠ 8
  · simp only [if_pos h, List.length_append, List.length_replicate]
    omega
  · simp only [if_neg h]
    omega

theorem padTo8_length_mod (d : Disk) : (padTo8 d).length % 8 = 0 := by
  have h8 : d.length % 8 < 8 := Nat.mod_lt _ (by norm_num)
  rw [padTo8_length]
  omega

theorem padTo8_of_aligned {d : Disk} (h : d.length % 8 = 0) : padTo8 d = d := by
  unfold padTo8
  simp [h]

theorem bp__writer_write_eq (comp : CompType) (data : List Nat) (d : Disk) :
    bp__writer_write comp data d =
      (if data.length = 0 then padTo8 d else padTo8 d ++ data,
       (padTo8 d).length, data.length) := by
  unfold bp__writer_write padTo8
  by_cases h : data.length = 0
  · simp [h]
  · simp [h]

theorem padTo8_prefix (d : Disk) : ∃ tail, padTo8 d = d ++ tail := by
  unfold padTo8
  by_cases hp : 8 - d.length % 8 ≠ 8
  · exact ⟨List.replicate (8 - d.length % 8) 0, by simp [hp]⟩
  · exact ⟨[], by simp [hp]⟩

theorem bp__writer_write_prefix (comp : CompType) (data : List Nat) (d : Disk) :
    ∃ tail, (bp__writer_write comp data d).1 = d ++ tail := by
  rw [bp__writer_write_eq]
  obtain ⟨t, ht⟩ := padTo8_prefix d
  by_cases h : data.length = 0
  · exact ⟨t, by simp [h, ht]⟩
  · exact ⟨t ++ data, by simp [h, ht]⟩

/-- C8: `bp__writer_write` realigns with zero padding before any payload,
reports an 8-byte-aligned offset, and an empty write emits only the padding
and reports the post-padding offset. -/
theorem claim_C8 (comp : CompType) (data : List Nat) (d : Disk) :
    (d.length % 8 ≠ 0 →
      bp__writer_write comp data d =
        ((d ++ List.replicate (8 - d.length % 8) 0) ++ data,
         d.length + (8 - d.length % 8), data.length)) ∧
    (bp__writer_write comp data d).2.1 % 8 = 0 ∧
    (data = [] →
      bp__writer_write comp data d = (padTo8 d, (padTo8 d).length, 0)) := by
  have h8 : d.length % 8 < 8 := Nat.mod_lt _ (by norm_num)
  refine ⟨?_, ?_, ?_⟩
  · intro h
    rw [bp__writer_write_eq]
    have hne : 8 - d.length % 8 ≠ 8 := by omega
    have hp : padTo8 d = d ++ List.replicate (8 - d.length % 8) 0 := by
      unfold padTo8
      simp [hne]
    rw [hp]
    by_cases hd : data.length = 0
    · have hdata : data = [] := List.eq_nil_of_length_eq_zero hd
      subst hdata
      simp [List.length_append]
    · simp [hd, List.length_append]
  · rw [bp__writer_write_eq]
    exact padTo8_length_mod d
  · intro h
    subst h
    rw [bp__writer_write_eq]
    simp

/-- Witness for `claim_C8` at a concrete misaligned file. -/
theorem claim_C8_witness :
    bp__writer_write .kCompressed [7] [0, 0, 0] =
      (([0, 0, 0] ++ List.replicate (8 - ([0, 0, 0] : Disk).length % 8) 0) ++ [7],
       ([0, 0, 0] : Disk).length + (8 - ([0, 0, 0] : Disk).length % 8), [7].length) :=
  (claim_C8 .kCompressed [7] [0, 0, 0]).1 (by decide)

/-- C10: an empty write pads the file to a multiple of 8 and reports that
offset; a second empty write is a no-op reporting the same offset. -/
theorem claim_C10 (comp comp' : CompType) (d : Disk) :
    (bp__writer_write comp [] d).1.length % 8 = 0 ∧
    (bp__writer_write comp [] d).2.1 = (bp__writer_write comp [] d).1.length ∧
    bp__writer_write comp' [] (bp__writer_write comp [] d).1 =
      ((bp__writer_write comp [] d).1, (bp__writer_write comp [] d).2.1, 0) := by
  have e1 : bp__writer_write comp [] d = (padTo8 d, (padTo8 d).length, 0) := by
    rw [bp__writer_write_eq]
    simp
  have e2 : padTo8 (padTo8 d) = padTo8 d := padTo8_of_aligned (padTo8_length_mod d)
  have e3 : bp__writer_write comp' [] (padTo8 d) = (padTo8 d, (padTo8 d).length, 0) := by
    rw [bp__writer_write_eq]
    simp [e2]
  rw [e1]
  exact ⟨padTo8_length_mod d, rfl, e3⟩

/-- C9 counterexample: the claim says every size-0 read returns `OK` with a
null pointer, but the code performs the out-of-bounds check first, so a
size-0 read past the end of the file returns `EFILEREAD_OOB`; and the claim
says `EFILEREAD_OOB` is returned whenever `offset + size` exceeds the file
size, but the 64-bit sum wraps, in which case the code returns `EFILEREAD`
instead. -/
theorem claim_C9_counterexample :
    bp__writer_read .kCompressed 8 0 [] = .error .EFILEREAD_OOB ∧
    (2 ^ 64 - 8) + 16 > (List.replicate 16 0 : Disk).length ∧
    bp__writer_read .kCompressed (2 ^ 64 - 8) 16 (List.replicate 16 0) =
      .error .EFILEREAD := by
  refine ⟨?_, by norm_num, ?_⟩
  · unfold bp__writer_read
    norm_num
  · unfold bp__writer_read
    norm_num

/-- C9 (amended): `bp__writer_read` returns `EFILEREAD_OOB` exactly when the
64-bit (wrapping) sum `offset + *size` exceeds the current file size, and a
read of size 0 that passes this bounds check returns `OK` with a null data
pointer. -/
theorem claim_C9_amended (comp : CompType) (offset size : Nat) (d : Disk) :
    (bp__writer_read comp offset size d = .error .EFILEREAD_OOB ↔
      d.length < (offset + size) % 2 ^ 64) ∧
    (size = 0 → (offset + size) % 2 ^ 64 ≤ d.length →
      bp__writer_read comp offset size d = .ok (none, 0)) := by
  unfold bp__writer_read
  by_cases h : d.length < (offset + size) % 2 ^ 64
  · refine ⟨by rw [if_pos h]; exact iff_of_true rfl h, ?_⟩
    intro hs hle
    omega
  · refine ⟨?_, ?_⟩
    · simp only [if_neg h]
      constructor
      · intro hc
        exfalso
        by_cases hs : size = 0
        · rw [if_pos hs] at hc
          exact Except.noConfusion hc
        · rw [if_neg hs] at hc
          by_cases hr : offset + size ≤ d.length
          · rw [if_pos hr] at hc
            exact Except.noConfusion hc
          · rw [if_neg hr] at hc
            simp at hc
      · intro hc
        exact absurd hc h
    · intro hs hle
      subst hs
      rw [if_neg h, if_pos rfl]

/-- Witness for `claim_C9_amended` at a concrete input. -/
theorem claim_C9_amended_witness :
    (bp__writer_read .kCompressed 4 0 (List.replicate 8 0) =
        .error .EFILEREAD_OOB ↔
      (List.replicate 8 0 : Disk).length < (4 + 0) % 2 ^ 64) ∧
    bp__writer_read .kCompressed 4 0 (List.replicate 8 0) = .ok (none, 0) := by
  have h := claim_C9_amended .kCompressed 4 0 (List.replicate 8 0)
  exact ⟨h.1, h.2 rfl (by norm_num)⟩

/-! ## KV records and pages (`private/pages.h`, `src/pages.c`) -/

/-- `bp__kv_t`.  `value` is the key byte string; `allocated` distinguishes a
privately owned buffer from one aliasing the page's read buffer (memory
management itself is outside the model, but the flag is threaded exactly as
the C code sets it). -/
structure BpKV where
  length : Nat
  offset : Nat
  config : Nat
  value : List Nat
  allocated : Bool
  deriving DecidableEq, Repr, Inhabited

/-- Modelled from the spec: the macro `BP__KV_SIZE` lives in
`private/pages.h`, which is not under `src/`; the spec fixes the serialized
KV size as `24 + length` (three big-endian `u64` fields plus the key
bytes). -/
def BP__KV_SIZE (kv : BpKV) : Nat := 24 + kv.length

/-- Sum of `BP__KV_SIZE` over a key list. -/
def sumKVSize (l : List BpKV) : Nat := (l.map BP__KV_SIZE).sum

/-- `enum page_type` (`kPage` = internal node, `kLeaf` = leaf). -/
inductive PageType where
  | kPage | kLeaf
  deriving DecidableEq, Repr

/-- `bp__page_t`.  The C structure stores `length` and a flexible array of
`page_size` key slots; the model's `keys` list holds the first `length`
slots, so `p->length` is `keys.length`. -/
structure BpPage where
  type : PageType
  keys : List BpKV
  byte_size : Nat
  offset : Nat
  config : Nat
  deriving DecidableEq, Repr

/-- `bp__page_create` (src/pages.c:9-42).  A non-leaf page starts with the
synthetic zero-length left-spine entry.  (`malloc` failure, `BP_EALLOC`, is
assumed not to occur.) -/
def bp__page_create (type : PageType) (offset config : Nat) : BpPage :=
  if type = .kLeaf then
    { type := type, keys := [], byte_size := 0, offset := offset, config := config }
  else
    { type := type, keys := [⟨0, 0, 0, [], false⟩],
      byte_size := BP__KV_SIZE ⟨0, 0, 0, [], false⟩, offset := offset, config := config }

/-! ## Serialization (`bp__page_save` / `bp__page_load`) -/

/-- The `j` low-order bytes of `n`, big-endian. -/
def beDigits : Nat → Nat → List Nat
  | 0, _ => []
  | j + 1, n => n / 2 ^ (8 * j) % 256 :: beDigits j n

/-- `htonll`: big-endian encoding of a `uint64_t` (truncates to 64 bits,
exactly as storing into 8 bytes does). -/
def htonll (n : Nat) : List Nat := beDigits 8 n

/-- `ntohll`: decode the first 8 bytes, big-endian. -/
def ntohll (l : List Nat) : Nat :=
  (l.take 8).foldl (fun acc b => acc * 256 + b) 0

theorem beDigits_length (j n : Nat) : (beDigits j n).length = j := by
  induction j with
  | zero => rfl
  | succ j ih => simp [beDigits, ih]

theorem htonll_length (n : Nat) : (htonll n).length = 8 := beDigits_length 8 n

theorem digit_split (m k : Nat) :
    m % 2 ^ (k + 8) = 2 ^ k * (m / 2 ^ k % 2 ^ 8) + m % 2 ^ k := by
  have h2 : m % 2 ^ (k + 8) / 2 ^ k = m / 2 ^ k % 2 ^ 8 := by
    rw [pow_add]
    exact Nat.mod_mul_right_div_self m _ _
  have h3 : m % 2 ^ (k + 8) % 2 ^ k = m % 2 ^ k :=
    Nat.mod_mod_of_dvd m (pow_dvd_pow 2 (Nat.le_add_right k 8))
  have h4 := Nat.div_add_mod (m % 2 ^ (k + 8)) (2 ^ k)
  rw [h2, h3] at h4
  exact h4.symm

theorem foldl_beDigits (j n acc : Nat) :
    (beDigits j n).foldl (fun a b => a * 256 + b) acc =
      acc * 2 ^ (8 * j) + n % 2 ^ (8 * j) := by
  induction j generalizing acc with
  | zero =>
    simp [beDigits]
    omega
  | succ j ih =>
    have hsplit := digit_split n (8 * j)
    have h8j : 8 * (j + 1) = 8 * j + 8 := by ring
    simp only [beDigits, List.foldl_cons, ih]
    rw [h8j, hsplit, pow_add]
    norm_num
    ring

theorem ntohll_htonll (n : Nat) : ntohll (htonll n) = n % 2 ^ 64 := by
  have hl : (htonll n).length ≤ 8 := le_of_eq (htonll_length n)
  unfold ntohll
  rw [List.take_of_length_le hl]
  unfold htonll
  rw [foldl_beDigits]
  norm_num

/-- `memcpy(buff + o + 24, kv->value, kv->length)`: the C code copies
`kv->length` bytes from the key buffer.  When the buffer is shorter than
`kv->length` the C code reads out of bounds; those indeterminate bytes are
modelled as zeros (all proofs about round-trips assume well-formed KVs,
where `value.length = length` and this function is the identity). -/
def takePad (n : Nat) (xs : List Nat) : List Nat :=
  xs.take n ++ List.replicate (n - xs.length) 0

theorem takePad_length (n : Nat) (xs : List Nat) : (takePad n xs).length = n := by
  unfold takePad
  simp [List.length_take]
  omega

theorem takePad_of_length_eq {n : Nat} {xs : List Nat} (h : xs.length = n) :
    takePad n xs = xs := by
  unfold takePad
  subst h
  simp

/-- One serialized KV: `length | offset | config | value` (src/pages.c:124-128). -/
def serKV (kv : BpKV) : List Nat :=
  htonll kv.length ++ (htonll kv.offset ++ (htonll kv.config ++ takePad kv.length kv.value))

theorem serKV_length (kv : BpKV) : (serKV kv).length = BP__KV_SIZE kv := by
  unfold serKV BP__KV_SIZE
  simp [htonll_length, takePad_length]
  omega

/-- The serialization buffer built by `bp__page_save`: the concatenation of
the serialized KVs. -/
def serPage (keys : List BpKV) : List Nat := (keys.map serKV).flatten

theorem serPage_nil : serPage [] = [] := rfl

theorem serPage_cons (kv : BpKV) (rest : List BpKV) :
    serPage (kv :: rest) = serKV kv ++ serPage rest := by
  unfold serPage
  simp

theorem serPage_length (keys : List BpKV) : (serPage keys).length = sumKVSize keys := by
  induction keys with
  | nil => rfl
  | cons kv rest ih =>
    rw [serPage_cons]
    unfold sumKVSize at *
    simp [serKV_length, ih]

/-- The parse loop of `bp__page_load` (src/pages.c:83-95): reads KVs while
bytes remain, each KV aliasing the read buffer (`allocated = 0`). -/
def parseKVs (buff : List Nat) : List BpKV :=
  if h : buff = [] then []
  else
    let len := ntohll (buff.take 8)
    ⟨len, ntohll ((buff.drop 8).take 8), ntohll ((buff.drop 16).take 8),
      (buff.drop 24).take len, false⟩ :: parseKVs (buff.drop (24 + len))
termination_by buff.length
decreasing_by
  simp only [List.length_drop]
  have hpos : buff.length ≠ 0 := fun hh => h (List.eq_nil_of_length_eq_zero hh)
  omega

/-- The in-memory form a KV takes after a page round-trips through disk. -/
def kvLoaded (kv : BpKV) : BpKV := { kv with allocated := false }

/-- Field bounds under which serialization round-trips (all `uint64_t`
fields in range, and the key buffer really holds `length` bytes). -/
def KVBounds (kv : BpKV) : Prop :=
  kv.value.length = kv.length ∧ kv.length < 2 ^ 64 ∧ kv.offset < 2 ^ 64 ∧
    kv.config < 2 ^ 64

instance (kv : BpKV) : Decidable (KVBounds kv) := by
  unfold KVBounds
  infer_instance

theorem take8_append {x : List Nat} (r : List Nat) (hx : x.length = 8) :
    (x ++ r).take 8 = x := by
  rw [List.take_append_of_le_length (le_of_eq hx.symm), ← hx, List.take_length]

theorem drop8_append {x : List Nat} (r : List Nat) (hx : x.length = 8) :
    (x ++ r).drop 8 = r := by
  rw [← hx, List.drop_left]

theorem parseKVs_nil : parseKVs [] = [] := by
  rw [parseKVs]
  simp

theorem drop_append8 {x : List Nat} (r : List Nat) (hx : x.length = 8) (n : Nat) :
    (x ++ r).drop (8 + n) = r.drop n := by
  rw [← hx, List.drop_append]

theorem parseKVs_cons (kv : BpKV) (rest : List Nat) (hb : KVBounds kv) :
    parseKVs (serKV kv ++ rest) = kvLoaded kv :: parseKVs rest := by
  obtain ⟨hv, hl, ho, hc⟩ := hb
  have hne : serKV kv ++ rest ≠ [] := by
    intro h
    have := congrArg List.length h
    simp [serKV_length, BP__KV_SIZE] at this
  rw [parseKVs]
  rw [dif_neg hne]
  have e1 : serKV kv ++ rest =
      htonll kv.length ++ (htonll kv.offset ++ (htonll kv.config ++
        (takePad kv.length kv.value ++ rest))) := by
    unfold serKV
    simp [List.append_assoc]
  have hpad : takePad kv.length kv.value = kv.value := takePad_of_length_eq hv
  have htake : (serKV kv ++ rest).take 8 = htonll kv.length := by
    rw [e1, take8_append _ (htonll_length _)]
  have hdrop8 : (serKV kv ++ rest).drop 8 =
      htonll kv.offset ++ (htonll kv.config ++ (takePad kv.length kv.value ++ rest)) := by
    rw [e1, drop8_append _ (htonll_length _)]
  have hdrop16 : (serKV kv ++ rest).drop 16 =
      htonll kv.config ++ (takePad kv.length kv.value ++ rest) := by
    rw [e1, show (16 : Nat) = 8 + 8 from rfl, drop_append8 _ (htonll_length _),
      drop8_append _ (htonll_length _)]
  have hdrop24 : (serKV kv ++ rest).drop 24 = takePad kv.length kv.value ++ rest := by
    rw [e1, show (24 : Nat) = 8 + 16 from rfl, drop_append8 _ (htonll_length _),
      show (16 : Nat) = 8 + 8 from rfl, drop_append8 _ (htonll_length _),
      drop8_append _ (htonll_length _)]
  have hlen : ntohll ((serKV kv ++ rest).take 8) = kv.length := by
    rw [htake, ntohll_htonll, Nat.mod_eq_of_lt hl]
  have hoff : ntohll (((serKV kv ++ rest).drop 8).take 8) = kv.offset := by
    rw [hdrop8, take8_append _ (htonll_length _), ntohll_htonll, Nat.mod_eq_of_lt ho]
  have hcfg : ntohll (((serKV kv ++ rest).drop 16).take 8) = kv.config := by
    rw [hdrop16, take8_append _ (htonll_length _), ntohll_htonll, Nat.mod_eq_of_lt hc]
  have hval : ((serKV kv ++ rest).drop 24).take kv.length = kv.value := by
    rw [hdrop24, hpad, List.take_append_of_le_length (le_of_eq hv.symm), ← hv,
      List.take_length]
  have htail : (serKV kv ++ rest).drop (24 + kv.length) = rest := by
    have h24 : 24 + kv.length = (serKV kv).length := by
      rw [serKV_length]
      rfl
    rw [h24, List.drop_left]
  simp only [hlen, hoff, hcfg, hval, htail]
  unfold kvLoaded
  rfl

theorem parseKVs_serPage (keys : List BpKV) (hb : ∀ kv ∈ keys, KVBounds kv) :
    parseKVs (serPage keys) = keys.map kvLoaded := by
  induction keys with
  | nil => simpa [serPage_nil] using parseKVs_nil
  | cons kv rest ih =>
    rw [serPage_cons, parseKVs_cons kv _ (hb kv (by simp))]
    rw [ih (fun x hx => hb x (by simp [hx]))]
    rfl

/-- `bp__page_save` (src/pages.c:107-146).  The two C `assert`s (a non-leaf
page is never saved empty; the serialization cursor lands exactly on
`byte_size`) are modelled as `EASSERTFAIL` aborts; the serialized buffer is
`byte_size` bytes long exactly when the second assert passes.  The saved
page gets its new `offset` and `config = (csize << 1) | is_leaf`. -/
def bp__page_save (d : Disk) (page : BpPage) : Except BpErr (Disk × BpPage) :=
  if ¬(page.type = .kLeaf ∨ page.keys.length ≠ 0) then .error .EASSERTFAIL
  else if sumKVSize page.keys ≠ page.byte_size then .error .EASSERTFAIL
  else
    let res := bp__writer_write .kCompressed (serPage page.keys) d
    .ok (res.1, { page with offset := res.2.1,
                            config := 2 * res.2.2 + (if page.type = .kLeaf then 1 else 0) })

/-- `bp__page_load` (src/pages.c:66-104).  Decodes `config` into the
compressed size and the leaf bit, reads the block, parses the KVs. -/
def bp__page_load (d : Disk) (page : BpPage) : Except BpErr BpPage :=
  let size := page.config / 2
  let type := if page.config % 2 = 1 then PageType.kLeaf else PageType.kPage
  match bp__writer_read .kCompressed page.offset size d with
  | .error e => .error e
  | .ok (buff, size') =>
      .ok { page with type := type, keys := parseKVs (buff.getD []), byte_size := size' }

/-- `bp__page_create` + `bp__page_load` as used for materializing a child
page from an `(offset, config)` pair (src/pages.c:178-186). -/
def loadPageAt (d : Disk) (offset config : Nat) : Except BpErr BpPage :=
  bp__page_load d (bp__page_create .kPage offset config)

theorem bp__page_save_eq (d : Disk) (page : BpPage)
    (h1 : page.type = .kLeaf ∨ page.keys.length ≠ 0)
    (h2 : sumKVSize page.keys = page.byte_size) :
    bp__page_save d page =
      .ok (padTo8 d ++ serPage page.keys,
           { page with offset := (padTo8 d).length,
                       config := 2 * page.byte_size +
                         (if page.type = .kLeaf then 1 else 0) }) := by
  have hlen : (serPage page.keys).length = page.byte_size := by
    rw [serPage_length, h2]
  unfold bp__page_save
  rw [if_neg (not_not_intro h1), if_neg (not_not_intro h2)]
  rw [bp__writer_write_eq]
  simp only [hlen]
  by_cases hz : page.byte_size = 0
  · have hnil : serPage page.keys = [] := by
      apply List.eq_nil_of_length_eq_zero
      rw [hlen, hz]
    rw [if_pos hz]
    simp [hnil, hz]
  · rw [if_neg hz]

theorem sumKVSize_eq_zero {keys : List BpKV} (h : sumKVSize keys = 0) : keys = [] := by
  cases keys with
  | nil => rfl
  | cons kv rest =>
    exfalso
    unfold sumKVSize BP__KV_SIZE at h
    simp at h

/-- Reading back a section that sits between a prefix and a suffix of the
file returns exactly that section. -/
theorem bp__writer_read_section (pre mid post : List Nat) :
    bp__writer_read .kCompressed pre.length mid.length (pre ++ (mid ++ post)) =
      if mid.length = 0 then .ok (none, 0)
      else .ok (some mid, mid.length) := by
  have htot : pre.length + mid.length ≤ (pre ++ (mid ++ post)).length := by
    simp [List.length_append]
  have hoob : ¬ (pre ++ (mid ++ post)).length < (pre.length + mid.length) % 2 ^ 64 := by
    have := Nat.mod_le (pre.length + mid.length) (2 ^ 64)
    omega
  unfold bp__writer_read
  rw [if_neg hoob]
  by_cases hz : mid.length = 0
  · simp [hz]
  · rw [if_neg hz, if_pos htot, if_neg hz]
    have hdrop : (pre ++ (mid ++ post)).drop pre.length = mid ++ post := List.drop_left _ _
    rw [hdrop, List.take_append_of_le_length (le_refl _), List.take_length]

theorem configSize (bs : Nat) (t : PageType) :
    (2 * bs + (if t = PageType.kLeaf then 1 else 0)) / 2 = bs := by
  cases t <;> simp <;> omega

theorem configType (bs : Nat) (t : PageType) :
    (if (2 * bs + (if t = PageType.kLeaf then 1 else 0)) % 2 = 1 then PageType.kLeaf
      else PageType.kPage) = t := by
  cases t <;> simp [Nat.mul_add_mod]

/-- Save-then-load round-trip: loading a fresh page from the `(offset,
config)` pair produced by `bp__page_save`, after the file has possibly
grown further, recovers the page contents. -/
theorem loadPageAt_after_save (d : Disk) (page : BpPage) (post : List Nat)
    (h1 : page.type = .kLeaf ∨ page.keys.length ≠ 0)
    (h2 : sumKVSize page.keys = page.byte_size)
    (hb : ∀ kv ∈ page.keys, KVBounds kv) :
    ∃ d' p', bp__page_save d page = .ok (d', p') ∧
      loadPageAt (d' ++ post) p'.offset p'.config =
        .ok { type := page.type, keys := page.keys.map kvLoaded,
              byte_size := page.byte_size, offset := p'.offset, config := p'.config } := by
  have hser : (serPage page.keys).length = page.byte_size := by
    rw [serPage_length, h2]
  refine ⟨padTo8 d ++ serPage page.keys,
    { page with offset := (padTo8 d).length,
                config := 2 * page.byte_size + (if page.type = .kLeaf then 1 else 0) },
    bp__page_save_eq d page h1 h2, ?_⟩
  unfold loadPageAt bp__page_load bp__page_create
  have hread : bp__writer_read .kCompressed (padTo8 d).length page.byte_size
      ((padTo8 d ++ serPage page.keys) ++ post) =
        if page.byte_size = 0 then .ok (none, 0)
        else .ok (some (serPage page.keys), page.byte_size) := by
    rw [List.append_assoc]
    have h := bp__writer_read_section (padTo8 d) (serPage page.keys) post
    rw [hser] at h
    exact h
  simp only [if_neg (by simp : ¬ PageType.kPage = PageType.kLeaf)]
  rw [configSize]
  by_cases hz : page.byte_size = 0
  · rw [if_pos hz] at hread
    have hkeys : page.keys = [] := sumKVSize_eq_zero (h2.trans hz)
    rw [hread]
    simp only [Option.getD_none, parseKVs_nil]
    rw [configType]
    simp [hkeys, hz]
  · rw [if_neg hz] at hread
    rw [hread]
    simp only [Option.getD_some]
    rw [parseKVs_serPage page.keys hb, configType]

theorem getD_map_kvLoaded (l : List BpKV) (i : Nat) :
    (l.map kvLoaded).getD i default = kvLoaded (l.getD i default) := by
  induction l generalizing i with
  | nil =>
    cases i <;> rfl
  | cons kv rest ih =>
    cases i with
    | zero => rfl
    | succ j => simpa using ih j

/-- C7: saving a page and loading a fresh page from the resulting `(offset,
config)` pair yields the same type, entry count and `byte_size`, with
entrywise equal `length`, `offset`, `config` and key bytes (the compressor
is modelled as an inverse pair, see the header). -/
theorem claim_C7 (page_size : Nat) (d : Disk) (page : BpPage)
    (hlen : page.keys.length < page_size)
    (h1 : page.type = .kLeaf ∨ page.keys.length ≠ 0)
    (h2 : sumKVSize page.keys = page.byte_size)
    (hb : ∀ kv ∈ page.keys, KVBounds kv) :
    ∃ d' p', bp__page_save d page = .ok (d', p') ∧
      ∃ q, loadPageAt d' p'.offset p'.config = .ok q ∧
        q.type = page.type ∧
        q.keys.length = page.keys.length ∧
        q.byte_size = page.byte_size ∧
        ∀ i, i < page.keys.length →
          (q.keys.getD i default).length = (page.keys.getD i default).length ∧
          (q.keys.getD i default).offset = (page.keys.getD i default).offset ∧
          (q.keys.getD i default).config = (page.keys.getD i default).config ∧
          (q.keys.getD i default).value = (page.keys.getD i default).value := by
  obtain ⟨d', p', hsave, hload⟩ := loadPageAt_after_save d page [] h1 h2 hb
  rw [List.append_nil] at hload
  refine ⟨d', p', hsave, _, hload, rfl, by simp, rfl, ?_⟩
  intro i hi
  rw [getD_map_kvLoaded]
  unfold kvLoaded
  exact ⟨rfl, rfl, rfl, rfl⟩

/-- Witness for `claim_C7`: a single-entry leaf page. -/
theorem claim_C7_witness :
    ∃ d' p', bp__page_save []
        { type := .kLeaf, keys := [⟨2, 5, 9, [10, 20], true⟩], byte_size := 26,
          offset := 0, config := 0 } = .ok (d', p') ∧
      ∃ q, loadPageAt d' p'.offset p'.config = .ok q ∧
        q.type = PageType.kLeaf ∧ q.keys.length = 1 ∧ q.byte_size = 26 ∧
        ∀ i, i < 1 →
          (q.keys.getD i default).length =
            (([⟨2, 5, 9, [10, 20], true⟩] : List BpKV).getD i default).length ∧
          (q.keys.getD i default).offset =
            (([⟨2, 5, 9, [10, 20], true⟩] : List BpKV).getD i default).offset ∧
          (q.keys.getD i default).config =
            (([⟨2, 5, 9, [10, 20], true⟩] : List BpKV).getD i default).config ∧
          (q.keys.getD i default).value =
            (([⟨2, 5, 9, [10, 20], true⟩] : List BpKV).getD i default).value := by
  have h := claim_C7 4 []
    { type := .kLeaf, keys := [⟨2, 5, 9, [10, 20], true⟩], byte_size := 26,
      offset := 0, config := 0 }
    (by decide) (by decide) (by decide) (by decide)
  simpa using h

/-! ## Search (`bp__page_search`, src/pages.c:149-193) -/

/-- The parts of `bp_tree_t` the page engine reads: the branching factor
`t->head.page_size` and the comparator `t->compare_cb`.  A `bp_key_t` is a
`(length, value)` pair; since well-formed KVs have `length = value.length`,
the comparator is modelled on the value byte string alone. -/
structure BpCfg where
  page_size : Nat
  compare : List Nat → List Nat → Int

/-- `bp__page_search_res_t`. -/
structure BpSearchRes where
  index : Nat
  cmp : Int
  child : Option BpPage
  deriving Repr

/-- The scan loop of `bp__page_search` (src/pages.c:158-164): advance while
the comparison is negative; `cmp` keeps the last comparison performed (its
initial value `-1` survives only if no comparison happens). -/
def bp__search_scan (cfg : BpCfg) (keys : List BpKV) (kv : BpKV) (i : Nat)
    (cmp : Int) : Nat × Int :=
  if h : i < keys.length then
    let c := cfg.compare (keys.get ⟨i, h⟩).value kv.value
    if 0 ≤ c then (i, c) else bp__search_scan cfg keys kv (i + 1) c
  else (i, cmp)
termination_by keys.length - i

/-- `bp__page_search` (src/pages.c:149-193).  The scan starts at index 1 on
internal pages (the synthetic left-spine entry is never compared).  For a
leaf the scan result is returned; for an internal page the entry `cmp == 0 ?
i : i - 1` is materialized and loaded as the child.  The `assert(i > 0)` is
modelled as `EASSERTFAIL`. -/
def bp__page_search (cfg : BpCfg) (d : Disk) (page : BpPage) (kv : BpKV) :
    Except BpErr BpSearchRes :=
  let i0 : Nat := if page.type = .kPage then 1 else 0
  let r := bp__search_scan cfg page.keys kv i0 (-1)
  if page.type = .kLeaf then .ok ⟨r.1, r.2, none⟩
  else
    if r.1 = 0 then .error .EASSERTFAIL
    else
      let i := if r.2 ≠ 0 then r.1 - 1 else r.1
      match loadPageAt d (page.keys.getD i default).offset
          (page.keys.getD i default).config with
      | .error e => .error e
      | .ok child => .ok ⟨i, r.2, some child⟩

theorem bp__search_scan_ge (cfg : BpCfg) (keys : List BpKV) (kv : BpKV)
    (i : Nat) (cmp : Int) : i ≤ (bp__search_scan cfg keys kv i cmp).1 := by
  have H : ∀ n i cmp, keys.length - i = n → i ≤ (bp__search_scan cfg keys kv i cmp).1 := by
    intro n
    induction n with
    | zero =>
      intro i cmp hn
      rw [bp__search_scan]
      have : ¬ i < keys.length := by omega
      rw [dif_neg this]
    | succ n ih =>
      intro i cmp hn
      rw [bp__search_scan]
      have hi : i < keys.length := by omega
      rw [dif_pos hi]
      by_cases hc : (0 : Int) ≤ cfg.compare (keys.get ⟨i, hi⟩).value kv.value
      · simp only [if_pos hc]
        exact le_refl i
      · simp only [if_neg hc]
        have := ih (i + 1) (cfg.compare (keys.get ⟨i, hi⟩).value kv.value) (by omega)
        omega
  exact H _ i cmp rfl

theorem bp__search_scan_le (cfg : BpCfg) (keys : List BpKV) (kv : BpKV)
    (i : Nat) (cmp : Int) (hi : i ≤ keys.length) :
    (bp__search_scan cfg keys kv i cmp).1 ≤ keys.length := by
  have H : ∀ n i cmp, keys.length - i = n → i ≤ keys.length →
      (bp__search_scan cfg keys kv i cmp).1 ≤ keys.length := by
    intro n
    induction n with
    | zero =>
      intro i cmp hn hle
      rw [bp__search_scan]
      have : ¬ i < keys.length := by omega
      rw [dif_neg this]
      exact hle
    | succ n ih =>
      intro i cmp hn hle
      rw [bp__search_scan]
      have hlt : i < keys.length := by omega
      rw [dif_pos hlt]
      by_cases hc : (0 : Int) ≤ cfg.compare (keys.get ⟨i, hlt⟩).value kv.value
      · simp only [if_pos hc]
        omega
      · simp only [if_neg hc]
        exact ih (i + 1) _ (by omega) (by omega)
  exact H _ i cmp rfl hi

/-- All entries the scan stepped over compared negative. -/
theorem bp__search_scan_passed (cfg : BpCfg) (keys : List BpKV) (kv : BpKV)
    (i : Nat) (cmp : Int) :
    ∀ j, i ≤ j → j < (bp__search_scan cfg keys kv i cmp).1 →
      cfg.compare (keys.getD j default).value kv.value < 0 := by
  have H : ∀ n i cmp, keys.length - i = n →
      ∀ j, i ≤ j → j < (bp__search_scan cfg keys kv i cmp).1 →
        cfg.compare (keys.getD j default).value kv.value < 0 := by
    intro n
    induction n with
    | zero =>
      intro i cmp hn
      rw [bp__search_scan]
      have : ¬ i < keys.length := by omega
      rw [dif_neg this]
      intro j h1 h2
      omega
    | succ n ih =>
      intro i cmp hn
      rw [bp__search_scan]
      have hlt : i < keys.length := by omega
      rw [dif_pos hlt]
      by_cases hc : (0 : Int) ≤ cfg.compare (keys.get ⟨i, hlt⟩).value kv.value
      · simp only [if_pos hc]
        intro j h1 h2
        omega
      · simp only [if_neg hc]
        intro j h1 h2
        rcases Nat.eq_or_lt_of_le h1 with heq | h1'
        · subst heq
          have hgd : keys.getD i default = keys.get ⟨i, hlt⟩ := List.getD_eq_get _ _ _
          rw [hgd]
          omega
        · exact ih (i + 1) _ (by omega) j h1' h2
  exact H _ i cmp rfl

/-- If the scan stopped inside the list, it stopped at the first
non-negative comparison, and `cmp` is that comparison. -/
theorem bp__search_scan_stop (cfg : BpCfg) (keys : List BpKV) (kv : BpKV)
    (i : Nat) (cmp : Int)
    (hlt : (bp__search_scan cfg keys kv i cmp).1 < keys.length) :
    0 ≤ (bp__search_scan cfg keys kv i cmp).2 ∧
      (bp__search_scan cfg keys kv i cmp).2 =
        cfg.compare ((keys.getD (bp__search_scan cfg keys kv i cmp).1 default)).value
          kv.value := by
  have H : ∀ n i cmp, keys.length - i = n →
      (bp__search_scan cfg keys kv i cmp).1 < keys.length →
      0 ≤ (bp__search_scan cfg keys kv i cmp).2 ∧
        (bp__search_scan cfg keys kv i cmp).2 =
          cfg.compare ((keys.getD (bp__search_scan cfg keys kv i cmp).1 default)).value
            kv.value := by
    intro n
    induction n with
    | zero =>
      intro i cmp hn hlt'
      rw [bp__search_scan] at hlt' ⊢
      have : ¬ i < keys.length := by omega
      rw [dif_neg this] at hlt' ⊢
      omega
    | succ n ih =>
      intro i cmp hn hlt'
      rw [bp__search_scan] at hlt' ⊢
      have hi : i < keys.length := by omega
      rw [dif_pos hi] at hlt' ⊢
      by_cases hc : (0 : Int) ≤ cfg.compare (keys.get ⟨i, hi⟩).value kv.value
      · simp only [if_pos hc] at hlt' ⊢
        refine ⟨hc, ?_⟩
        rw [List.getD_eq_get _ _ hi]
      · simp only [if_neg hc] at hlt' ⊢
        exact ih (i + 1) _ (by omega) hlt'
  exact H _ i cmp rfl hlt

/-- If the scan ran off the end, `cmp` is the comparison at the last
scanned entry, or the initial value if no entry was scanned. -/
theorem bp__search_scan_off_end (cfg : BpCfg) (keys : List BpKV) (kv : BpKV)
    (i : Nat) (cmp : Int)
    (hend : (bp__search_scan cfg keys kv i cmp).1 = keys.length) :
    (i < keys.length →
      (bp__search_scan cfg keys kv i cmp).2 =
        cfg.compare ((keys.getD (keys.length - 1) default)).value kv.value) ∧
    (keys.length ≤ i → (bp__search_scan cfg keys kv i cmp).2 = cmp) := by
  have H : ∀ n i cmp, keys.length - i = n →
      (bp__search_scan cfg keys kv i cmp).1 = keys.length →
      (i < keys.length →
        (bp__search_scan cfg keys kv i cmp).2 =
          cfg.compare ((keys.getD (keys.length - 1) default)).value kv.value) ∧
      (keys.length ≤ i → (bp__search_scan cfg keys kv i cmp).2 = cmp) := by
    intro n
    induction n with
    | zero =>
      intro i cmp hn hend'
      rw [bp__search_scan] at hend' ⊢
      have : ¬ i < keys.length := by omega
      rw [dif_neg this] at hend' ⊢
      exact ⟨fun h => absurd h this, fun _ => rfl⟩
    | succ n ih =>
      intro i cmp hn hend'
      rw [bp__search_scan] at hend' ⊢
      have hi : i < keys.length := by omega
      rw [dif_pos hi] at hend' ⊢
      by_cases hc : (0 : Int) ≤ cfg.compare (keys.get ⟨i, hi⟩).value kv.value
      · simp only [if_pos hc] at hend' ⊢
        omega
      · simp only [if_neg hc] at hend' ⊢
        refine ⟨fun _ => ?_, fun h => by omega⟩
        rcases Nat.lt_or_ge (i + 1) keys.length with h1 | h1
        · exact (ih (i + 1) _ (by omega) hend').1 h1
        · have hlast : i = keys.length - 1 := by omega
          have hstep := (ih (i + 1) _ (by omega) hend').2 h1
          rw [hstep]
          have hgd : keys.getD (keys.length - 1) default = keys.get ⟨i, hi⟩ := by
            rw [← hlast, List.getD_eq_get _ _ hi]
          rw [hgd]
  exact H _ i cmp rfl hend

/-- The scan result never ends below the list length with a negative
comparison: either it stopped (`0 ≤ cmp`) or it ran off the end. -/
theorem bp__search_scan_cases (cfg : BpCfg) (keys : List BpKV) (kv : BpKV)
    (i : Nat) (cmp : Int) (hi : i ≤ keys.length) :
    (bp__search_scan cfg keys kv i cmp).1 = keys.length ∨
      ((bp__search_scan cfg keys kv i cmp).1 < keys.length ∧
        0 ≤ (bp__search_scan cfg keys kv i cmp).2) := by
  rcases Nat.lt_or_ge (bp__search_scan cfg keys kv i cmp).1 keys.length with h | h
  · exact Or.inr ⟨h, (bp__search_scan_stop cfg keys kv i cmp h).1⟩
  · exact Or.inl (le_antisymm (bp__search_scan_le cfg keys kv i cmp hi) h)

/-- Off-the-end scans keep a negative `cmp` if they started with one. -/
theorem bp__search_scan_neg (cfg : BpCfg) (keys : List BpKV) (kv : BpKV)
    (i : Nat) (cmp : Int) (hcmp : cmp < 0)
    (hend : (bp__search_scan cfg keys kv i cmp).1 = keys.length) :
    (bp__search_scan cfg keys kv i cmp).2 < 0 := by
  have H : ∀ n i cmp, keys.length - i = n → cmp < 0 →
      (bp__search_scan cfg keys kv i cmp).1 = keys.length →
      (bp__search_scan cfg keys kv i cmp).2 < 0 := by
    intro n
    induction n with
    | zero =>
      intro i cmp hn hcmp' hend'
      rw [bp__search_scan] at hend' ⊢
      have : ¬ i < keys.length := by omega
      rw [dif_neg this] at hend' ⊢
      exact hcmp'
    | succ n ih =>
      intro i cmp hn hcmp' hend'
      rw [bp__search_scan] at hend' ⊢
      have hi : i < keys.length := by omega
      rw [dif_pos hi] at hend' ⊢
      by_cases hc : (0 : Int) ≤ cfg.compare (keys.get ⟨i, hi⟩).value kv.value
      · simp only [if_pos hc] at hend' ⊢
        omega
      · simp only [if_neg hc] at hend' ⊢
        exact ih (i + 1) _ (by omega) (by omega) hend'
  exact H _ i cmp rfl hcmp hend

/-- A `getD` at an in-range index is the corresponding element. -/
theorem getD_eq_getElem {l : List BpKV} {i : Nat} (h : i < l.length) :
    l.getD i default = l[i] := by
  rw [List.getD_eq_get _ _ h]
  rfl

/-- C4: characterization of `bp__page_search`.  With `i0 = 1` for internal
pages and `i0 = 0` for leaves, the scan stops at the first index whose
comparison is `≥ 0` (every skipped entry compared `< 0`), or at `length`;
`cmp` is the last comparison performed, `-1` if there was none; internal
pages descend into entry `cmp == 0 ? i : i - 1`; and on a leaf whose keys
are strictly sorted by a coherent comparator, `cmp == 0` iff some entry
compares equal to the probe.  (Internal pages always carry their synthetic
first entry, whence the `1 ≤ length` hypothesis.) -/
theorem claim_C4 (cfg : BpCfg) (d : Disk) (page : BpPage) (kv : BpKV)
    (res : BpSearchRes)
    (hint : page.type = .kPage → 1 ≤ page.keys.length)
    (hok : bp__page_search cfg d page kv = .ok res) :
    ∀ i0, i0 = (if page.type = .kPage then 1 else 0) →
    ∀ r, r = bp__search_scan cfg page.keys kv i0 (-1) →
      (i0 ≤ r.1 ∧ r.1 ≤ page.keys.length ∧
        (∀ j, i0 ≤ j → j < r.1 →
          cfg.compare (page.keys.getD j default).value kv.value < 0) ∧
        (r.1 < page.keys.length →
          0 ≤ r.2 ∧
            r.2 = cfg.compare (page.keys.getD r.1 default).value kv.value) ∧
        (r.1 = page.keys.length →
          (i0 < page.keys.length →
            r.2 = cfg.compare (page.keys.getD (page.keys.length - 1) default).value
              kv.value) ∧
          (page.keys.length ≤ i0 → r.2 = -1))) ∧
      (page.type = .kPage →
        res.index = (if r.2 = 0 then r.1 else r.1 - 1) ∧ res.cmp = r.2 ∧
          ∃ c, loadPageAt d (page.keys.getD res.index default).offset
              (page.keys.getD res.index default).config = .ok c ∧
            res.child = some c) ∧
      (page.type = .kLeaf →
        res = ⟨r.1, r.2, none⟩ ∧
        (page.keys.Pairwise (fun a b => cfg.compare a.value b.value < 0) →
         (∀ a b c' : List Nat, cfg.compare a b < 0 → cfg.compare b c' = 0 →
            cfg.compare a c' < 0) →
         (r.2 = 0 ↔ ∃ j, j < page.keys.length ∧
            cfg.compare (page.keys.getD j default).value kv.value = 0))) := by
  intro i0 hi0 r hr
  have hi0len : i0 ≤ page.keys.length := by
    by_cases ht : page.type = .kPage
    · rw [hi0, if_pos ht]
      exact hint ht
    · rw [hi0, if_neg ht]
      omega
  refine ⟨?_, ?_, ?_⟩
  · refine ⟨hr ▸ bp__search_scan_ge cfg page.keys kv i0 (-1),
      hr ▸ bp__search_scan_le cfg page.keys kv i0 (-1) hi0len,
      hr ▸ bp__search_scan_passed cfg page.keys kv i0 (-1), ?_, ?_⟩
    · intro hlt
      exact hr ▸ bp__search_scan_stop cfg page.keys kv i0 (-1) (hr ▸ hlt)
    · intro hend
      exact hr ▸ bp__search_scan_off_end cfg page.keys kv i0 (-1) (hr ▸ hend)
  · intro ht
    have hscan_r : bp__search_scan cfg page.keys kv 1 (-1) = r := by
      rw [hr, hi0, if_pos ht]
    simp only [bp__page_search] at hok
    rw [ht] at hok
    rw [if_neg (by decide : ¬ (PageType.kPage = PageType.kLeaf))] at hok
    rw [if_pos rfl] at hok
    rw [hscan_r] at hok
    by_cases hz : r.1 = 0
    · rw [if_pos hz] at hok
      exact Except.noConfusion hok
    · rw [if_neg hz] at hok
      by_cases hc : r.2 = 0
      · rw [if_neg (not_not_intro hc)] at hok
        rw [if_pos hc]
        cases hload : loadPageAt d (page.keys.getD r.1 default).offset
            (page.keys.getD r.1 default).config with
        | error e =>
          rw [hload] at hok
          exact Except.noConfusion hok
        | ok c =>
          rw [hload] at hok
          have hres : res = ⟨r.1, r.2, some c⟩ := by
            cases hok
            rfl
          rw [hres]
          exact ⟨rfl, rfl, c, hload, rfl⟩
      · rw [if_pos hc] at hok
        rw [if_neg hc]
        cases hload : loadPageAt d (page.keys.getD (r.1 - 1) default).offset
            (page.keys.getD (r.1 - 1) default).config with
        | error e =>
          rw [hload] at hok
          exact Except.noConfusion hok
        | ok c =>
          rw [hload] at hok
          have hres : res = ⟨r.1 - 1, r.2, some c⟩ := by
            cases hok
            rfl
          rw [hres]
          exact ⟨rfl, rfl, c, hload, rfl⟩
  · intro ht
    have hscan_r : bp__search_scan cfg page.keys kv 0 (-1) = r := by
      rw [hr, hi0, if_neg (by rw [ht]; decide)]
    simp only [bp__page_search] at hok
    rw [ht] at hok
    rw [if_neg (by decide : ¬ (PageType.kLeaf = PageType.kPage))] at hok
    rw [if_pos rfl] at hok
    rw [hscan_r] at hok
    have hres : res = ⟨r.1, r.2, none⟩ := by
      cases hok
      rfl
    refine ⟨hres, ?_⟩
    intro hsorted hcoh
    constructor
    · intro hc0
      rcases bp__search_scan_cases cfg page.keys kv 0 (-1) (by omega) with hend | hstop
      · rw [hscan_r] at hend
        have hneg := bp__search_scan_neg cfg page.keys kv 0 (-1) (by omega)
          (by rw [hscan_r]; exact hend)
        rw [hscan_r] at hneg
        omega
      · rw [hscan_r] at hstop
        have hstop2 := bp__search_scan_stop cfg page.keys kv 0 (-1)
          (by rw [hscan_r]; exact hstop.1)
        rw [hscan_r] at hstop2
        exact ⟨r.1, hstop.1, by rw [← hstop2.2]; exact hc0⟩
    · rintro ⟨j, hjlt, hjeq⟩
      by_contra hne
      -- the scan cannot stop strictly before j (those entries are smaller
      -- than entry j = kv, hence compare negative), cannot stop at j (cmp
      -- would be 0), and cannot pass j (skipped entries compare negative).
      rcases Nat.lt_trichotomy r.1 j with hlt | heq | hgt
      · have hr1lt : r.1 < page.keys.length := by omega
        have hstop := bp__search_scan_stop cfg page.keys kv 0 (-1)
          (by rw [hscan_r]; exact hr1lt)
        rw [hscan_r] at hstop
        have hsort : cfg.compare (page.keys.getD r.1 default).value
            (page.keys.getD j default).value < 0 := by
          rw [getD_eq_getElem hr1lt, getD_eq_getElem hjlt]
          exact (List.pairwise_iff_getElem.mp hsorted) r.1 j hr1lt hjlt hlt
        have := hcoh _ _ _ hsort hjeq
        omega
      · have hr1lt : r.1 < page.keys.length := by omega
        have hstop := bp__search_scan_stop cfg page.keys kv 0 (-1)
          (by rw [hscan_r]; exact hr1lt)
        rw [hscan_r] at hstop
        rw [heq] at hstop
        rw [← heq] at hjeq
        rw [← heq] at hstop
        exact hne (by rw [hstop.2]; exact hjeq)
      · have := bp__search_scan_passed cfg page.keys kv 0 (-1) j (by omega)
          (by rw [hscan_r]; exact hgt)
        omega

/-! ## The default comparator -/

/-- Modelled from the spec: the default comparator installed at `open`
(`tree.c` is not under `src/`): "`memcmp` with shorter-is-less tiebreak",
i.e. compare byte-wise, and on a tie the shorter key is smaller.  Only the
sign of the result is ever used. -/
def bp__default_compare_cb : List Nat → List Nat → Int
  | [], [] => 0
  | [], _ :: _ => -1
  | _ :: _, [] => 1
  | a :: as, b :: bs =>
      if a < b then -1 else if b < a then 1 else bp__default_compare_cb as bs

theorem dcmp_vals (a b : List Nat) :
    bp__default_compare_cb a b = -1 ∨ bp__default_compare_cb a b = 0 ∨
      bp__default_compare_cb a b = 1 := by
  induction a generalizing b with
  | nil => cases b <;> simp [bp__default_compare_cb]
  | cons x as ih =>
    cases b with
    | nil => simp [bp__default_compare_cb]
    | cons y bs =>
      by_cases h1 : x < y
      · simp [bp__default_compare_cb, h1]
      · by_cases h2 : y < x
        · simp [bp__default_compare_cb, h1, h2]
        · simpa [bp__default_compare_cb, h1, h2] using ih bs

theorem dcmp_eq_zero_iff (a b : List Nat) :
    bp__default_compare_cb a b = 0 ↔ a = b := by
  induction a generalizing b with
  | nil => cases b <;> simp [bp__default_compare_cb]
  | cons x as ih =>
    cases b with
    | nil => simp [bp__default_compare_cb]
    | cons y bs =>
      by_cases h1 : x < y
      · simp [bp__default_compare_cb, h1]
        omega
      · by_cases h2 : y < x
        · simp [bp__default_compare_cb, h1, h2]
          omega
        · have hxy : x = y := by omega
          simp [bp__default_compare_cb, h1, h2, hxy, ih bs]

theorem dcmp_self (a : List Nat) : bp__default_compare_cb a a = 0 :=
  (dcmp_eq_zero_iff a a).mpr rfl

theorem dcmp_neg_iff (a b : List Nat) :
    bp__default_compare_cb a b = -1 ↔ bp__default_compare_cb b a = 1 := by
  induction a generalizing b with
  | nil => cases b <;> simp [bp__default_compare_cb]
  | cons x as ih =>
    cases b with
    | nil => simp [bp__default_compare_cb]
    | cons y bs =>
      by_cases h1 : x < y
      · have h2 : ¬ y < x := by omega
        simp [bp__default_compare_cb, h1, h2]
      · by_cases h2 : y < x
        · simp [bp__default_compare_cb, h1, h2]
        · simp [bp__default_compare_cb, h1, h2, ih bs]

theorem dcmp_trans (a b c : List Nat)
    (h1 : bp__default_compare_cb a b = -1) (h2 : bp__default_compare_cb b c = -1) :
    bp__default_compare_cb a c = -1 := by
  induction a generalizing b c with
  | nil =>
    cases b with
    | nil => simp [bp__default_compare_cb] at h1
    | cons y bs =>
      cases c with
      | nil => simp [bp__default_compare_cb] at h2
      | cons z cs => simp [bp__default_compare_cb]
  | cons x as ih =>
    cases b with
    | nil => simp [bp__default_compare_cb] at h1
    | cons y bs =>
      cases c with
      | nil => simp [bp__default_compare_cb] at h2
      | cons z cs =>
        by_cases hxy : x < y
        · by_cases hyz : y < z
          · simp [bp__default_compare_cb, show x < z by omega]
          · by_cases hzy : z < y
            · simp [bp__default_compare_cb, hyz, hzy] at h2
            · have : y = z := by omega
              subst this
              simp [bp__default_compare_cb, hxy]
        · by_cases hyx : y < x
          · simp [bp__default_compare_cb, hxy, hyx] at h1
          · have hxy' : x = y := by omega
            subst hxy'
            simp only [bp__default_compare_cb, if_neg hxy, if_neg hyx] at h1
            by_cases hyz : x < z
            · simp [bp__default_compare_cb, hyz]
            · by_cases hzy : z < x
              · simp [bp__default_compare_cb, hyz, hzy] at h2
              · have : x = z := by omega
                subst this
                simp only [bp__default_compare_cb, if_neg hyz, if_neg hzy] at h2 ⊢
                exact ih bs cs h1 h2

/-- Concrete page and probe for the C4 witness. -/
def c4page : BpPage :=
  { type := .kLeaf,
    keys := [⟨1, 0, 0, [1], false⟩, ⟨1, 0, 0, [2], false⟩, ⟨1, 0, 0, [4], false⟩],
    byte_size := 75, offset := 0, config := 0 }

def c4cfg : BpCfg := ⟨4, bp__default_compare_cb⟩

def c4probe : BpKV := ⟨1, 0, 0, [2], false⟩

theorem c4scan_eval :
    bp__search_scan c4cfg c4page.keys c4probe 0 (-1) = (1, 0) := by
  rw [bp__search_scan]
  norm_num [c4cfg, c4page, c4probe, bp__default_compare_cb]
  rw [bp__search_scan]
  norm_num [c4cfg, c4page, c4probe, bp__default_compare_cb]

theorem c4search_eval :
    bp__page_search c4cfg [] c4page c4probe = .ok ⟨1, 0, none⟩ := by
  simp only [bp__page_search]
  rw [show c4page.type = PageType.kLeaf from rfl]
  rw [if_neg (by decide : ¬ (PageType.kLeaf = PageType.kPage))]
  rw [c4scan_eval]
  rw [if_pos rfl]

/-- Witness for `claim_C4`: on a concrete sorted three-entry leaf, the
probe equal to the middle key makes the scan stop there with `cmp = 0`. -/
theorem claim_C4_witness :
    (bp__search_scan c4cfg c4page.keys c4probe 0 (-1)).2 = 0 ↔
      ∃ j, j < c4page.keys.length ∧
        c4cfg.compare (c4page.keys.getD j default).value c4probe.value = 0 := by
  have h := claim_C4 c4cfg [] c4page c4probe ⟨1, 0, none⟩
    (fun hh => absurd hh (by decide)) c4search_eval 0 (by decide) _ rfl
  refine (h.2.2 rfl).2 ?_ ?_
  · decide
  · intro a b c' h1 h2
    have hbc : b = c' := (dcmp_eq_zero_iff b c').mp h2
    subst hbc
    omega

/-! ## Page mutation helpers and split -/

/-- `bp__kv_copy(source, target, 1)` (src/pages.c:496-516): the target gets
a private copy of the key bytes (byte-identical in the model) with
`allocated = 1`.  (`malloc` failure is assumed not to occur.) -/
def bp__kv_copy_alloc (kv : BpKV) : BpKV := { kv with allocated := true }

/-- `bp__page_remove_idx` (src/pages.c:393-409): subtract the entry's
serialized size from `byte_size`, shift the tail left, decrement `length`.
The C `assert(index < page->length)` holds at every call site; under it,
`eraseIdx` and truncating subtraction agree exactly with the C code. -/
def bp__page_remove_idx (page : BpPage) (index : Nat) : BpPage :=
  { page with
      byte_size := page.byte_size - BP__KV_SIZE (page.keys.getD index default),
      keys := page.keys.eraseIdx index }

/-- Overwriting `page->keys[index].offset/config` with a child's new
position (src/pages.c:253-255, 327-329, 460-462). -/
def setChildRef : List BpKV → Nat → Nat → Nat → List BpKV
  | [], _, _, _ => []
  | x :: xs, 0, off, cfg => { x with offset := off, config := cfg } :: xs
  | x :: xs, n + 1, off, cfg => x :: setChildRef xs n off cfg

/-- `bp__page_split` (src/pages.c:412-472).  `middle = page_size >> 1`;
entries `[0, middle)` are copied into `left` and entries `[middle,
page_size)` into `right` (with `bp__kv_copy(..., 1)`), and the KV at
`middle` is copied again as `middle_key`.  Note the C code sets
`right->length = middle` even though it copied `page_size - middle` entries
into `right`'s slots and summed all of them into `right->byte_size`; the
model's `right.keys` is therefore the first `middle` copied entries while
`right.byte_size` sums all copied entries (they agree iff `page_size` is
even).  Both halves are saved, the parent entry at `index` is repointed at
`left`, and `middle_key`, pointing at `right`, is inserted at `index + 1`
(`bp__page_shiftr` plus `bp__kv_copy(..., 0)` is an insertion).  The three
`bp__page_destroy` calls only free memory. -/
def bp__page_split (cfg : BpCfg) (d : Disk) (parent : BpPage) (index : Nat)
    (child : BpPage) : Disk × Except BpErr BpPage :=
  let middle := cfg.page_size / 2
  let middle_key0 := bp__kv_copy_alloc (child.keys.getD middle default)
  let left : BpPage :=
    { type := child.type,
      keys := (child.keys.take middle).map bp__kv_copy_alloc,
      byte_size := sumKVSize (child.keys.take middle),
      offset := 0, config := 0 }
  let rightCopied := (child.keys.drop middle).take (cfg.page_size - middle)
  let right : BpPage :=
    { type := child.type,
      keys := (rightCopied.take middle).map bp__kv_copy_alloc,
      byte_size := sumKVSize rightCopied,
      offset := 0, config := 0 }
  match bp__page_save d left with
  | .error e => (d, .error e)
  | .ok (d1, left') =>
    match bp__page_save d1 right with
    | .error e => (d1, .error e)
    | .ok (d2, right') =>
      let middle_key :=
        { middle_key0 with offset := right'.offset, config := right'.config }
      (d2, .ok { parent with
                   keys := setChildRef (parent.keys.insertIdx (index + 1) middle_key)
                     index left'.offset left'.config,
                   byte_size := parent.byte_size + BP__KV_SIZE middle_key })

/-- The full leaf used as the C3 failing input: `page_size = 5` and a child
holding exactly 5 single-byte keys. -/
def c3child : BpPage :=
  { type := .kLeaf,
    keys := [⟨1, 0, 0, [0], false⟩, ⟨1, 0, 1, [1], false⟩, ⟨1, 0, 2, [2], false⟩,
             ⟨1, 0, 3, [3], false⟩, ⟨1, 0, 4, [4], false⟩],
    byte_size := 125, offset := 0, config := 0 }

/-- C3 (failing input): with an odd `page_size = 5`, `middle = 2`, the copy
loop moves `page_size - middle = 3` entries into `right` and sums their
sizes into `right->byte_size`, but `right->length` is set to `middle = 2`;
the claim's "right has `page_size - middle` entries" fails, and
`bp__page_save(right)` trips its own `assert(o == page->byte_size)`
(modelled as `EASSERTFAIL`).  With `NDEBUG`, one copied entry would be
dropped and `byte_size` bytes (one uninitialized KV included) written. -/
theorem claim_C3 :
    c3child.keys.length = 5 ∧
    ((c3child.keys.drop (5 / 2)).take (5 - 5 / 2)).length = 5 - 5 / 2 ∧
    (((c3child.keys.drop (5 / 2)).take (5 / 2)).map bp__kv_copy_alloc).length =
      5 / 2 ∧
    sumKVSize ((c3child.keys.drop (5 / 2)).take (5 - 5 / 2)) ≠
      sumKVSize (((c3child.keys.drop (5 / 2)).take (5 / 2)).map bp__kv_copy_alloc) ∧
    (bp__page_split ⟨5, bp__default_compare_cb⟩ [] (bp__page_create .kPage 0 0) 0
        c3child).2 = .error .EASSERTFAIL := by
  refine ⟨rfl, rfl, rfl, by decide, ?_⟩
  rfl

/-! ## Get, insert, remove -/

/-- `bp_value_t`: `value = none` models the `NULL` data pointer of an empty
read. -/
structure BpValue where
  length : Nat
  value : Option (List Nat)
  deriving DecidableEq, Repr

/-- `bp__page_get` (src/pages.c:196-220).  On a leaf hit the value blob is
read back with `*size`, the leaf KV's `config` (the value byte length).
`fuel` bounds the recursion depth (see the file header). -/
def bp__page_get (cfg : BpCfg) (fuel : Nat) (d : Disk) (page : BpPage)
    (kv : BpKV) : Except BpErr BpValue :=
  match fuel with
  | 0 => .error .EFUEL
  | fuel + 1 =>
    match bp__page_search cfg d page kv with
    | .error e => .error e
    | .ok res =>
      match res.child with
      | none =>
          if res.cmp ≠ 0 then .error .ENOTFOUND
          else
            match bp__writer_read .kCompressed
                (page.keys.getD res.index default).offset
                (page.keys.getD res.index default).config d with
            | .error e => .error e
            | .ok (data, size') => .ok ⟨size', data⟩
      | some child => bp__page_get cfg fuel d child kv

/-- Result of `bp__page_insert`: `BP_OK` (with the mutated, saved page and
the grown file), `BP_ESPLITPAGE` (the page is full and not the root: it is
handed back unsaved for the caller to split), or an error.  Every variant
carries the file so that aborted operations show exactly what was
appended. -/
inductive IRes where
  | ok (d : Disk) (page : BpPage)
  | splitpage (d : Disk) (page : BpPage)
  | err (d : Disk) (e : BpErr)
  deriving Repr

/-- The tail of `bp__page_insert` (src/pages.c:262-284): split the root in
place if it filled up (building a fresh internal root and splitting into
it), signal `ESPLITPAGE` for a full non-root page, and otherwise
`assert(length < page_size)` and save. -/
def bp__page_insert_finish (cfg : BpCfg) (isRoot : Bool) (d : Disk)
    (page : BpPage) : IRes :=
  if page.keys.length = cfg.page_size then
    if isRoot then
      match bp__page_split cfg d (bp__page_create .kPage 0 0) 0 page with
      | (d', .error e) => .err d' e
      | (d', .ok new_root) =>
          if new_root.keys.length < cfg.page_size then
            match bp__page_save d' new_root with
            | .error e => .err d' e
            | .ok (d'', page') => .ok d'' page'
          else .err d' .EASSERTFAIL
    else .splitpage d page
  else
    if page.keys.length < cfg.page_size then
      match bp__page_save d page with
      | .error e => .err d e
      | .ok (d', page') => .ok d' page'
    else .err d .EASSERTFAIL

/-- `bp__page_insert` (src/pages.c:223-285).  At the leaf: a `cmp == 0` hit
removes the old entry first, then the new KV is inserted at the scan index
(`bp__page_shiftr` + `bp__kv_copy(kv, ..., 1)`) and `byte_size`/`length`
are bumped.  At an internal node the child's insert either returns
normally (its new `offset/config` are patched into the parent entry) or
signals `ESPLITPAGE`, in which case the full child is split at `index`.
The in-place root split is triggered by `page == t->head_page`, modelled
by the `isRoot` flag (recursive calls pass a freshly loaded child, never
the root). -/
def bp__page_insert (cfg : BpCfg) (fuel : Nat) (isRoot : Bool) (d : Disk)
    (page : BpPage) (kv : BpKV) : IRes :=
  match fuel with
  | 0 => .err d .EFUEL
  | fuel + 1 =>
    match bp__page_search cfg d page kv with
    | .error e => .err d e
    | .ok res =>
      match res.child with
      | none =>
          let page1 := if res.cmp = 0 then bp__page_remove_idx page res.index else page
          let page2 :=
            { page1 with
                keys := page1.keys.insertIdx res.index (bp__kv_copy_alloc kv),
                byte_size := page1.byte_size + BP__KV_SIZE kv }
          bp__page_insert_finish cfg isRoot d page2
      | some child =>
          match bp__page_insert cfg fuel false d child kv with
          | .err d' e => .err d' e
          | .splitpage d' child' =>
              match bp__page_split cfg d' page res.index child' with
              | (d'', .error e) => .err d'' e
              | (d'', .ok page') => bp__page_insert_finish cfg isRoot d'' page'
          | .ok d' child' =>
              let page1 :=
                { page with
                    keys := setChildRef page.keys res.index child'.offset child'.config }
              bp__page_insert_finish cfg isRoot d' page1

/-- Result of `bp__page_remove`: `BP_OK`, `BP_EEMPTYPAGE` (the page became
empty and is not the root; it is handed back unsaved and the caller drops
its entry), or an error (`ENOTFOUND` included).  Every variant carries the
file. -/
inductive RRes where
  | ok (d : Disk) (page : BpPage)
  | emptypage (d : Disk) (page : BpPage)
  | err (d : Disk) (e : BpErr)
  deriving Repr

/-- The save tail shared by all normal exits of `bp__page_remove`
(src/pages.c:336-339). -/
def bp__page_remove_save (d : Disk) (page : BpPage) : RRes :=
  match bp__page_save d page with
  | .error e => .err d e
  | .ok (d', page') => .ok d' page'

/-- `bp__page_remove` (src/pages.c:288-340).  At the leaf: `ENOTFOUND` on a
miss, else remove by index, signalling `EEMPTYPAGE` when the page emptied
and is not the root (`t->head_page != page`, modelled by `isRoot`).  At an
internal node: a normal child return patches the child's new position in;
on `EEMPTYPAGE` the child's entry is removed, and if exactly one entry
remains the page adopts that entry's `offset/config` and reloads itself
from it (the collapse), then saves. -/
def bp__page_remove (cfg : BpCfg) (fuel : Nat) (isRoot : Bool) (d : Disk)
    (page : BpPage) (kv : BpKV) : RRes :=
  match fuel with
  | 0 => .err d .EFUEL
  | fuel + 1 =>
    match bp__page_search cfg d page kv with
    | .error e => .err d e
    | .ok res =>
      match res.child with
      | none =>
          if res.cmp ≠ 0 then .err d .ENOTFOUND
          else
            let page1 := bp__page_remove_idx page res.index
            if page1.keys.length = 0 ∧ isRoot = false then .emptypage d page1
            else bp__page_remove_save d page1
      | some child =>
          match bp__page_remove cfg fuel false d child kv with
          | .err d' e => .err d' e
          | .emptypage d' _ =>
              let page1 := bp__page_remove_idx page res.index
              if page1.keys.length = 1 then
                let page2 := { page1 with
                                 offset := (page1.keys.getD 0 default).offset,
                                 config := (page1.keys.getD 0 default).config }
                let page3 := bp__page_remove_idx page2 0
                match bp__page_load d' page3 with
                | .error e => .err d' e
                | .ok page4 => bp__page_remove_save d' page4
              else bp__page_remove_save d' page1
          | .ok d' child' =>
              let page1 :=
                { page with
                    keys := setChildRef page.keys res.index child'.offset child'.config }
              bp__page_remove_save d' page1

/-! ## The tree layer

`tree.c` is not under `src/`; the definitions below are modelled from the
spec (sections 4.3 and 6): `set` appends the value blob and inserts a leaf
KV carrying `(voffset, value length)`; `get` dereferences it; mutations
rewrite the fixed-size uncompressed head block; the default comparator is
installed at open.  The head's `hash` magic constant is unknown (it is
never inspected by any claim); it is written as 0. -/

/-- The tree handle: the writer's file, the in-memory root
(`t->head_page`), and the head fields `page_size` plus the comparator. -/
structure BpTree where
  d : Disk
  head_page : BpPage
  page_size : Nat
  compare : List Nat → List Nat → Int

/-- The `bp_tree_t` fields the page engine consumes. -/
def BpTree.cfg (t : BpTree) : BpCfg := ⟨t.page_size, t.compare⟩

/-- Modelled from the spec: rewriting the head block — an uncompressed
append of `page_size | hash | root offset | root config`. -/
def bp__tree_write_head (t : BpTree) : BpTree :=
  { t with d := (bp__writer_write .kNotCompressed
      (htonll t.page_size ++ htonll 0 ++ htonll t.head_page.offset ++
        htonll t.head_page.config) t.d).1 }

/-- Modelled from the spec: `set(key, value)` appends the value blob
(compressed) obtaining `voffset`, builds a leaf KV with `offset = voffset`
and `config = ` original value length, inserts it at the root and rewrites
the head. -/
def bp_set (fuel : Nat) (t : BpTree) (key value : List Nat) :
    Except BpErr BpTree :=
  let w := bp__writer_write .kCompressed value t.d
  let kv : BpKV := ⟨key.length, w.2.1, value.length, key, false⟩
  match bp__page_insert t.cfg fuel true w.1 t.head_page kv with
  | .ok d' root => .ok (bp__tree_write_head { t with d := d', head_page := root })
  | .splitpage _ _ => .error .ESPLITPAGE
  | .err _ e => .error e

/-- Modelled from the spec: `get(key)` is the recursive page get from the
root. -/
def bp_get (fuel : Nat) (t : BpTree) (key : List Nat) : Except BpErr BpValue :=
  bp__page_get t.cfg fuel t.d t.head_page ⟨key.length, 0, 0, key, false⟩

/-- Modelled from the spec: `remove(key)` is the recursive page remove from
the root followed by a head rewrite; errors leave the tree untouched. -/
def bp_remove (fuel : Nat) (t : BpTree) (key : List Nat) :
    Except BpErr BpTree :=
  match bp__page_remove t.cfg fuel true t.d t.head_page
      ⟨key.length, 0, 0, key, false⟩ with
  | .ok d' root => .ok (bp__tree_write_head { t with d := d', head_page := root })
  | .emptypage _ _ => .error .EEMPTYPAGE
  | .err _ e => .error e

/-- Modelled from the spec: a freshly created tree — an empty leaf root and
a head block written at the start of the file, with the default
comparator. -/
def bp_open_empty (page_size : Nat) : BpTree :=
  bp__tree_write_head
    { d := [], head_page := bp__page_create .kLeaf 0 0, page_size := page_size,
      compare := bp__default_compare_cb }

/-! ## Key order and abstract maps

The refinement proofs fix the comparator to `bp__default_compare_cb` (the
one a freshly opened tree uses).  The abstract state of a (sub)tree is a
`KMap`: the strictly sorted association list from key bytes to the leaf
entry's `(offset, config)` pair — for a leaf KV these locate the value
blob. -/

abbrev Key := List Nat

abbrev KMap := List (Key × Nat × Nat)

/-- Strictly-less in the default comparator's order. -/
def klt (a b : Key) : Prop := bp__default_compare_cb a b = -1

instance (a b : Key) : Decidable (klt a b) := by
  unfold klt
  infer_instance

theorem klt_irrefl (a : Key) : ¬ klt a a := by
  unfold klt
  rw [dcmp_self]
  decide

theorem klt_trans {a b c : Key} (h1 : klt a b) (h2 : klt b c) : klt a c :=
  dcmp_trans a b c h1 h2

theorem klt_asymm {a b : Key} (h : klt a b) : ¬ klt b a := by
  intro h2
  exact klt_irrefl a (klt_trans h h2)

theorem klt_ne {a b : Key} (h : klt a b) : a ≠ b := by
  intro he
  subst he
  exact klt_irrefl a h

theorem klt_connex {a b : Key} (h : a ≠ b) : klt a b ∨ klt b a := by
  rcases dcmp_vals a b with h1 | h1 | h1
  · exact Or.inl h1
  · exact absurd ((dcmp_eq_zero_iff a b).mp h1) h
  · exact Or.inr ((dcmp_neg_iff b a).mpr h1)

theorem dcmp_nonneg_iff (a b : Key) :
    0 ≤ bp__default_compare_cb a b ↔ ¬ klt a b := by
  unfold klt
  rcases dcmp_vals a b with h | h | h <;> rw [h] <;> norm_num

theorem dcmp_lt_zero_iff (a b : Key) :
    bp__default_compare_cb a b < 0 ↔ klt a b := by
  unfold klt
  rcases dcmp_vals a b with h | h | h <;> rw [h] <;> norm_num

theorem klt_of_le_of_lt {a b c : Key} (h1 : ¬ klt b a) (h2 : klt b c)
    (hne : a = b ∨ klt a b) : klt a c := by
  rcases hne with rfl | h
  · exact h2
  · exact klt_trans h h2

/-- `≤` in the order: equal or strictly less. -/
def kle (a b : Key) : Prop := a = b ∨ klt a b

theorem kle_of_not_klt {a b : Key} (h : ¬ klt b a) : kle a b := by
  by_cases he : a = b
  · exact Or.inl he
  · rcases klt_connex he with h1 | h1
    · exact Or.inr h1
    · exact absurd h1 h

theorem not_klt_of_kle {a b : Key} (h : kle a b) : ¬ klt b a := by
  rcases h with rfl | h
  · exact klt_irrefl a
  · exact klt_asymm h

theorem kle_klt_trans {a b c : Key} (h1 : kle a b) (h2 : klt b c) : klt a c := by
  rcases h1 with rfl | h1
  · exact h2
  · exact klt_trans h1 h2

theorem klt_kle_trans {a b c : Key} (h1 : klt a b) (h2 : kle b c) : klt a c := by
  rcases h2 with rfl | h2
  · exact h1
  · exact klt_trans h1 h2

theorem kle_trans {a b c : Key} (h1 : kle a b) (h2 : kle b c) : kle a c := by
  rcases h1 with rfl | h1
  · exact h2
  · exact Or.inr (klt_kle_trans h1 h2)

/-! ### KMap operations -/

/-- Sorted insertion with replacement of an equal key. -/
def kmInsert (k : Key) (oc : Nat × Nat) : KMap → KMap
  | [] => [(k, oc)]
  | x :: xs =>
      if klt x.1 k then x :: kmInsert k oc xs
      else if x.1 = k then (k, oc) :: xs
      else (k, oc) :: x :: xs

/-- Removal of the (first) binding for `k`. -/
def kmErase (k : Key) : KMap → KMap
  | [] => []
  | x :: xs => if x.1 = k then xs else x :: kmErase k xs

/-- Lookup. -/
def kmFind (k : Key) : KMap → Option (Nat × Nat)
  | [] => none
  | x :: xs => if x.1 = k then some x.2 else kmFind k xs

def KMSorted (m : KMap) : Prop := m.Pairwise (fun x y => klt x.1 y.1)

theorem kmFind_nil (k : Key) : kmFind k [] = none := rfl

theorem kmFind_cons (k : Key) (x : Key × Nat × Nat) (xs : KMap) :
    kmFind k (x :: xs) = if x.1 = k then some x.2 else kmFind k xs := rfl

theorem kmInsert_nil (k : Key) (oc : Nat × Nat) : kmInsert k oc [] = [(k, oc)] := rfl

theorem kmInsert_cons (k : Key) (oc : Nat × Nat) (x : Key × Nat × Nat) (xs : KMap) :
    kmInsert k oc (x :: xs) =
      if klt x.1 k then x :: kmInsert k oc xs
      else if x.1 = k then (k, oc) :: xs
      else (k, oc) :: x :: xs := rfl

theorem kmErase_nil (k : Key) : kmErase k [] = [] := rfl

theorem kmErase_cons (k : Key) (x : Key × Nat × Nat) (xs : KMap) :
    kmErase k (x :: xs) = if x.1 = k then xs else x :: kmErase k xs := rfl

theorem kmFind_eq_none {k : Key} {m : KMap} :
    kmFind k m = none ↔ ∀ x ∈ m, x.1 ≠ k := by
  induction m with
  | nil => simp [kmFind_nil]
  | cons x xs ih =>
    rw [kmFind_cons]
    by_cases hx : x.1 = k
    · simp [hx]
    · simp [hx, ih]

theorem kmInsert_mem {k : Key} {oc : Nat × Nat} {m : KMap} {x : Key × Nat × Nat}
    (hx : x ∈ kmInsert k oc m) : x ∈ m ∨ x = (k, oc) := by
  induction m with
  | nil =>
    rw [kmInsert_nil] at hx
    exact Or.inr (by simpa using hx)
  | cons y ys ih =>
    rw [kmInsert_cons] at hx
    by_cases h1 : klt y.1 k
    · rw [if_pos h1] at hx
      rcases List.mem_cons.mp hx with rfl | hx'
      · exact Or.inl (by simp)
      · rcases ih hx' with h | h
        · exact Or.inl (by simp [h])
        · exact Or.inr h
    · rw [if_neg h1] at hx
      by_cases h2 : y.1 = k
      · rw [if_pos h2] at hx
        rcases List.mem_cons.mp hx with rfl | hx'
        · exact Or.inr rfl
        · exact Or.inl (by simp [hx'])
      · rw [if_neg h2] at hx
        rcases List.mem_cons.mp hx with rfl | hx'
        · exact Or.inr rfl
        · exact Or.inl hx'

theorem kmInsert_sorted {k : Key} {oc : Nat × Nat} {m : KMap}
    (hs : KMSorted m) : KMSorted (kmInsert k oc m) := by
  induction m with
  | nil =>
    rw [kmInsert_nil]
    exact List.pairwise_singleton _ _
  | cons x xs ih =>
    have hs' : KMSorted xs := (List.pairwise_cons.mp hs).2
    have hx : ∀ y ∈ xs, klt x.1 y.1 := (List.pairwise_cons.mp hs).1
    rw [kmInsert_cons]
    by_cases h1 : klt x.1 k
    · rw [if_pos h1]
      refine List.pairwise_cons.mpr ⟨?_, ih hs'⟩
      intro y hy
      rcases kmInsert_mem hy with h | rfl
      · exact hx y h
      · exact h1
    · rw [if_neg h1]
      by_cases h2 : x.1 = k
      · rw [if_pos h2]
        refine List.pairwise_cons.mpr ⟨?_, hs'⟩
        intro y hy
        rw [← h2]
        exact hx y hy
      · rw [if_neg h2]
        have hkx : klt k x.1 := by
          rcases klt_connex (fun he => h2 he.symm) with h | h
          · exact h
          · exact absurd h h1
        refine List.pairwise_cons.mpr ⟨?_, hs⟩
        intro y hy
        rcases List.mem_cons.mp hy with rfl | hy'
        · exact hkx
        · exact klt_trans hkx (hx y hy')

theorem kmFind_kmInsert_self {k : Key} {oc : Nat × Nat} {m : KMap} :
    kmFind k (kmInsert k oc m) = some oc := by
  induction m with
  | nil =>
    rw [kmInsert_nil, kmFind_cons, if_pos rfl]
  | cons x xs ih =>
    rw [kmInsert_cons]
    by_cases h1 : klt x.1 k
    · rw [if_pos h1, kmFind_cons, if_neg (klt_ne h1)]
      exact ih
    · rw [if_neg h1]
      by_cases h2 : x.1 = k
      · rw [if_pos h2, kmFind_cons, if_pos rfl]
      · rw [if_neg h2, kmFind_cons, if_pos rfl]

theorem kmFind_kmInsert_ne {k k' : Key} {oc : Nat × Nat} {m : KMap}
    (hne : k' ≠ k) : kmFind k' (kmInsert k oc m) = kmFind k' m := by
  have hkk' : k ≠ k' := fun h => hne h.symm
  induction m with
  | nil =>
    rw [kmInsert_nil, kmFind_cons, if_neg hkk', kmFind_nil]
  | cons x xs ih =>
    rw [kmInsert_cons]
    by_cases h1 : klt x.1 k
    · rw [if_pos h1, kmFind_cons, kmFind_cons]
      by_cases hx : x.1 = k'
      · rw [if_pos hx, if_pos hx]
      · rw [if_neg hx, if_neg hx]
        exact ih
    · rw [if_neg h1]
      by_cases h2 : x.1 = k
      · rw [if_pos h2, kmFind_cons, kmFind_cons, if_neg hkk',
          if_neg (show ¬ x.1 = k' by rw [h2]; exact hkk')]
      · rw [if_neg h2, kmFind_cons, if_neg hkk']

theorem kmErase_sublist (k : Key) (m : KMap) : (kmErase k m).Sublist m := by
  induction m with
  | nil => exact List.Sublist.refl []
  | cons x xs ih =>
    rw [kmErase_cons]
    by_cases h1 : x.1 = k
    · rw [if_pos h1]
      exact List.sublist_cons_self x xs
    · rw [if_neg h1]
      exact ih.cons₂ x

theorem kmErase_sorted {k : Key} {m : KMap} (hs : KMSorted m) :
    KMSorted (kmErase k m) :=
  hs.sublist (kmErase_sublist k m)

theorem kmErase_mem {k : Key} {m : KMap} {x : Key × Nat × Nat}
    (hx : x ∈ kmErase k m) : x ∈ m :=
  (kmErase_sublist k m).subset hx

theorem kmFind_kmErase_ne {k k' : Key} {m : KMap} (hne : k' ≠ k)
    (hs : KMSorted m) : kmFind k' (kmErase k m) = kmFind k' m := by
  induction m with
  | nil => rfl
  | cons x xs ih =>
    have hs' : KMSorted xs := (List.pairwise_cons.mp hs).2
    rw [kmErase_cons]
    by_cases h1 : x.1 = k
    · rw [if_pos h1, kmFind_cons,
        if_neg (show ¬ x.1 = k' by rw [h1]; exact fun h => hne h.symm)]
    · rw [if_neg h1, kmFind_cons, kmFind_cons]
      by_cases hx : x.1 = k'
      · rw [if_pos hx, if_pos hx]
      · rw [if_neg hx, if_neg hx]
        exact ih hs'

/-- Segments entirely below the key pass through `kmInsert`. -/
theorem kmInsert_append_left {k : Key} {oc : Nat × Nat} {A B : KMap}
    (hA : ∀ x ∈ A, klt x.1 k) :
    kmInsert k oc (A ++ B) = A ++ kmInsert k oc B := by
  induction A with
  | nil => simp
  | cons x xs ih =>
    rw [List.cons_append, kmInsert_cons, if_pos (hA x (by simp)),
      ih (fun y hy => hA y (by simp [hy])), List.cons_append]

/-- Segments entirely above the key pass through `kmInsert`. -/
theorem kmInsert_append_right {k : Key} {oc : Nat × Nat} {B C : KMap}
    (hC : ∀ x ∈ C, klt k x.1) :
    kmInsert k oc (B ++ C) = kmInsert k oc B ++ C := by
  induction B with
  | nil =>
    cases C with
    | nil => simp
    | cons y ys =>
      have hy := hC y (by simp)
      rw [List.nil_append, kmInsert_cons, if_neg (klt_asymm hy),
        if_neg (fun h => klt_ne hy h.symm), kmInsert_nil, List.cons_append,
        List.nil_append]
  | cons x xs ih =>
    rw [List.cons_append, kmInsert_cons, kmInsert_cons]
    by_cases h1 : klt x.1 k
    · rw [if_pos h1, if_pos h1, ih, List.cons_append]
    · rw [if_neg h1, if_neg h1]
      by_cases h2 : x.1 = k
      · rw [if_pos h2, if_pos h2, List.cons_append]
      · rw [if_neg h2, if_neg h2, List.cons_append, List.cons_append]

/-- Prefix segments without the key pass through `kmErase`. -/
theorem kmErase_append_left {k : Key} {A B : KMap}
    (hA : ∀ x ∈ A, x.1 ≠ k) :
    kmErase k (A ++ B) = A ++ kmErase k B := by
  induction A with
  | nil => simp
  | cons x xs ih =>
    rw [List.cons_append, kmErase_cons, if_neg (hA x (by simp)),
      ih (fun y hy => hA y (by simp [hy])), List.cons_append]

theorem kmErase_of_not_mem {k : Key} {C : KMap} (hC : ∀ x ∈ C, x.1 ≠ k) :
    kmErase k C = C := by
  induction C with
  | nil => rfl
  | cons y ys ihc =>
    rw [kmErase_cons, if_neg (hC y (by simp)),
      ihc (fun x hx => hC x (by simp [hx]))]

/-- Suffix segments without the key pass through `kmErase`. -/
theorem kmErase_append_right {k : Key} {B C : KMap}
    (hC : ∀ x ∈ C, x.1 ≠ k) :
    kmErase k (B ++ C) = kmErase k B ++ C := by
  induction B with
  | nil =>
    rw [List.nil_append, kmErase_of_not_mem hC, kmErase_nil, List.nil_append]
  | cons x xs ih =>
    rw [List.cons_append, kmErase_cons, kmErase_cons]
    by_cases h1 : x.1 = k
    · rw [if_pos h1, if_pos h1]
    · rw [if_neg h1, if_neg h1, ih, List.cons_append]

/-- Prefix segments without the key pass through `kmFind`. -/
theorem kmFind_append_left {k : Key} {A B : KMap}
    (hA : ∀ x ∈ A, x.1 ≠ k) :
    kmFind k (A ++ B) = kmFind k B := by
  induction A with
  | nil => simp
  | cons x xs ih =>
    rw [List.cons_append, kmFind_cons, if_neg (hA x (by simp))]
    exact ih (fun y hy => hA y (by simp [hy]))

/-- A binding found in the prefix hides the suffix. -/
theorem kmFind_append_right {k : Key} {B C : KMap} {v : Nat × Nat}
    (hB : kmFind k B = some v) : kmFind k (B ++ C) = some v := by
  induction B with
  | nil => exact absurd hB (by simp [kmFind_nil])
  | cons x xs ih =>
    rw [kmFind_cons] at hB
    rw [List.cons_append, kmFind_cons]
    by_cases h1 : x.1 = k
    · rw [if_pos h1] at hB ⊢
      exact hB
    · rw [if_neg h1] at hB ⊢
      exact ih hB

/-! ### Append-only growth and read stability -/

/-- `d'` is `d` with more data appended — the only way the writer ever
changes the file. -/
def Extends (d d' : Disk) : Prop := ∃ tail, d' = d ++ tail

theorem Extends.refl (d : Disk) : Extends d d := ⟨[], by simp⟩

theorem Extends.trans {d1 d2 d3 : Disk} (h1 : Extends d1 d2)
    (h2 : Extends d2 d3) : Extends d1 d3 := by
  obtain ⟨t1, rfl⟩ := h1
  obtain ⟨t2, rfl⟩ := h2
  exact ⟨t1 ++ t2, by simp⟩

theorem Extends.length_le {d d' : Disk} (h : Extends d d') :
    d.length ≤ d'.length := by
  obtain ⟨t, rfl⟩ := h
  simp

theorem bp__writer_write_extends (comp : CompType) (data : List Nat) (d : Disk) :
    Extends d (bp__writer_write comp data d).1 :=
  bp__writer_write_prefix comp data d

theorem bp__page_save_extends {d d' : Disk} {p p' : BpPage}
    (h : bp__page_save d p = .ok (d', p')) : Extends d d' := by
  unfold bp__page_save at h
  by_cases h1 : ¬(p.type = .kLeaf ∨ p.keys.length ≠ 0)
  · rw [if_pos h1] at h
    exact Except.noConfusion h
  · rw [if_neg h1] at h
    by_cases h2 : sumKVSize p.keys ≠ p.byte_size
    · rw [if_pos h2] at h
      exact Except.noConfusion h
    · rw [if_neg h2] at h
      have : d' = (bp__writer_write .kCompressed (serPage p.keys) d).1 := by
        cases h
        rfl
      rw [this]
      exact bp__writer_write_extends _ _ _

/-- Reads of committed data survive appends. -/
theorem bp__writer_read_mono {d d' : Disk} {off size : Nat} {v}
    (h : bp__writer_read .kCompressed off size d = .ok v)
    (he : Extends d d') :
    bp__writer_read .kCompressed off size d' = .ok v := by
  obtain ⟨tail, rfl⟩ := he
  unfold bp__writer_read at h ⊢
  by_cases h1 : d.length < (off + size) % 2 ^ 64
  · rw [if_pos h1] at h
    exact Except.noConfusion h
  · rw [if_neg h1] at h
    have h1' : ¬ (d ++ tail).length < (off + size) % 2 ^ 64 := by
      simp only [List.length_append]
      omega
    rw [if_neg h1']
    by_cases h2 : size = 0
    · rw [if_pos h2] at h ⊢
      exact h
    · rw [if_neg h2] at h ⊢
      by_cases h3 : off + size ≤ d.length
      · rw [if_pos h3] at h
        have h3' : off + size ≤ (d ++ tail).length := by
          simp only [List.length_append]
          omega
        rw [if_pos h3']
        have hslice : ((d ++ tail).drop off).take size = (d.drop off).take size := by
          rw [List.drop_append_of_le_length (by omega)]
          rw [List.take_append_of_le_length (by simp [List.length_drop]; omega)]
        rw [hslice]
        exact h
      · rw [if_neg h3] at h
        exact Except.noConfusion h

/-- `bp__page_load` with its locals inlined. -/
theorem bp__page_load_eq (d : Disk) (page : BpPage) :
    bp__page_load d page =
      match bp__writer_read .kCompressed page.offset (page.config / 2) d with
      | .error e => .error e
      | .ok (buff, size') =>
          .ok { page with
                  type := if page.config % 2 = 1 then PageType.kLeaf
                    else PageType.kPage,
                  keys := parseKVs (buff.getD []), byte_size := size' } := rfl

/-- Loads of committed pages survive appends. -/
theorem loadPageAt_mono {d d' : Disk} {off cfgv : Nat} {c : BpPage}
    (h : loadPageAt d off cfgv = .ok c) (he : Extends d d') :
    loadPageAt d' off cfgv = .ok c := by
  unfold loadPageAt at h ⊢
  rw [bp__page_load_eq] at h ⊢
  cases hr : bp__writer_read .kCompressed
      (bp__page_create .kPage off cfgv).offset
      ((bp__page_create .kPage off cfgv).config / 2) d with
  | error e =>
    rw [hr] at h
    exact Except.noConfusion h
  | ok v =>
    rw [hr] at h
    rw [bp__writer_read_mono hr he]
    exact h

/-! ### Index bookkeeping for `insertIdx`, `eraseIdx`, `setChildRef` -/

theorem getD_insertIdx_lt {l : List BpKV} {n k : Nat} {x : BpKV}
    (hn : n ≤ l.length) (hk : k < n) :
    (l.insertIdx n x).getD k default = l.getD k default := by
  have hk' : k < l.length := by omega
  have hk'' : k < (l.insertIdx n x).length := by
    rw [List.length_insertIdx n l hn]
    omega
  rw [List.getD_eq_getElem _ _ hk'', List.getD_eq_getElem _ _ hk']
  exact List.getElem_insertIdx_of_lt l x n k hk hk'

theorem getD_insertIdx_self {l : List BpKV} {n : Nat} {x : BpKV}
    (hn : n ≤ l.length) :
    (l.insertIdx n x).getD n default = x := by
  have hn' : n < (l.insertIdx n x).length := by
    rw [List.length_insertIdx n l hn]
    omega
  rw [List.getD_eq_getElem _ _ hn']
  exact List.getElem_insertIdx_self l x n hn

theorem getD_insertIdx_gt {l : List BpKV} {n k : Nat} {x : BpKV}
    (hn : n ≤ l.length) (hk : n < k) :
    (l.insertIdx n x).getD k default = l.getD (k - 1) default := by
  induction l generalizing n k with
  | nil =>
    have hn0 : n = 0 := by simpa using hn
    subst hn0
    cases k with
    | zero => omega
    | succ k' =>
      show ([x] : List BpKV).getD (k' + 1) default = _
      cases k' <;> rfl
  | cons y ys ih =>
    cases n with
    | zero =>
      cases k with
      | zero => omega
      | succ k' =>
        show ((x :: y :: ys).getD (k' + 1) default) = (y :: ys).getD k' default
        rfl
    | succ n' =>
      cases k with
      | zero => omega
      | succ k' =>
        show ((y :: (ys.insertIdx n' x)).getD (k' + 1) default) =
          (y :: ys).getD k' default
        cases hk' : k' with
        | zero => omega
        | succ k'' =>
          have := ih (n := n') (k := k') (by simpa using hn) (by omega)
          subst hk'
          simpa using this

theorem getD_eraseIdx_lt {l : List BpKV} {n k : Nat} (hk : k < n) :
    (l.eraseIdx n).getD k default = l.getD k default := by
  by_cases hk' : k < (l.eraseIdx n).length
  · rw [List.getD_eq_getElem _ _ hk']
    rw [List.getD_eq_getElem _ _ (by
      have := l.length_eraseIdx n
      by_cases hn : n < l.length <;> simp [hn] at this <;> omega)]
    exact List.getElem_eraseIdx_of_lt l n k hk' hk
  · have hlen := l.length_eraseIdx n
    rw [List.getD_eq_default _ _ (by omega)]
    rw [List.getD_eq_default _ _ (by
      by_cases hn : n < l.length <;> simp [hn] at hlen <;> omega)]

theorem getD_eraseIdx_ge {l : List BpKV} {n k : Nat} (hn : n < l.length)
    (hk : n ≤ k) (hkl : k + 1 < l.length) :
    (l.eraseIdx n).getD k default = l.getD (k + 1) default := by
  have hlen := l.length_eraseIdx n
  rw [if_pos hn] at hlen
  have hk' : k < (l.eraseIdx n).length := by omega
  rw [List.getD_eq_getElem _ _ hk', List.getD_eq_getElem _ _ hkl]
  exact List.getElem_eraseIdx_of_ge l n k hk' hk

theorem setChildRef_length (l : List BpKV) (i off cfgv : Nat) :
    (setChildRef l i off cfgv).length = l.length := by
  induction l generalizing i with
  | nil => rfl
  | cons x xs ih =>
    cases i with
    | zero => rfl
    | succ i' =>
      show (x :: setChildRef xs i' off cfgv).length = (x :: xs).length
      simpa using ih i'

theorem getD_setChildRef_self {l : List BpKV} {i off cfgv : Nat}
    (hi : i < l.length) :
    (setChildRef l i off cfgv).getD i default =
      { l.getD i default with offset := off, config := cfgv } := by
  induction l generalizing i with
  | nil => simp at hi
  | cons x xs ih =>
    cases i with
    | zero => rfl
    | succ i' =>
      show (setChildRef xs i' off cfgv).getD i' default = _
      exact ih (by simpa using hi)

theorem getD_setChildRef_ne {l : List BpKV} {i j off cfgv : Nat}
    (hij : i ≠ j) :
    (setChildRef l i off cfgv).getD j default = l.getD j default := by
  induction l generalizing i j with
  | nil => cases i <;> rfl
  | cons x xs ih =>
    cases i with
    | zero =>
      cases j with
      | zero => omega
      | succ j' => rfl
    | succ i' =>
      cases j with
      | zero => rfl
      | succ j' =>
        show (setChildRef xs i' off cfgv).getD j' default = xs.getD j' default
        exact ih (by omega)

/-- The flatten of a list of segments, cut at segment `i`. -/
theorem flatten_segment {ms : List KMap} {i : Nat} (hi : i < ms.length) :
    ms.flatten = (ms.take i).flatten ++ (ms.getD i [] ++ (ms.drop (i + 1)).flatten) := by
  conv_lhs => rw [← List.take_append_drop i ms]
  rw [List.flatten_append, List.drop_eq_getElem_cons hi, List.flatten_cons]
  rw [List.getD_eq_getElem _ _ hi]

theorem mem_flatten_of_mem_getD (ms : List KMap) {i : Nat} {x : Key × Nat × Nat}
    (hi : i < ms.length) (hx : x ∈ ms.getD i []) : x ∈ ms.flatten := by
  rw [List.mem_flatten]
  refine ⟨ms.getD i [], ?_, hx⟩
  rw [List.getD_eq_getElem _ _ hi]
  exact List.getElem_mem _

theorem mem_take_flatten {ms : List KMap} {i : Nat} {x : Key × Nat × Nat}
    (hx : x ∈ (ms.take i).flatten) :
    ∃ j, j < i ∧ j < ms.length ∧ x ∈ ms.getD j [] := by
  rw [List.mem_flatten] at hx
  obtain ⟨l, hl, hxl⟩ := hx
  obtain ⟨j, hj, hjl⟩ := List.getElem_of_mem hl
  have hlen : (ms.take i).length = min i ms.length := List.length_take i ms
  have hjlen : j < ms.length := by omega
  refine ⟨j, by omega, hjlen, ?_⟩
  rw [List.getD_eq_getElem _ _ hjlen]
  rw [List.getElem_take] at hjl
  rw [hjl]
  exact hxl

theorem mem_drop_flatten {ms : List KMap} {i : Nat} {x : Key × Nat × Nat}
    (hx : x ∈ (ms.drop (i + 1)).flatten) :
    ∃ j, i + 1 ≤ j ∧ j < ms.length ∧ x ∈ ms.getD j [] := by
  rw [List.mem_flatten] at hx
  obtain ⟨l, hl, hxl⟩ := hx
  obtain ⟨j, hj, hjl⟩ := List.getElem_of_mem hl
  have hjlen : i + 1 + j < ms.length := by
    have := ms.length_drop (i + 1)
    omega
  refine ⟨i + 1 + j, by omega, hjlen, ?_⟩
  rw [List.getD_eq_getElem _ _ hjlen]
  rw [List.getElem_drop] at hjl
  rw [hjl]
  exact hxl

/-! ### The representation invariant -/

/-- Well-formedness of a stored KV: the key buffer really holds `length`
bytes, a page of up to `page_size` such entries keeps `byte_size` below
`2^63` (so `config = (csize << 1) | leaf` fits in 64 bits), and the
`offset/config` fields fit in their `uint64_t`s. -/
def WfKV (ps : Nat) (kv : BpKV) : Prop :=
  kv.value.length = kv.length ∧ (24 + kv.length) * ps < 2 ^ 63 ∧
    kv.offset < 2 ^ 64 ∧ kv.config < 2 ^ 64

def WfKVs (ps : Nat) (l : List BpKV) : Prop := ∀ kv ∈ l, WfKV ps kv

/-- The page's `byte_size` is the sum of its entries' serialized sizes. -/
def PageShape (p : BpPage) : Prop := p.byte_size = sumKVSize p.keys

theorem WfKV.toKVBounds {ps : Nat} {kv : BpKV} (hps : 1 ≤ ps)
    (h : WfKV ps kv) : KVBounds kv := by
  obtain ⟨h1, h2, h3, h4⟩ := h
  refine ⟨h1, ?_, h3, h4⟩
  have hm : (24 + kv.length) * 1 ≤ (24 + kv.length) * ps :=
    Nat.mul_le_mul_left _ hps
  have h63 : (2 : Nat) ^ 63 < 2 ^ 64 := by norm_num
  omega

/-- The abstract binding a leaf entry represents. -/
def kvEntry (kv : BpKV) : Key × Nat × Nat := (kv.value, kv.offset, kv.config)

/-- A leaf page representing the map `m`. -/
def LeafRep (ps : Nat) (p : BpPage) (m : KMap) : Prop :=
  p.type = .kLeaf ∧ PageShape p ∧ WfKVs ps p.keys ∧
  m = p.keys.map kvEntry ∧
  p.keys.Pairwise (fun a b => klt a.value b.value)

/-- An internal-page entry whose `(offset, config)` loads to a page
satisfying `rec` for the segment map `mm`; non-root pages are never left
empty (`EEMPTYPAGE` discipline), so `mm ≠ []`. -/
def ChildAt (rec : BpPage → KMap → Prop) (d : Disk) (kv : BpKV)
    (mm : KMap) : Prop :=
  (∃ c, loadPageAt d kv.offset kv.config = .ok c ∧ rec c mm) ∧ mm ≠ []

/-- An internal page: at least two entries (one entry triggers the collapse
in `bp__page_remove`, so it never persists), every entry's child on disk
represents its segment, segments at index `i ≥ 1` lie at or above the
entry's key, every segment lies strictly below the next entry's key, and
entries from index 1 on are strictly increasing.  The first entry's key is
never compared (the scan starts at 1), so it is unconstrained. -/
def NodeRep (ps : Nat) (rec : BpPage → KMap → Prop) (d : Disk) (p : BpPage)
    (m : KMap) : Prop :=
  p.type = .kPage ∧ PageShape p ∧ WfKVs ps p.keys ∧ 2 ≤ p.keys.length ∧
  ∃ ms : List KMap,
    ms.length = p.keys.length ∧
    m = ms.flatten ∧
    (∀ i, i < p.keys.length →
      ChildAt rec d (p.keys.getD i default) (ms.getD i [])) ∧
    (∀ i, 1 ≤ i → i < p.keys.length →
      ∀ x ∈ ms.getD i [], ¬ klt x.1 (p.keys.getD i default).value) ∧
    (∀ i, i + 1 < p.keys.length →
      (∀ x ∈ ms.getD i [], klt x.1 (p.keys.getD (i + 1) default).value) ∧
      (1 ≤ i → klt (p.keys.getD i default).value (p.keys.getD (i + 1) default).value))

/-- A page represents `m` at height bound `h` over the file `d`: a leaf, or
an internal page whose children (strictly below `page_size` entries, as all
saved pages are) represent their segments at bound `h - 1`.  Collapses can
shorten single subtrees, so `h` is an upper bound, not an exact height. -/
def PageRep (ps : Nat) : Nat → Disk → BpPage → KMap → Prop
  | 0, _, p, m => LeafRep ps p m
  | h + 1, d, p, m =>
      LeafRep ps p m ∨
      NodeRep ps (fun c mm => c.keys.length < ps ∧ PageRep ps h d c mm) d p m

theorem ChildAt_mono {rec rec' : BpPage → KMap → Prop} {d d' : Disk}
    {kv : BpKV} {mm : KMap} (hrec : ∀ c mm', rec c mm' → rec' c mm')
    (he : Extends d d') (h : ChildAt rec d kv mm) : ChildAt rec' d' kv mm := by
  obtain ⟨⟨c, hload, hc⟩, hne⟩ := h
  exact ⟨⟨c, loadPageAt_mono hload he, hrec c mm hc⟩, hne⟩

theorem NodeRep_mono {ps : Nat} {rec rec' : BpPage → KMap → Prop} {d d' : Disk}
    {p : BpPage} {m : KMap} (hrec : ∀ c mm', rec c mm' → rec' c mm')
    (he : Extends d d') (h : NodeRep ps rec d p m) : NodeRep ps rec' d' p m := by
  obtain ⟨h1, h2, h3, h4, ms, hms1, hms2, hch, hlo, hhi⟩ := h
  exact ⟨h1, h2, h3, h4, ms, hms1, hms2,
    fun i hi => ChildAt_mono hrec he (hch i hi), hlo, hhi⟩

theorem PageRep_mono_disk {ps h : Nat} {d d' : Disk} {p : BpPage} {m : KMap}
    (he : Extends d d') (hrep : PageRep ps h d p m) : PageRep ps h d' p m := by
  induction h generalizing p m with
  | zero => exact hrep
  | succ h ih =>
    rcases hrep with hleaf | hnode
    · exact Or.inl hleaf
    · exact Or.inr (NodeRep_mono (fun c mm' hc => ⟨hc.1, ih hc.2⟩) he hnode)

theorem PageRep_succ {ps h : Nat} {d : Disk} {p : BpPage} {m : KMap}
    (hrep : PageRep ps h d p m) : PageRep ps (h + 1) d p m := by
  induction h generalizing p m with
  | zero => exact Or.inl hrep
  | succ h ih =>
    rcases hrep with hleaf | hnode
    · exact Or.inl hleaf
    · exact Or.inr (NodeRep_mono (fun c mm' hc => ⟨hc.1, ih hc.2⟩)
        (Extends.refl d) hnode)

theorem PageRep_mono_height {ps h h' : Nat} {d : Disk} {p : BpPage} {m : KMap}
    (hh : h ≤ h') (hrep : PageRep ps h d p m) : PageRep ps h' d p m := by
  induction h' with
  | zero =>
    have : h = 0 := by omega
    subst this
    exact hrep
  | succ h' ih =>
    by_cases he : h = h' + 1
    · subst he
      exact hrep
    · exact PageRep_succ (ih (by omega))

theorem PageRep_leaf {ps h : Nat} {d : Disk} {p : BpPage} {m : KMap}
    (hleaf : LeafRep ps p m) : PageRep ps h d p m := by
  cases h with
  | zero => exact hleaf
  | succ h => exact Or.inl hleaf

/-- Entry keys of an internal page are monotone from index 1. -/
theorem NodeRep_entry_mono {ps : Nat} {rec : BpPage → KMap → Prop} {d : Disk}
    {p : BpPage} {m : KMap} (h : NodeRep ps rec d p m) :
    ∀ a b, 1 ≤ a → a ≤ b → b < p.keys.length →
      kle (p.keys.getD a default).value (p.keys.getD b default).value := by
  obtain ⟨_, _, _, _, ms, hms1, hms2, hch, hlo, hhi⟩ := h
  intro a b ha hab hb
  induction b with
  | zero => omega
  | succ b ih =>
    rcases Nat.eq_or_lt_of_le hab with heq | hlt
    · rw [heq]
      exact Or.inl rfl
    · have hstep : klt (p.keys.getD b default).value
          (p.keys.getD (b + 1) default).value := by
        refine (hhi b (by omega)).2 (by omega)
      rcases Nat.eq_or_lt_of_le (show a ≤ b by omega) with heq' | hlt'
      · rw [heq']
        exact Or.inr hstep
      · exact kle_trans (ih (by omega) (by omega)) (Or.inr hstep)

/-- Keys in different segments of an internal page are strictly ordered. -/
theorem NodeRep_segment_lt {ps : Nat} {rec : BpPage → KMap → Prop} {d : Disk}
    {p : BpPage} {m : KMap} (h : NodeRep ps rec d p m) :
    ∀ {ms : List KMap}, ms.length = p.keys.length → m = ms.flatten →
    (∀ i, i < p.keys.length →
      ChildAt rec d (p.keys.getD i default) (ms.getD i [])) →
    (∀ i, 1 ≤ i → i < p.keys.length →
      ∀ x ∈ ms.getD i [], ¬ klt x.1 (p.keys.getD i default).value) →
    (∀ i, i + 1 < p.keys.length →
      (∀ x ∈ ms.getD i [], klt x.1 (p.keys.getD (i + 1) default).value) ∧
      (1 ≤ i → klt (p.keys.getD i default).value (p.keys.getD (i + 1) default).value)) →
    ∀ j1 j2 x y, j1 < j2 → j2 < p.keys.length →
      x ∈ ms.getD j1 [] → y ∈ ms.getD j2 [] → klt x.1 y.1 := by
  intro ms hms1 hms2 hch hlo hhi j1 j2 x y hj12 hj2 hx hy
  have hxup : klt x.1 (p.keys.getD (j1 + 1) default).value :=
    (hhi j1 (by omega)).1 x hx
  have hylo : kle (p.keys.getD j2 default).value y.1 :=
    kle_of_not_klt (hlo j2 (by omega) hj2 y hy)
  have hmid : kle (p.keys.getD (j1 + 1) default).value
      (p.keys.getD j2 default).value :=
    NodeRep_entry_mono h (j1 + 1) j2 (by omega) (by omega) hj2
  exact klt_kle_trans hxup (kle_trans hmid hylo)

/-- The abstract map of any represented page is strictly sorted. -/
theorem PageRep_sorted {ps h : Nat} {d : Disk} {p : BpPage} {m : KMap}
    (hrep : PageRep ps h d p m) : KMSorted m := by
  induction h generalizing p m with
  | zero =>
    obtain ⟨_, _, _, hm, hsort⟩ := hrep
    rw [hm]
    unfold KMSorted
    rw [List.pairwise_map]
    exact hsort
  | succ h ih =>
    rcases hrep with hleaf | hnode
    · obtain ⟨_, _, _, hm, hsort⟩ := hleaf
      rw [hm]
      unfold KMSorted
      rw [List.pairwise_map]
      exact hsort
    · obtain ⟨h1, h2, h3, h4, ms, hms1, hms2, hch, hlo, hhi⟩ := hnode
      rw [hms2]
      unfold KMSorted
      rw [List.pairwise_flatten]
      constructor
      · intro l hl
        obtain ⟨i, hi, hil⟩ := List.getElem_of_mem hl
        have := hch i (by omega)
        obtain ⟨⟨c, _, hc⟩, _⟩ := this
        have hcm : ms.getD i [] = l := by
          rw [List.getD_eq_getElem _ _ hi, hil]
        rw [← hcm]
        exact ih hc.2
      · rw [List.pairwise_iff_getElem]
        intro i j hi hj hij x hx y hy
        refine NodeRep_segment_lt ⟨h1, h2, h3, h4, ms, hms1, hms2, hch, hlo, hhi⟩
          hms1 hms2 hch hlo hhi i j x y hij (by omega) ?_ ?_
        · rw [List.getD_eq_getElem _ _ hi]
          exact hx
        · rw [List.getD_eq_getElem _ _ hj]
          exact hy

/-- A sum of well-formed KV sizes over at most `page_size` entries stays
below `2^63`. -/
theorem sumKVSize_lt {ps : Nat} {keys : List BpKV} (hwf : WfKVs ps keys)
    (hlen : keys.length ≤ ps) (hps : 1 ≤ ps) : sumKVSize keys < 2 ^ 63 := by
  have hmul : ∀ l : List BpKV, WfKVs ps l →
      sumKVSize l * ps ≤ l.length * (2 ^ 63 - 1) := by
    intro l
    induction l with
    | nil =>
      intro _
      simp [sumKVSize]
    | cons kv rest ih =>
      intro hl
      have hkv : (24 + kv.length) * ps < 2 ^ 63 := (hl kv (by simp)).2.1
      have hrest := ih (fun x hx => hl x (by simp [hx]))
      have hsum : sumKVSize (kv :: rest) = BP__KV_SIZE kv + sumKVSize rest := by
        unfold sumKVSize
        simp
      have hkvsz : BP__KV_SIZE kv * ps < 2 ^ 63 := hkv
      rw [hsum, Nat.add_mul, List.length_cons, Nat.succ_mul]
      omega
  have h1 := hmul keys hwf
  have h2 : keys.length * (2 ^ 63 - 1) ≤ ps * (2 ^ 63 - 1) :=
    Nat.mul_le_mul_right _ hlen
  by_contra hcon
  push_neg at hcon
  have h3 : 2 ^ 63 * ps ≤ sumKVSize keys * ps := Nat.mul_le_mul_right _ hcon
  have h4 : ps * (2 ^ 63 - 1) < ps * 2 ^ 63 :=
    mul_lt_mul_of_pos_left (by norm_num) (by omega : (0 : Nat) < ps)
  have h5 : ps * 2 ^ 63 = 2 ^ 63 * ps := Nat.mul_comm _ _
  omega

theorem sumKVSize_cons (kv : BpKV) (l : List BpKV) :
    sumKVSize (kv :: l) = BP__KV_SIZE kv + sumKVSize l := by
  unfold sumKVSize
  simp

theorem sumKVSize_append (l1 l2 : List BpKV) :
    sumKVSize (l1 ++ l2) = sumKVSize l1 + sumKVSize l2 := by
  unfold sumKVSize
  simp

theorem sumKVSize_insertIdx {l : List BpKV} {n : Nat} {x : BpKV}
    (hn : n ≤ l.length) :
    sumKVSize (l.insertIdx n x) = sumKVSize l + BP__KV_SIZE x := by
  induction l generalizing n with
  | nil =>
    have : n = 0 := by simpa using hn
    subst this
    show sumKVSize [x] = sumKVSize [] + BP__KV_SIZE x
    rw [sumKVSize_cons]
    omega
  | cons y ys ih =>
    cases n with
    | zero =>
      show sumKVSize (x :: y :: ys) = _
      rw [sumKVSize_cons, sumKVSize_cons]
      omega
    | succ n' =>
      show sumKVSize (y :: ys.insertIdx n' x) = _
      rw [sumKVSize_cons, sumKVSize_cons, ih (by simpa using hn)]
      omega

theorem sumKVSize_eraseIdx {l : List BpKV} {i : Nat} (hi : i < l.length) :
    sumKVSize l = sumKVSize (l.eraseIdx i) + BP__KV_SIZE (l.getD i default) := by
  induction l generalizing i with
  | nil => simp at hi
  | cons y ys ih =>
    cases i with
    | zero =>
      show sumKVSize (y :: ys) = sumKVSize ys + _
      have hg : (y :: ys).getD 0 default = y := rfl
      rw [hg, sumKVSize_cons]
      omega
    | succ i' =>
      show sumKVSize (y :: ys) = sumKVSize (y :: ys.eraseIdx i') + _
      have hg : (y :: ys).getD (i' + 1) default = ys.getD i' default := rfl
      rw [hg, sumKVSize_cons, sumKVSize_cons, ih (by simpa using hi)]
      omega

theorem mem_insertIdx {l : List BpKV} {n : Nat} {x y : BpKV}
    (hy : y ∈ l.insertIdx n x) : y ∈ l ∨ y = x := by
  induction l generalizing n with
  | nil =>
    cases n with
    | zero => exact Or.inr (by simpa using hy)
    | succ n' => simp at hy
  | cons z zs ih =>
    cases n with
    | zero =>
      rcases List.mem_cons.mp hy with rfl | h
      · exact Or.inr rfl
      · exact Or.inl h
    | succ n' =>
      rcases List.mem_cons.mp hy with rfl | h
      · exact Or.inl (by simp)
      · rcases ih h with h' | h'
        · exact Or.inl (by simp [h'])
        · exact Or.inr h'

theorem WfKVs_insertIdx {ps : Nat} {l : List BpKV} {n : Nat} {x : BpKV}
    (hl : WfKVs ps l) (hx : WfKV ps x) : WfKVs ps (l.insertIdx n x) := by
  intro y hy
  rcases mem_insertIdx hy with h | rfl
  · exact hl y h
  · exact hx

theorem WfKVs_eraseIdx {ps : Nat} {l : List BpKV} {i : Nat}
    (hl : WfKVs ps l) : WfKVs ps (l.eraseIdx i) :=
  fun y hy => hl y ((l.eraseIdx_sublist i).subset hy)

theorem mem_setChildRef {l : List BpKV} {i off cfgv : Nat} {x : BpKV}
    (hx : x ∈ setChildRef l i off cfgv) :
    x ∈ l ∨ (i < l.length ∧
      x = { l.getD i default with offset := off, config := cfgv }) := by
  induction l generalizing i with
  | nil => cases i <;> simp [setChildRef] at hx
  | cons y ys ih =>
    cases i with
    | zero =>
      rcases List.mem_cons.mp hx with rfl | h
      · exact Or.inr ⟨by simp, rfl⟩
      · exact Or.inl (by simp [h])
    | succ i' =>
      rcases List.mem_cons.mp hx with rfl | h
      · exact Or.inl (by simp)
      · rcases ih h with h' | ⟨hlt, he⟩
        · exact Or.inl (by simp [h'])
        · exact Or.inr ⟨by simpa using hlt, he⟩

theorem sumKVSize_setChildRef (l : List BpKV) (i off cfgv : Nat) :
    sumKVSize (setChildRef l i off cfgv) = sumKVSize l := by
  induction l generalizing i with
  | nil => cases i <;> rfl
  | cons y ys ih =>
    cases i with
    | zero =>
      show sumKVSize ({ y with offset := off, config := cfgv } :: ys) = _
      rw [sumKVSize_cons, sumKVSize_cons]
      rfl
    | succ i' =>
      show sumKVSize (y :: setChildRef ys i' off cfgv) = _
      rw [sumKVSize_cons, sumKVSize_cons, ih]

theorem BP__KV_SIZE_kvLoaded (kv : BpKV) : BP__KV_SIZE (kvLoaded kv) = BP__KV_SIZE kv := rfl

theorem sumKVSize_map_kvLoaded (l : List BpKV) :
    sumKVSize (l.map kvLoaded) = sumKVSize l := by
  induction l with
  | nil => rfl
  | cons y ys ih =>
    show sumKVSize (kvLoaded y :: ys.map kvLoaded) = _
    rw [sumKVSize_cons, sumKVSize_cons, ih, BP__KV_SIZE_kvLoaded]

theorem sumKVSize_map_alloc (l : List BpKV) :
    sumKVSize (l.map bp__kv_copy_alloc) = sumKVSize l := by
  induction l with
  | nil => rfl
  | cons y ys ih =>
    show sumKVSize (bp__kv_copy_alloc y :: ys.map bp__kv_copy_alloc) = _
    rw [sumKVSize_cons, sumKVSize_cons, ih]
    rfl

theorem WfKV_kvLoaded {ps : Nat} {kv : BpKV} (h : WfKV ps kv) :
    WfKV ps (kvLoaded kv) := h

theorem map_kvEntry_kvLoaded (l : List BpKV) :
    (l.map kvLoaded).map kvEntry = l.map kvEntry := by
  induction l with
  | nil => rfl
  | cons y ys ih =>
    show kvEntry (kvLoaded y) :: (ys.map kvLoaded).map kvEntry = _
    rw [ih]
    rfl

theorem WfKV_alloc {ps : Nat} {kv : BpKV} (h : WfKV ps kv) :
    WfKV ps (bp__kv_copy_alloc kv) := h

/-! ### Accessors and save -/

theorem PageRep_shape {ps h : Nat} {d : Disk} {p : BpPage} {m : KMap}
    (hrep : PageRep ps h d p m) : PageShape p := by
  cases h with
  | zero => exact hrep.2.1
  | succ h =>
    rcases hrep with hl | hn
    · exact hl.2.1
    · exact hn.2.1

theorem PageRep_wf {ps h : Nat} {d : Disk} {p : BpPage} {m : KMap}
    (hrep : PageRep ps h d p m) : WfKVs ps p.keys := by
  cases h with
  | zero => exact hrep.2.2.1
  | succ h =>
    rcases hrep with hl | hn
    · exact hl.2.2.1
    · exact hn.2.2.1

theorem PageRep_save_pre {ps h : Nat} {d : Disk} {p : BpPage} {m : KMap}
    (hrep : PageRep ps h d p m) :
    p.type = .kLeaf ∨ p.keys.length ≠ 0 := by
  cases h with
  | zero => exact Or.inl hrep.1
  | succ h =>
    rcases hrep with hl | hn
    · exact Or.inl hl.1
    · right
      have := hn.2.2.2.1
      omega

/-- Transport of a representation to the page as it comes back from disk
(same fields, `allocated` cleared on all keys). -/
theorem PageRep_of_loaded {ps h : Nat} {d : Disk} {p : BpPage} {m : KMap}
    (hrep : PageRep ps h d p m) (q : BpPage) (htype : q.type = p.type)
    (hbs : q.byte_size = p.byte_size) (hkeys : q.keys = p.keys.map kvLoaded) :
    PageRep ps h d q m := by
  have hleafcase : ∀ m', LeafRep ps p m' → LeafRep ps q m' := by
    intro m' hl
    obtain ⟨h1, h2, h3, h4, h5⟩ := hl
    refine ⟨htype.trans h1, ?_, ?_, ?_, ?_⟩
    · unfold PageShape at h2 ⊢
      rw [hbs, hkeys, sumKVSize_map_kvLoaded]
      exact h2
    · intro kv hkv
      rw [hkeys] at hkv
      obtain ⟨kv0, hkv0, rfl⟩ := List.mem_map.mp hkv
      exact WfKV_kvLoaded (h3 kv0 hkv0)
    · rw [hkeys, h4, map_kvEntry_kvLoaded]
    · rw [hkeys]
      rw [List.pairwise_map]
      exact h5
  cases h with
  | zero => exact hleafcase m hrep
  | succ h =>
    rcases hrep with hl | hn
    · exact Or.inl (hleafcase m hl)
    · right
      obtain ⟨h1, h2, h3, h4, ms, hms1, hms2, hch, hlo, hhi⟩ := hn
      have hget : ∀ i, q.keys.getD i default = kvLoaded (p.keys.getD i default) := by
        intro i
        rw [hkeys]
        exact getD_map_kvLoaded p.keys i
      have hlen : q.keys.length = p.keys.length := by rw [hkeys]; simp
      refine ⟨htype.trans h1, ?_, ?_, by omega, ms, by omega, hms2, ?_, ?_, ?_⟩
      · unfold PageShape at h2 ⊢
        rw [hbs, hkeys, sumKVSize_map_kvLoaded]
        exact h2
      · intro kv hkv
        rw [hkeys] at hkv
        obtain ⟨kv0, hkv0, rfl⟩ := List.mem_map.mp hkv
        exact WfKV_kvLoaded (h3 kv0 hkv0)
      · intro i hi
        rw [hget]
        exact hch i (by omega)
      · intro i hi1 hi2 x hx
        rw [hget]
        exact hlo i hi1 (by omega) x hx
      · intro i hi
        rw [hget, hget]
        exact hhi i (by omega)

/-- Saving a represented page: the save succeeds, and the new `(offset,
config)` pair loads (on any later extension of the file) to a page
representing the same map. -/
theorem bp__page_save_rep {ps h : Nat} {d : Disk} {p : BpPage} {m : KMap}
    (hrep : PageRep ps h d p m) (hlen : p.keys.length < ps) (hps : 1 ≤ ps) :
    ∃ d' p', bp__page_save d p = .ok (d', p') ∧ Extends d d' ∧
      p'.type = p.type ∧ p'.keys = p.keys ∧ p'.byte_size = p.byte_size ∧
      p'.offset ≤ d'.length ∧
      p'.config = 2 * p.byte_size + (if p.type = .kLeaf then 1 else 0) ∧
      p'.config < 2 ^ 64 ∧
      ∀ d'', Extends d' d'' →
        ∃ c, loadPageAt d'' p'.offset p'.config = .ok c ∧
          c.keys.length < ps ∧ PageRep ps h d'' c m := by
  have hshape := PageRep_shape hrep
  have hwf := PageRep_wf hrep
  have hpre := PageRep_save_pre hrep
  have hbound : ∀ kv ∈ p.keys, KVBounds kv :=
    fun kv hkv => WfKV.toKVBounds hps (hwf kv hkv)
  have hbs : sumKVSize p.keys < 2 ^ 63 := sumKVSize_lt hwf (by omega) hps
  obtain ⟨d0, p0, hsave0, hload0⟩ :=
    loadPageAt_after_save d p [] hpre hshape.symm hbound
  have hsave_eq := bp__page_save_eq d p hpre hshape.symm
  rw [hsave0] at hsave_eq
  have h1 := Except.ok.inj hsave_eq
  have hd0 : d0 = padTo8 d ++ serPage p.keys := congrArg Prod.fst h1
  have hp0 : p0 =
      { p with
          offset := (padTo8 d).length,
          config := 2 * p.byte_size + (if p.type = .kLeaf then 1 else 0) } :=
    congrArg Prod.snd h1
  have hext : Extends d d0 := by
    rw [hd0]
    obtain ⟨t, ht⟩ := padTo8_prefix d
    exact ⟨t ++ serPage p.keys, by simp [ht]⟩
  refine ⟨d0, p0, hsave0, hext, by rw [hp0], by rw [hp0], by rw [hp0], ?_,
    by rw [hp0], ?_, ?_⟩
  · rw [hp0, hd0]
    show (padTo8 d).length ≤ (padTo8 d ++ serPage p.keys).length
    simp
  · rw [hp0]
    show 2 * p.byte_size + (if p.type = .kLeaf then 1 else 0) < 2 ^ 64
    unfold PageShape at hshape
    by_cases ht : p.type = .kLeaf
    · rw [if_pos ht]
      omega
    · rw [if_neg ht]
      omega
  · intro d'' he
    rw [List.append_nil] at hload0
    have hload' := loadPageAt_mono hload0 he
    refine ⟨_, hload', ?_, ?_⟩
    · show (p.keys.map kvLoaded).length < ps
      simpa using hlen
    · exact PageRep_of_loaded (PageRep_mono_disk (Extends.trans hext he) hrep) _
        rfl rfl rfl

/-! ### Search shape and leaf-operation correspondence -/

theorem bp__page_search_leaf (cfg : BpCfg) (d : Disk) (page : BpPage)
    (kv : BpKV) (hleaf : page.type = .kLeaf) :
    bp__page_search cfg d page kv =
      .ok ⟨(bp__search_scan cfg page.keys kv 0 (-1)).1,
           (bp__search_scan cfg page.keys kv 0 (-1)).2, none⟩ := by
  simp only [bp__page_search]
  rw [hleaf]
  rw [if_neg (by decide : ¬ (PageType.kLeaf = PageType.kPage))]
  rw [if_pos rfl]

theorem bp__page_search_node (cfg : BpCfg) (d : Disk) (page : BpPage)
    (kv : BpKV) (hnode : page.type = .kPage)
    (r : Nat × Int) (hr : r = bp__search_scan cfg page.keys kv 1 (-1))
    (hnz : r.1 ≠ 0) :
    bp__page_search cfg d page kv =
      (match loadPageAt d
          (page.keys.getD (if r.2 ≠ 0 then r.1 - 1 else r.1) default).offset
          (page.keys.getD (if r.2 ≠ 0 then r.1 - 1 else r.1) default).config with
       | .error e => .error e
       | .ok child => .ok ⟨if r.2 ≠ 0 then r.1 - 1 else r.1, r.2, some child⟩) := by
  simp only [bp__page_search]
  rw [hnode]
  rw [if_neg (by decide : ¬ (PageType.kPage = PageType.kLeaf))]
  rw [if_pos rfl]
  rw [← hr]
  rw [if_neg hnz]

/-- The key list seen around index `i`. -/
theorem map_kvEntry_segment {keys : List BpKV} {i : Nat} (hi : i < keys.length) :
    keys.map kvEntry =
      (keys.take i).map kvEntry ++
        (kvEntry (keys.getD i default) :: (keys.drop (i + 1)).map kvEntry) := by
  conv_lhs => rw [← List.take_append_drop i keys]
  rw [List.map_append, List.drop_eq_getElem_cons hi]
  rw [List.getD_eq_getElem _ _ hi]
  rfl

/-- Inserting a fresh key at the scan index is abstractly `kmInsert`. -/
theorem leaf_insertIdx_miss {keys : List BpKV} {i : Nat} {kv' : BpKV}
    (hlen : i ≤ keys.length)
    (hbelow : ∀ j, j < i → klt (keys.getD j default).value kv'.value)
    (hstop : i < keys.length → ¬ klt (keys.getD i default).value kv'.value ∧
      (keys.getD i default).value ≠ kv'.value) :
    (keys.insertIdx i kv').map kvEntry =
      kmInsert kv'.value (kv'.offset, kv'.config) (keys.map kvEntry) := by
  induction keys generalizing i with
  | nil =>
    have : i = 0 := by simpa using hlen
    subst this
    rfl
  | cons x xs ih =>
    cases i with
    | zero =>
      have hx := hstop (by simp)
      show kvEntry kv' :: (x :: xs).map kvEntry = _
      show _ = kmInsert kv'.value (kv'.offset, kv'.config) (kvEntry x :: xs.map kvEntry)
      rw [kmInsert_cons]
      rw [if_neg (show ¬ klt (kvEntry x).1 kv'.value from hx.1)]
      rw [if_neg (show ¬ (kvEntry x).1 = kv'.value from hx.2)]
      rfl
    | succ i' =>
      have hx : klt x.value kv'.value := hbelow 0 (by omega)
      show kvEntry x :: (xs.insertIdx i' kv').map kvEntry = _
      show _ = kmInsert kv'.value (kv'.offset, kv'.config) (kvEntry x :: xs.map kvEntry)
      rw [kmInsert_cons]
      rw [if_pos (show klt (kvEntry x).1 kv'.value from hx)]
      rw [ih (by simpa using hlen) (fun j hj => hbelow (j + 1) (by omega))
        (fun hlt => hstop (by simpa using hlt))]

/-- Replacing the equal key at the scan index is abstractly `kmInsert`. -/
theorem leaf_insertIdx_hit {keys : List BpKV} {i : Nat} {kv' : BpKV}
    (hlen : i < keys.length)
    (hbelow : ∀ j, j < i → klt (keys.getD j default).value kv'.value)
    (heq : (keys.getD i default).value = kv'.value) :
    ((keys.eraseIdx i).insertIdx i kv').map kvEntry =
      kmInsert kv'.value (kv'.offset, kv'.config) (keys.map kvEntry) := by
  induction keys generalizing i with
  | nil => simp at hlen
  | cons x xs ih =>
    cases i with
    | zero =>
      have hx : x.value = kv'.value := heq
      show kvEntry kv' :: xs.map kvEntry = _
      show _ = kmInsert kv'.value (kv'.offset, kv'.config) (kvEntry x :: xs.map kvEntry)
      rw [kmInsert_cons]
      rw [if_neg (show ¬ klt (kvEntry x).1 kv'.value from by
        rw [show (kvEntry x).1 = kv'.value from hx]
        exact klt_irrefl _)]
      rw [if_pos (show (kvEntry x).1 = kv'.value from hx)]
      rfl
    | succ i' =>
      have hx : klt x.value kv'.value := hbelow 0 (by omega)
      show kvEntry x :: ((xs.eraseIdx i').insertIdx i' kv').map kvEntry = _
      show _ = kmInsert kv'.value (kv'.offset, kv'.config) (kvEntry x :: xs.map kvEntry)
      rw [kmInsert_cons]
      rw [if_pos (show klt (kvEntry x).1 kv'.value from hx)]
      rw [ih (by simpa using hlen) (fun j hj => hbelow (j + 1) (by omega))
        (by simpa using heq)]

/-- Removing the equal key at the scan index is abstractly `kmErase`. -/
theorem leaf_eraseIdx_eq {keys : List BpKV} {i : Nat} {v : Key}
    (hlen : i < keys.length)
    (hbelow : ∀ j, j < i → klt (keys.getD j default).value v)
    (heq : (keys.getD i default).value = v) :
    (keys.eraseIdx i).map kvEntry = kmErase v (keys.map kvEntry) := by
  induction keys generalizing i with
  | nil => simp at hlen
  | cons x xs ih =>
    cases i with
    | zero =>
      show xs.map kvEntry = kmErase v (kvEntry x :: xs.map kvEntry)
      rw [kmErase_cons, if_pos (show (kvEntry x).1 = v from heq)]
    | succ i' =>
      have hx : klt x.value v := hbelow 0 (by omega)
      show kvEntry x :: (xs.eraseIdx i').map kvEntry = _
      show _ = kmErase v (kvEntry x :: xs.map kvEntry)
      rw [kmErase_cons, if_neg (show ¬ (kvEntry x).1 = v from klt_ne hx)]
      rw [ih (by simpa using hlen) (fun j hj => hbelow (j + 1) (by omega))
        (by simpa using heq)]

/-- A missed scan means the key is not bound in the leaf's map. -/
theorem leaf_find_none {keys : List BpKV} {i : Nat} {v : Key}
    (hsort : keys.Pairwise (fun a b => klt a.value b.value))
    (hlen : i ≤ keys.length)
    (hbelow : ∀ j, j < i → klt (keys.getD j default).value v)
    (hstop : i < keys.length → ¬ klt (keys.getD i default).value v ∧
      (keys.getD i default).value ≠ v) :
    kmFind v (keys.map kvEntry) = none := by
  rw [kmFind_eq_none]
  intro x hx
  obtain ⟨kv0, hkv0, rfl⟩ := List.mem_map.mp hx
  obtain ⟨j, hj, hjl⟩ := List.getElem_of_mem hkv0
  show kv0.value ≠ v
  rcases Nat.lt_trichotomy j i with hlt | heq | hgt
  · have := hbelow j hlt
    rw [List.getD_eq_getElem _ _ hj, hjl] at this
    exact klt_ne this
  · subst heq
    have := (hstop (by omega)).2
    rw [List.getD_eq_getElem _ _ hj, hjl] at this
    exact this
  · -- entries after the stop index are above the stop entry, which is ≥ v
    have hilt : i < keys.length := by omega
    have hio := (hstop hilt).1
    have hlt2 : klt (keys.getD i default).value kv0.value := by
      rw [List.getD_eq_getElem _ _ hilt]
      have := (List.pairwise_iff_getElem.mp hsort) i j hilt hj hgt
      rw [hjl] at this
      exact this
    intro hcon
    rw [hcon] at hlt2
    exact hio hlt2

/-- A hit at the scan index finds the entry's blob reference. -/
theorem leaf_find_hit {keys : List BpKV} {i : Nat} {v : Key}
    (hlen : i < keys.length)
    (hbelow : ∀ j, j < i → klt (keys.getD j default).value v)
    (heq : (keys.getD i default).value = v) :
    kmFind v (keys.map kvEntry) =
      some ((keys.getD i default).offset, (keys.getD i default).config) := by
  rw [map_kvEntry_segment hlen]
  rw [kmFind_append_left (by
    intro x hx
    obtain ⟨kv0, hkv0, rfl⟩ := List.mem_map.mp hx
    obtain ⟨j, hj, hjl⟩ := List.getElem_of_mem hkv0
    show kv0.value ≠ v
    have hjlen : (keys.take i).length = min i keys.length := List.length_take i keys
    have hjlt : j < i := by omega
    have hjkeys : j < keys.length := by omega
    have := hbelow j hjlt
    rw [List.getD_eq_getElem _ _ hjkeys] at this
    rw [List.getElem_take] at hjl
    rw [hjl] at this
    exact klt_ne this)]
  rw [kmFind_cons, if_pos (show (kvEntry (keys.getD i default)).1 = v from heq)]
  rfl

/-! ### Split -/

theorem getD_take {l : List BpKV} {n j : Nat} (hj : j < n) :
    (l.take n).getD j default = l.getD j default := by
  by_cases hjl : j < l.length
  · have hjt : j < (l.take n).length := by
      have := List.length_take n l
      omega
    rw [List.getD_eq_getElem _ _ hjt, List.getD_eq_getElem _ _ hjl]
    exact List.getElem_take l
  · have := List.length_take n l
    rw [List.getD_eq_default _ _ (by omega), List.getD_eq_default _ _ (by omega)]

theorem getD_drop {l : List BpKV} {n j : Nat} :
    (l.drop n).getD j default = l.getD (n + j) default := by
  by_cases hjl : n + j < l.length
  · have hjt : j < (l.drop n).length := by
      have := List.length_drop n l
      omega
    rw [List.getD_eq_getElem _ _ hjt, List.getD_eq_getElem _ _ hjl]
    exact List.getElem_drop l
  · have := List.length_drop n l
    rw [List.getD_eq_default _ _ (by omega), List.getD_eq_default _ _ (by omega)]

theorem getD_take_km {l : List KMap} {n j : Nat} (hj : j < n) :
    (l.take n).getD j [] = l.getD j [] := by
  by_cases hjl : j < l.length
  · have hjt : j < (l.take n).length := by
      have := List.length_take n l
      omega
    rw [List.getD_eq_getElem _ _ hjt, List.getD_eq_getElem _ _ hjl]
    exact List.getElem_take l
  · have := List.length_take n l
    rw [List.getD_eq_default _ _ (by omega), List.getD_eq_default _ _ (by omega)]

theorem getD_drop_km {l : List KMap} {n j : Nat} :
    (l.drop n).getD j [] = l.getD (n + j) [] := by
  by_cases hjl : n + j < l.length
  · have hjt : j < (l.drop n).length := by
      have := List.length_drop n l
      omega
    rw [List.getD_eq_getElem _ _ hjt, List.getD_eq_getElem _ _ hjl]
    exact List.getElem_drop l
  · have := List.length_drop n l
    rw [List.getD_eq_default _ _ (by omega), List.getD_eq_default _ _ (by omega)]

theorem getD_map_alloc {l : List BpKV} {j : Nat} (hj : j < l.length) :
    (l.map bp__kv_copy_alloc).getD j default =
      bp__kv_copy_alloc (l.getD j default) := by
  have hj' : j < (l.map bp__kv_copy_alloc).length := by simpa using hj
  rw [List.getD_eq_getElem _ _ hj', List.getD_eq_getElem _ _ hj]
  simp

theorem map_kvEntry_alloc (l : List BpKV) :
    (l.map bp__kv_copy_alloc).map kvEntry = l.map kvEntry := by
  induction l with
  | nil => rfl
  | cons y ys ih =>
    show kvEntry (bp__kv_copy_alloc y) :: (ys.map bp__kv_copy_alloc).map kvEntry = _
    rw [ih]
    rfl

theorem flatten_ne_nil {ms : List KMap} (hms : ms ≠ [])
    (hne : ∀ i, i < ms.length → ms.getD i [] ≠ []) : ms.flatten ≠ [] := by
  cases ms with
  | nil => exact absurd rfl hms
  | cons mm mss =>
    have h0 := hne 0 (by simp)
    cases hmm : mm with
    | nil => exact absurd (by rw [← hmm]; rfl) (hmm ▸ h0)
    | cons x xs =>
      subst hmm
      simp

theorem flatten_take_drop (ms : List KMap) (n : Nat) :
    ms.flatten = (ms.take n).flatten ++ (ms.drop n).flatten := by
  conv_lhs => rw [← List.take_append_drop n ms]
  rw [List.flatten_append]

theorem PageRep_node {ps h : Nat} {d : Disk} {p : BpPage} {m : KMap}
    (hn : NodeRep ps (fun c mm => c.keys.length < ps ∧ PageRep ps h d c mm)
      d p m) : PageRep ps (h + 1) d p m := Or.inr hn

/-- The two halves built by `bp__page_split` from a full represented child:
their key lists, maps, ordering around the separator `child.keys[middle]`,
and their representations. -/
theorem split_pieces {ps h : Nat} {d : Disk} {child : BpPage} {mc : KMap}
    (hps4 : 4 ≤ ps) (hev : ps % 2 = 0)
    (hrep : PageRep ps h d child mc) (hfull : child.keys.length = ps) :
    ∃ m_l m_r, mc = m_l ++ m_r ∧ m_l ≠ [] ∧ m_r ≠ [] ∧
      (∀ x ∈ m_l, klt x.1 (child.keys.getD (ps / 2) default).value) ∧
      (∀ x ∈ m_r, ¬ klt x.1 (child.keys.getD (ps / 2) default).value) ∧
      PageRep ps h d
        { type := child.type,
          keys := (child.keys.take (ps / 2)).map bp__kv_copy_alloc,
          byte_size := sumKVSize (child.keys.take (ps / 2)),
          offset := 0, config := 0 } m_l ∧
      PageRep ps h d
        { type := child.type,
          keys := (child.keys.drop (ps / 2)).map bp__kv_copy_alloc,
          byte_size := sumKVSize (child.keys.drop (ps / 2)),
          offset := 0, config := 0 } m_r := by
  have hmid1 : 2 ≤ ps / 2 := by omega
  have hmid2 : ps / 2 + ps / 2 = ps := by omega
  have hmidlt : ps / 2 < ps := by omega
  have hcase : LeafRep ps child mc ∨
      ∃ h', h = h' + 1 ∧ NodeRep ps
        (fun c mm => c.keys.length < ps ∧ PageRep ps h' d c mm) d child mc := by
    cases h with
    | zero => exact Or.inl hrep
    | succ h' =>
      rcases hrep with hl | hn
      · exact Or.inl hl
      · exact Or.inr ⟨h', rfl, hn⟩
  rcases hcase with hl | ⟨h', rfl, hn⟩
  · -- leaf child
    obtain ⟨htype, hshape, hwf, hm, hsort⟩ := hl
    refine ⟨(child.keys.take (ps / 2)).map kvEntry,
      (child.keys.drop (ps / 2)).map kvEntry, ?_, ?_, ?_, ?_, ?_, ?_, ?_⟩
    · rw [hm]
      conv_lhs => rw [← List.take_append_drop (ps / 2) child.keys]
      rw [List.map_append]
    · intro hc
      have hlc : ((child.keys.take (ps / 2)).map kvEntry).length = 0 := by
        rw [hc]
        rfl
      rw [List.length_map, List.length_take] at hlc
      omega
    · intro hc
      have hlc : ((child.keys.drop (ps / 2)).map kvEntry).length = 0 := by
        rw [hc]
        rfl
      rw [List.length_map, List.length_drop] at hlc
      omega
    · intro x hx
      obtain ⟨kv0, hkv0, rfl⟩ := List.mem_map.mp hx
      obtain ⟨j, hj, hjl⟩ := List.getElem_of_mem hkv0
      have hjlen : (child.keys.take (ps / 2)).length = min (ps / 2) child.keys.length :=
        List.length_take _ _
      have hjlt : j < ps / 2 := by omega
      have hjk : j < child.keys.length := by omega
      show klt kv0.value _
      have hpair := (List.pairwise_iff_getElem.mp hsort) j (ps / 2)
        hjk (by omega) hjlt
      rw [List.getElem_take] at hjl
      rw [List.getD_eq_getElem _ _ (by omega : ps / 2 < child.keys.length)]
      rw [← hjl]
      exact hpair
    · intro x hx
      obtain ⟨kv0, hkv0, rfl⟩ := List.mem_map.mp hx
      obtain ⟨j, hj, hjl⟩ := List.getElem_of_mem hkv0
      have hjlen : (child.keys.drop (ps / 2)).length = child.keys.length - ps / 2 :=
        List.length_drop _ _
      have hjk : ps / 2 + j < child.keys.length := by omega
      show ¬ klt kv0.value _
      rw [List.getElem_drop] at hjl
      have hgd : child.keys.getD (ps / 2 + j) default = kv0 := by
        rw [List.getD_eq_getElem _ _ hjk]
        exact hjl
      rcases Nat.eq_zero_or_pos j with hj0 | hjpos
      · subst hj0
        rw [show child.keys.getD (ps / 2) default = kv0 from hgd]
        exact klt_irrefl _
      · have hpair := (List.pairwise_iff_getElem.mp hsort) (ps / 2) (ps / 2 + j)
          (by omega) hjk (by omega)
        rw [hjl] at hpair
        rw [List.getD_eq_getElem _ _ (by omega : ps / 2 < child.keys.length)]
        exact klt_asymm hpair
    · refine PageRep_leaf ⟨htype, ?_, ?_, ?_, ?_⟩
      · show sumKVSize (child.keys.take (ps / 2)) =
          sumKVSize ((child.keys.take (ps / 2)).map bp__kv_copy_alloc)
        rw [sumKVSize_map_alloc]
      · intro kv hkv
        obtain ⟨kv0, hkv0, rfl⟩ := List.mem_map.mp hkv
        exact WfKV_alloc (hwf kv0 ((List.take_sublist _ _).subset hkv0))
      · rw [map_kvEntry_alloc]
      · rw [List.pairwise_map]
        exact (hsort.sublist (List.take_sublist _ _)).imp (fun hab => hab)
    · refine PageRep_leaf ⟨htype, ?_, ?_, ?_, ?_⟩
      · show sumKVSize (child.keys.drop (ps / 2)) =
          sumKVSize ((child.keys.drop (ps / 2)).map bp__kv_copy_alloc)
        rw [sumKVSize_map_alloc]
      · intro kv hkv
        obtain ⟨kv0, hkv0, rfl⟩ := List.mem_map.mp hkv
        exact WfKV_alloc (hwf kv0 ((List.drop_sublist _ _).subset hkv0))
      · rw [map_kvEntry_alloc]
      · rw [List.pairwise_map]
        exact (hsort.sublist (List.drop_sublist _ _)).imp (fun hab => hab)
  · -- internal child
    obtain ⟨htype, hshape, hwf, hlen2, ms, hms1, hms2, hch, hlo, hhi⟩ := hn
    have hnfull : NodeRep ps
        (fun c mm => c.keys.length < ps ∧ PageRep ps h' d c mm) d child mc :=
      ⟨htype, hshape, hwf, hlen2, ms, hms1, hms2, hch, hlo, hhi⟩
    refine ⟨(ms.take (ps / 2)).flatten, (ms.drop (ps / 2)).flatten, ?_, ?_, ?_,
      ?_, ?_, ?_, ?_⟩
    · rw [hms2, flatten_take_drop ms (ps / 2)]
    · apply flatten_ne_nil
      · intro hc
        have hlc : (ms.take (ps / 2)).length = 0 := by
          rw [hc]
          rfl
        rw [List.length_take] at hlc
        omega
      · intro i hi
        have hlt : (ms.take (ps / 2)).length = min (ps / 2) ms.length :=
          List.length_take _ _
        rw [getD_take_km (by omega)]
        exact (hch i (by omega)).2
    · apply flatten_ne_nil
      · intro hc
        have hlc : (ms.drop (ps / 2)).length = 0 := by
          rw [hc]
          rfl
        rw [List.length_drop] at hlc
        omega
      · intro i hi
        have hlt : (ms.drop (ps / 2)).length = ms.length - ps / 2 :=
          List.length_drop _ _
        rw [getD_drop_km]
        exact (hch (ps / 2 + i) (by omega)).2
    · intro x hx
      obtain ⟨j, hjlt, hjms, hxj⟩ := mem_take_flatten hx
      have hup : klt x.1 (child.keys.getD (j + 1) default).value :=
        (hhi j (by omega)).1 x hxj
      have hmono : kle (child.keys.getD (j + 1) default).value
          (child.keys.getD (ps / 2) default).value :=
        NodeRep_entry_mono hnfull (j + 1) (ps / 2) (by omega) (by omega) (by omega)
      exact klt_kle_trans hup hmono
    · intro x hx
      obtain ⟨j, hjge, hjms, hxj⟩ := mem_drop_flatten (by
        rw [show ps / 2 = (ps / 2 - 1) + 1 from by omega] at hx
        exact hx)
      have hjge' : ps / 2 ≤ j := by omega
      have hlow : ¬ klt x.1 (child.keys.getD j default).value :=
        hlo j (by omega) (by omega) x hxj
      have hmono : kle (child.keys.getD (ps / 2) default).value
          (child.keys.getD j default).value :=
        NodeRep_entry_mono hnfull (ps / 2) j (by omega) (by omega) (by omega)
      exact not_klt_of_kle (kle_trans hmono (kle_of_not_klt hlow))
    · -- left internal page
      refine PageRep_node ⟨htype, ?_, ?_, ?_, ms.take (ps / 2), ?_, rfl, ?_, ?_, ?_⟩
      · show sumKVSize (child.keys.take (ps / 2)) =
          sumKVSize ((child.keys.take (ps / 2)).map bp__kv_copy_alloc)
        rw [sumKVSize_map_alloc]
      · intro kv hkv
        obtain ⟨kv0, hkv0, rfl⟩ := List.mem_map.mp hkv
        exact WfKV_alloc (hwf kv0 ((List.take_sublist _ _).subset hkv0))
      · show 2 ≤ ((child.keys.take (ps / 2)).map bp__kv_copy_alloc).length
        have := List.length_take (ps / 2) child.keys
        simp
        omega
      · show (ms.take (ps / 2)).length =
          ((child.keys.take (ps / 2)).map bp__kv_copy_alloc).length
        have h1 := List.length_take (ps / 2) child.keys
        have h2 := List.length_take (ps / 2) ms
        simp
        omega
      · intro i hi
        have hil : i < ps / 2 := by
          have := List.length_take (ps / 2) child.keys
          simp at hi
          omega
        rw [getD_map_alloc (by
          have := List.length_take (ps / 2) child.keys
          omega), getD_take hil, getD_take_km hil]
        exact ChildAt_mono (fun c mm hc => hc) (Extends.refl d) (hch i (by omega))
      · intro i hi1 hi2 x hx
        have hil : i < ps / 2 := by
          have := List.length_take (ps / 2) child.keys
          simp at hi2
          omega
        rw [getD_map_alloc (by
          have := List.length_take (ps / 2) child.keys
          omega), getD_take hil]
        rw [getD_take_km hil] at hx
        exact hlo i hi1 (by omega) x hx
      · intro i hi
        have hil : i + 1 < ps / 2 := by
          have := List.length_take (ps / 2) child.keys
          simp at hi
          omega
        rw [getD_map_alloc (by
          have := List.length_take (ps / 2) child.keys
          omega), getD_map_alloc (by
          have := List.length_take (ps / 2) child.keys
          omega), getD_take hil, getD_take (by omega : i < ps / 2)]
        rw [getD_take_km (by omega : i < ps / 2)]
        exact hhi i (by omega)
    · -- right internal page
      refine PageRep_node ⟨htype, ?_, ?_, ?_, ms.drop (ps / 2), ?_, rfl, ?_, ?_, ?_⟩
      · show sumKVSize (child.keys.drop (ps / 2)) =
          sumKVSize ((child.keys.drop (ps / 2)).map bp__kv_copy_alloc)
        rw [sumKVSize_map_alloc]
      · intro kv hkv
        obtain ⟨kv0, hkv0, rfl⟩ := List.mem_map.mp hkv
        exact WfKV_alloc (hwf kv0 ((List.drop_sublist _ _).subset hkv0))
      · show 2 ≤ ((child.keys.drop (ps / 2)).map bp__kv_copy_alloc).length
        have := List.length_drop (ps / 2) child.keys
        simp
        omega
      · show (ms.drop (ps / 2)).length =
          ((child.keys.drop (ps / 2)).map bp__kv_copy_alloc).length
        have h1 := List.length_drop (ps / 2) child.keys
        have h2 := List.length_drop (ps / 2) ms
        simp
        omega
      · intro i hi
        have hil : ps / 2 + i < ps := by
          have := List.length_drop (ps / 2) child.keys
          simp at hi
          omega
        rw [getD_map_alloc (by
          have := List.length_drop (ps / 2) child.keys
          omega), getD_drop, getD_drop_km]
        exact ChildAt_mono (fun c mm hc => hc) (Extends.refl d) (hch _ (by omega))
      · intro i hi1 hi2 x hx
        have hil : ps / 2 + i < ps := by
          have := List.length_drop (ps / 2) child.keys
          simp at hi2
          omega
        rw [getD_map_alloc (by
          have := List.length_drop (ps / 2) child.keys
          omega), getD_drop]
        rw [getD_drop_km] at hx
        exact hlo _ (by omega) (by omega) x hx
      · intro i hi
        have hil : ps / 2 + (i + 1) < ps := by
          have := List.length_drop (ps / 2) child.keys
          simp at hi
          omega
        rw [getD_map_alloc (by
          have := List.length_drop (ps / 2) child.keys
          omega), getD_map_alloc (by
          have := List.length_drop (ps / 2) child.keys
          omega), getD_drop, getD_drop]
        rw [getD_drop_km]
        constructor
        · intro x hx
          rw [show ps / 2 + (i + 1) = (ps / 2 + i) + 1 from by omega]
          exact (hhi (ps / 2 + i) (by omega)).1 x hx
        · intro _
          rw [show ps / 2 + (i + 1) = (ps / 2 + i) + 1 from by omega]
          exact (hhi (ps / 2 + i) (by omega)).2 (by omega)

/-- Computation rule for `bp__page_split` once both saves are known. -/
theorem bp__page_split_eq (cfg : BpCfg) {d : Disk} (parent : BpPage)
    (index : Nat) (child : BpPage) {d1 d2 : Disk} {left' right' : BpPage}
    (hL : bp__page_save d
      { type := child.type,
        keys := (child.keys.take (cfg.page_size / 2)).map bp__kv_copy_alloc,
        byte_size := sumKVSize (child.keys.take (cfg.page_size / 2)),
        offset := 0, config := 0 } = .ok (d1, left'))
    (hR : bp__page_save d1
      { type := child.type,
        keys := (((child.keys.drop (cfg.page_size / 2)).take
          (cfg.page_size - cfg.page_size / 2)).take (cfg.page_size / 2)).map
            bp__kv_copy_alloc,
        byte_size := sumKVSize ((child.keys.drop (cfg.page_size / 2)).take
          (cfg.page_size - cfg.page_size / 2)),
        offset := 0, config := 0 } = .ok (d2, right')) :
    bp__page_split cfg d parent index child =
      (d2, .ok { parent with
        keys := setChildRef (parent.keys.insertIdx (index + 1)
            { bp__kv_copy_alloc (child.keys.getD (cfg.page_size / 2) default) with
                offset := right'.offset, config := right'.config })
          index left'.offset left'.config,
        byte_size := parent.byte_size +
          BP__KV_SIZE { bp__kv_copy_alloc
              (child.keys.getD (cfg.page_size / 2) default) with
            offset := right'.offset, config := right'.config } }) := by
  simp only [bp__page_split, hL, hR]

/-- `bp__page_split` of a full represented child at an even `page_size`:
both halves save successfully, the child map splits at the middle key, and
the parent gets back the literal page the code builds (left child reference
patched at `index`, middle key inserted after it referencing the right
half). -/
theorem bp__page_split_rep {ps h : Nat} {d : Disk} {child : BpPage} {mc : KMap}
    (hps4 : 4 ≤ ps) (hev : ps % 2 = 0)
    (hrep : PageRep ps h d child mc) (hfull : child.keys.length = ps)
    (cmp : List Nat → List Nat → Int) (parent : BpPage) (index : Nat) :
    ∃ d' lo lc ro rc m_l m_r,
      bp__page_split ⟨ps, cmp⟩ d parent index child =
        (d', .ok { parent with
          keys := setChildRef (parent.keys.insertIdx (index + 1)
              { bp__kv_copy_alloc (child.keys.getD (ps / 2) default) with
                  offset := ro, config := rc })
            index lo lc,
          byte_size := parent.byte_size +
            BP__KV_SIZE { bp__kv_copy_alloc
                (child.keys.getD (ps / 2) default) with
              offset := ro, config := rc } }) ∧
      Extends d d' ∧
      mc = m_l ++ m_r ∧ m_l ≠ [] ∧ m_r ≠ [] ∧
      (∀ x ∈ m_l, klt x.1 (child.keys.getD (ps / 2) default).value) ∧
      (∀ x ∈ m_r, ¬ klt x.1 (child.keys.getD (ps / 2) default).value) ∧
      lo ≤ d'.length ∧ lc < 2 ^ 64 ∧ ro ≤ d'.length ∧ rc < 2 ^ 64 ∧
      (∀ d'', Extends d' d'' →
        ∃ c, loadPageAt d'' lo lc = .ok c ∧
          c.keys.length < ps ∧ PageRep ps h d'' c m_l) ∧
      (∀ d'', Extends d' d'' →
        ∃ c, loadPageAt d'' ro rc = .ok c ∧
          c.keys.length < ps ∧ PageRep ps h d'' c m_r) := by
  obtain ⟨m_l, m_r, hmc, hlne, hrne, hbl, hbr, hrepL, hrepR⟩ :=
    split_pieces hps4 hev hrep hfull
  have hrc : (child.keys.drop (ps / 2)).take (ps - ps / 2) =
      child.keys.drop (ps / 2) := by
    apply List.take_of_length_le
    rw [List.length_drop]
    omega
  have hrt : (child.keys.drop (ps / 2)).take (ps / 2) =
      child.keys.drop (ps / 2) := by
    apply List.take_of_length_le
    rw [List.length_drop]
    omega
  obtain ⟨d1, left', hsaveL, hextL, htyL, hkeysL, hbsL, hoffL, hcfgL, hcfgltL,
    hafterL⟩ := bp__page_save_rep hrepL (by
      show ((child.keys.take (ps / 2)).map bp__kv_copy_alloc).length < ps
      rw [List.length_map, List.length_take]
      omega) (by omega)
  have hrepR1 := PageRep_mono_disk hextL hrepR
  obtain ⟨d2, right', hsaveR, hextR, htyR, hkeysR, hbsR, hoffR, hcfgR, hcfgltR,
    hafterR⟩ := bp__page_save_rep hrepR1 (by
      show ((child.keys.drop (ps / 2)).map bp__kv_copy_alloc).length < ps
      rw [List.length_map, List.length_drop]
      omega) (by omega)
  have hpageR :
      ({ type := child.type,
           keys := (((child.keys.drop (ps / 2)).take (ps - ps / 2)).take
             (ps / 2)).map bp__kv_copy_alloc,
           byte_size := sumKVSize ((child.keys.drop (ps / 2)).take (ps - ps / 2)),
           offset := 0, config := 0 } : BpPage) =
      { type := child.type,
          keys := (child.keys.drop (ps / 2)).map bp__kv_copy_alloc,
          byte_size := sumKVSize (child.keys.drop (ps / 2)),
          offset := 0, config := 0 } := by
    rw [hrc, hrt]
  have hR : bp__page_save d1
      ({ type := child.type,
           keys := (((child.keys.drop (ps / 2)).take (ps - ps / 2)).take
             (ps / 2)).map bp__kv_copy_alloc,
           byte_size := sumKVSize ((child.keys.drop (ps / 2)).take (ps - ps / 2)),
           offset := 0, config := 0 } : BpPage) = .ok (d2, right') := by
    rw [hpageR]
    exact hsaveR
  refine ⟨d2, left'.offset, left'.config, right'.offset, right'.config,
    m_l, m_r, ?_, Extends.trans hextL hextR, hmc, hlne, hrne, hbl, hbr,
    le_trans hoffL (Extends.length_le hextR), hcfgltL, hoffR, hcfgltR,
    ?_, ?_⟩
  · exact bp__page_split_eq _ parent index child hsaveL hR
  · intro d'' h''
    exact hafterL d'' (Extends.trans hextR h'')
  · intro d'' h''
    exact hafterR d'' h''

/-! ### Search under the default comparator -/

/-- A leaf search always succeeds; the scan index bounds the key from below
and the `cmp` value decides hit or miss. -/
theorem bp__page_search_leaf_run (ps : Nat) (d : Disk) (page : BpPage)
    (kv : BpKV) (hleaf : page.type = .kLeaf) :
    ∃ i c, bp__page_search ⟨ps, bp__default_compare_cb⟩ d page kv =
        .ok ⟨i, c, none⟩ ∧
      i ≤ page.keys.length ∧
      (∀ j, j < i → klt (page.keys.getD j default).value kv.value) ∧
      ((c = 0 ∧ i < page.keys.length ∧
          (page.keys.getD i default).value = kv.value) ∨
       (c ≠ 0 ∧ (i < page.keys.length →
          ¬ klt (page.keys.getD i default).value kv.value ∧
            (page.keys.getD i default).value ≠ kv.value))) := by
  have heq := bp__page_search_leaf ⟨ps, bp__default_compare_cb⟩ d page kv hleaf
  refine ⟨(bp__search_scan ⟨ps, bp__default_compare_cb⟩ page.keys kv 0 (-1)).1,
    (bp__search_scan ⟨ps, bp__default_compare_cb⟩ page.keys kv 0 (-1)).2,
    heq, ?_, ?_, ?_⟩
  · exact bp__search_scan_le _ page.keys kv 0 (-1) (by omega)
  · intro j hj
    have := bp__search_scan_passed ⟨ps, bp__default_compare_cb⟩
      page.keys kv 0 (-1) j (by omega) hj
    exact (dcmp_lt_zero_iff _ _).mp this
  · rcases bp__search_scan_cases ⟨ps, bp__default_compare_cb⟩
        page.keys kv 0 (-1) (by omega) with hend | ⟨hlt, hge⟩
    · refine Or.inr ⟨?_, fun hc => absurd hc (by omega)⟩
      have := bp__search_scan_neg ⟨ps, bp__default_compare_cb⟩
        page.keys kv 0 (-1) (by norm_num) hend
      omega
    · have hstop := bp__search_scan_stop ⟨ps, bp__default_compare_cb⟩
        page.keys kv 0 (-1) hlt
      by_cases hc : (bp__search_scan ⟨ps, bp__default_compare_cb⟩
          page.keys kv 0 (-1)).2 = 0
      · refine Or.inl ⟨hc, hlt, ?_⟩
        apply (dcmp_eq_zero_iff _ _).mp
        have h2 := hstop.2
        rw [hc] at h2
        exact h2.symm
      · have h2 : (bp__search_scan ⟨ps, bp__default_compare_cb⟩
            page.keys kv 0 (-1)).2 =
            bp__default_compare_cb (page.keys.getD
              (bp__search_scan ⟨ps, bp__default_compare_cb⟩
                page.keys kv 0 (-1)).1 default).value kv.value := hstop.2
        refine Or.inr ⟨hc, fun _ => ⟨?_, ?_⟩⟩
        · apply (dcmp_nonneg_iff _ _).mp
          rw [← h2]
          exact hstop.1
        · intro hv
          apply hc
          rw [h2, hv]
          exact dcmp_self kv.value

/-- An internal-page search under the chain invariant: it always descends,
into an index whose entry key is at or below the key (from index 1 on)
while the next entry key is strictly above it. -/
theorem bp__page_search_node_run (ps : Nat) (d : Disk) (page : BpPage)
    (kv : BpKV) (htype : page.type = .kPage) (hlen2 : 2 ≤ page.keys.length)
    (hchain : ∀ i, 1 ≤ i → i + 1 < page.keys.length →
      klt (page.keys.getD i default).value (page.keys.getD (i + 1) default).value)
    (hload : ∀ i, i < page.keys.length →
      ∃ c, loadPageAt d (page.keys.getD i default).offset
        (page.keys.getD i default).config = .ok c) :
    ∃ idx cv child, bp__page_search ⟨ps, bp__default_compare_cb⟩ d page kv =
        .ok ⟨idx, cv, some child⟩ ∧
      loadPageAt d (page.keys.getD idx default).offset
        (page.keys.getD idx default).config = .ok child ∧
      idx < page.keys.length ∧
      (1 ≤ idx → ¬ klt kv.value (page.keys.getD idx default).value) ∧
      (idx + 1 < page.keys.length →
        klt kv.value (page.keys.getD (idx + 1) default).value) := by
  have hge := bp__search_scan_ge ⟨ps, bp__default_compare_cb⟩ page.keys kv 1 (-1)
  have hpassed := bp__search_scan_passed ⟨ps, bp__default_compare_cb⟩
    page.keys kv 1 (-1)
  rcases bp__search_scan_cases ⟨ps, bp__default_compare_cb⟩
      page.keys kv 1 (-1) (by omega) with hend | ⟨hlt, hnn⟩
  · -- ran off the end: descend into the last entry
    have hcv := bp__search_scan_neg ⟨ps, bp__default_compare_cb⟩
      page.keys kv 1 (-1) (by norm_num) hend
    have hnz2 : (bp__search_scan ⟨ps, bp__default_compare_cb⟩
        page.keys kv 1 (-1)).2 ≠ 0 := by omega
    have hidx : (if (bp__search_scan ⟨ps, bp__default_compare_cb⟩
          page.keys kv 1 (-1)).2 ≠ 0 then
        (bp__search_scan ⟨ps, bp__default_compare_cb⟩ page.keys kv 1 (-1)).1 - 1
      else (bp__search_scan ⟨ps, bp__default_compare_cb⟩ page.keys kv 1 (-1)).1) =
        page.keys.length - 1 := by
      rw [if_pos hnz2]
      omega
    obtain ⟨c0, hc0⟩ := hload (page.keys.length - 1) (by omega)
    have hsearch := bp__page_search_node ⟨ps, bp__default_compare_cb⟩ d page kv
      htype _ rfl (by omega)
    rw [hidx, hc0] at hsearch
    refine ⟨page.keys.length - 1,
      (bp__search_scan ⟨ps, bp__default_compare_cb⟩ page.keys kv 1 (-1)).2,
      c0, hsearch, hc0, by omega, ?_, by omega⟩
    intro h1
    have := hpassed (page.keys.length - 1) (by omega) (by omega)
    exact klt_asymm ((dcmp_lt_zero_iff _ _).mp this)
  · have hstop := bp__search_scan_stop ⟨ps, bp__default_compare_cb⟩
      page.keys kv 1 (-1) hlt
    by_cases hz : (bp__search_scan ⟨ps, bp__default_compare_cb⟩
        page.keys kv 1 (-1)).2 = 0
    · -- exact hit on an entry key: descend into it
      have heqv : (page.keys.getD (bp__search_scan ⟨ps, bp__default_compare_cb⟩
          page.keys kv 1 (-1)).1 default).value = kv.value := by
        apply (dcmp_eq_zero_iff _ _).mp
        have h2 := hstop.2
        rw [hz] at h2
        exact h2.symm
      have hidx : (if (bp__search_scan ⟨ps, bp__default_compare_cb⟩
            page.keys kv 1 (-1)).2 ≠ 0 then
          (bp__search_scan ⟨ps, bp__default_compare_cb⟩ page.keys kv 1 (-1)).1 - 1
        else (bp__search_scan ⟨ps, bp__default_compare_cb⟩
          page.keys kv 1 (-1)).1) =
          (bp__search_scan ⟨ps, bp__default_compare_cb⟩ page.keys kv 1 (-1)).1 := by
        rw [if_neg (by omega)]
      obtain ⟨c0, hc0⟩ := hload _ hlt
      have hsearch := bp__page_search_node ⟨ps, bp__default_compare_cb⟩ d page kv
        htype _ rfl (by omega)
      rw [hidx, hc0] at hsearch
      refine ⟨_, _, c0, hsearch, hc0, hlt, ?_, ?_⟩
      · intro _
        rw [heqv]
        exact klt_irrefl _
      · intro hnext
        have := hchain _ (by omega) hnext
        rw [heqv] at this
        exact this
    · -- strictly larger entry: descend one to the left
      have hgt : klt kv.value (page.keys.getD
          (bp__search_scan ⟨ps, bp__default_compare_cb⟩
            page.keys kv 1 (-1)).1 default).value := by
        have h2 : (bp__search_scan ⟨ps, bp__default_compare_cb⟩
            page.keys kv 1 (-1)).2 =
            bp__default_compare_cb (page.keys.getD
              (bp__search_scan ⟨ps, bp__default_compare_cb⟩
                page.keys kv 1 (-1)).1 default).value kv.value := hstop.2
        have h1 := hstop.1
        rcases dcmp_vals (page.keys.getD
            (bp__search_scan ⟨ps, bp__default_compare_cb⟩
              page.keys kv 1 (-1)).1 default).value kv.value with h | h | h
        · rw [h] at h2
          omega
        · rw [h] at h2
          omega
        · unfold klt
          rw [dcmp_neg_iff]
          exact h
      have hidx : (if (bp__search_scan ⟨ps, bp__default_compare_cb⟩
            page.keys kv 1 (-1)).2 ≠ 0 then
          (bp__search_scan ⟨ps, bp__default_compare_cb⟩ page.keys kv 1 (-1)).1 - 1
        else (bp__search_scan ⟨ps, bp__default_compare_cb⟩
          page.keys kv 1 (-1)).1) =
          (bp__search_scan ⟨ps, bp__default_compare_cb⟩
            page.keys kv 1 (-1)).1 - 1 := by
        rw [if_pos hz]
      obtain ⟨c0, hc0⟩ := hload ((bp__search_scan ⟨ps, bp__default_compare_cb⟩
        page.keys kv 1 (-1)).1 - 1) (by omega)
      have hsearch := bp__page_search_node ⟨ps, bp__default_compare_cb⟩ d page kv
        htype _ rfl (by omega)
      rw [hidx, hc0] at hsearch
      refine ⟨_, _, c0, hsearch, hc0, by omega, ?_, ?_⟩
      · intro h1
        have := hpassed ((bp__search_scan ⟨ps, bp__default_compare_cb⟩
          page.keys kv 1 (-1)).1 - 1) (by omega) (by omega)
        exact klt_asymm ((dcmp_lt_zero_iff _ _).mp this)
      · intro hlast
        rw [show (bp__search_scan ⟨ps, bp__default_compare_cb⟩
          page.keys kv 1 (-1)).1 - 1 + 1 =
          (bp__search_scan ⟨ps, bp__default_compare_cb⟩
            page.keys kv 1 (-1)).1 from by omega]
        exact hgt

/-- `kmInsert` never produces the empty map. -/
theorem kmInsert_ne_nil {k : Key} {oc : Nat × Nat} {m : KMap} :
    kmInsert k oc m ≠ [] := by
  cases m with
  | nil =>
    rw [kmInsert_nil]
    exact List.cons_ne_nil _ _
  | cons x xs =>
    rw [kmInsert_cons]
    by_cases h1 : klt x.1 k
    · rw [if_pos h1]
      exact List.cons_ne_nil _ _
    · rw [if_neg h1]
      by_cases h2 : x.1 = k
      · rw [if_pos h2]
        exact List.cons_ne_nil _ _
      · rw [if_neg h2]
        exact List.cons_ne_nil _ _

theorem getD_set_self_km {ms : List KMap} {i : Nat} {v : KMap}
    (hi : i < ms.length) : (ms.set i v).getD i [] = v := by
  rw [List.getD_eq_getElem _ _ (by simpa using hi)]
  exact List.getElem_set_self _

theorem getD_set_ne_km {ms : List KMap} {i j : Nat} {v : KMap}
    (hij : i ≠ j) : (ms.set i v).getD j [] = ms.getD j [] := by
  by_cases hj : j < ms.length
  · rw [List.getD_eq_getElem _ _ (by simpa using hj),
      List.getD_eq_getElem _ _ hj]
    exact List.getElem_set_ne hij _
  · rw [List.getD_eq_default _ _ (by simpa using hj),
      List.getD_eq_default _ _ (by omega)]

theorem flatten_set_km {ms : List KMap} {i : Nat} {v : KMap}
    (hi : i < ms.length) :
    (ms.set i v).flatten =
      (ms.take i).flatten ++ v ++ (ms.drop (i + 1)).flatten := by
  rw [List.set_eq_take_append_cons_drop, if_pos hi, List.flatten_append]
  simp

/-! ### Saved pages and the unconditional split run -/

/-- A page as returned by a successful save against file `d`: reference
fields in range, still representing `m`, and loadable to a representative
from any extension of `d`. -/
def SavedAt (ps h : Nat) (d : Disk) (p : BpPage) (m : KMap) : Prop :=
  p.offset ≤ d.length ∧ p.config < 2 ^ 64 ∧ p.keys.length < ps ∧
  PageRep ps h d p m ∧
  ∀ d', Extends d d' → ∃ c, loadPageAt d' p.offset p.config = .ok c ∧
    c.keys.length < ps ∧ PageRep ps h d' c m

theorem SavedAt_mono_height {ps h h' : Nat} {d : Disk} {p : BpPage} {m : KMap}
    (hh : h ≤ h') (hs : SavedAt ps h d p m) : SavedAt ps h' d p m := by
  obtain ⟨h1, h2, h3, h4, h5⟩ := hs
  refine ⟨h1, h2, h3, PageRep_mono_height hh h4, ?_⟩
  intro d' hd'
  obtain ⟨c, hload2, hlen, hrep⟩ := h5 d' hd'
  exact ⟨c, hload2, hlen, PageRep_mono_height hh hrep⟩

theorem LeafRep_fields {ps : Nat} {p p' : BpPage} {m : KMap}
    (ht : p'.type = p.type) (hk : p'.keys = p.keys)
    (hb : p'.byte_size = p.byte_size) (h : LeafRep ps p m) : LeafRep ps p' m := by
  obtain ⟨h1, h2, h3, h4, h5⟩ := h
  exact ⟨ht.trans h1, by rw [PageShape, ht, hk, hb] at *; exact h2,
    by rw [hk]; exact h3, by rw [hk]; exact h4, by rw [hk]; exact h5⟩

theorem NodeRep_fields {ps : Nat} {rec : BpPage → KMap → Prop} {d : Disk}
    {p p' : BpPage} {m : KMap}
    (ht : p'.type = p.type) (hk : p'.keys = p.keys)
    (hb : p'.byte_size = p.byte_size) (h : NodeRep ps rec d p m) :
    NodeRep ps rec d p' m := by
  obtain ⟨h1, h2, h3, h4, ms, hms1, hms2, hch, hlo, hhi⟩ := h
  exact ⟨ht.trans h1, by rw [PageShape, ht, hk, hb] at *; exact h2,
    by rw [hk]; exact h3, by rw [hk]; exact h4,
    ms, by rw [hk]; exact hms1, hms2, by rw [hk]; exact hch,
    by rw [hk]; exact hlo, by rw [hk]; exact hhi⟩

theorem PageRep_fields {ps h : Nat} {d : Disk} {p p' : BpPage} {m : KMap}
    (ht : p'.type = p.type) (hk : p'.keys = p.keys)
    (hb : p'.byte_size = p.byte_size) (hrep : PageRep ps h d p m) :
    PageRep ps h d p' m := by
  cases h with
  | zero => exact LeafRep_fields ht hk hb hrep
  | succ h =>
    rcases hrep with hl | hn
    · exact Or.inl (LeafRep_fields ht hk hb hl)
    · exact Or.inr (NodeRep_fields ht hk hb hn)

/-- A successful save of a represented page yields a `SavedAt` page. -/
theorem bp__page_save_SavedAt {ps h : Nat} {d : Disk} {p : BpPage} {m : KMap}
    (hrep : PageRep ps h d p m) (hlen : p.keys.length < ps) (hps : 1 ≤ ps)
    {d' : Disk} {p' : BpPage} (heq : bp__page_save d p = .ok (d', p')) :
    SavedAt ps h d' p' m ∧ Extends d d' ∧ p'.keys = p.keys ∧
      p'.type = p.type ∧ p'.byte_size = p.byte_size := by
  obtain ⟨d2, p2, heq2, hext, hty, hk, hb, hoff, _, hcfglt, hafter⟩ :=
    bp__page_save_rep hrep hlen hps
  rw [heq] at heq2
  have h1 := Except.ok.inj heq2
  have hd : d' = d2 := congrArg Prod.fst h1
  have hp : p' = p2 := congrArg Prod.snd h1
  subst hd
  subst hp
  refine ⟨⟨hoff, hcfglt, by rw [hk]; exact hlen, ?_, hafter⟩, hext, hk, hty, hb⟩
  exact PageRep_fields hty hk hb (PageRep_mono_disk hext hrep)

/-- `bp__page_split` of a full child at an even `page_size` always succeeds,
extending the file and returning a parent with one more entry; this needs
no representation hypotheses. -/
theorem bp__page_split_run {ps : Nat} {d : Disk} {child : BpPage}
    (hps4 : 4 ≤ ps) (hev : ps % 2 = 0) (hfull : child.keys.length = ps)
    (cmp : List Nat → List Nat → Int) (parent : BpPage) (index : Nat)
    (hidx : index < parent.keys.length)
    (hpshape : parent.byte_size = sumKVSize parent.keys) :
    ∃ d' P, bp__page_split ⟨ps, cmp⟩ d parent index child = (d', .ok P) ∧
      Extends d d' ∧ P.type = parent.type ∧
      P.keys.length = parent.keys.length + 1 ∧
      P.byte_size = sumKVSize P.keys := by
  have hrc : (child.keys.drop (ps / 2)).take (ps - ps / 2) =
      child.keys.drop (ps / 2) := by
    apply List.take_of_length_le
    rw [List.length_drop]
    omega
  have hrt : (child.keys.drop (ps / 2)).take (ps / 2) =
      child.keys.drop (ps / 2) := by
    apply List.take_of_length_le
    rw [List.length_drop]
    omega
  have hL := bp__page_save_eq d
    { type := child.type,
      keys := (child.keys.take (ps / 2)).map bp__kv_copy_alloc,
      byte_size := sumKVSize (child.keys.take (ps / 2)),
      offset := 0, config := 0 }
    (Or.inr (by
      show ((child.keys.take (ps / 2)).map bp__kv_copy_alloc).length ≠ 0
      rw [List.length_map, List.length_take]
      omega))
    (by
      show sumKVSize ((child.keys.take (ps / 2)).map bp__kv_copy_alloc) =
        sumKVSize (child.keys.take (ps / 2))
      rw [sumKVSize_map_alloc])
  have hR := bp__page_save_eq
    (padTo8 d ++ serPage ((child.keys.take (ps / 2)).map bp__kv_copy_alloc))
    { type := child.type,
      keys := (((child.keys.drop (ps / 2)).take (ps - ps / 2)).take
        (ps / 2)).map bp__kv_copy_alloc,
      byte_size := sumKVSize ((child.keys.drop (ps / 2)).take (ps - ps / 2)),
      offset := 0, config := 0 }
    (Or.inr (by
      show ((((child.keys.drop (ps / 2)).take (ps - ps / 2)).take
        (ps / 2)).map bp__kv_copy_alloc).length ≠ 0
      rw [hrc, hrt, List.length_map, List.length_drop]
      omega))
    (by
      show sumKVSize ((((child.keys.drop (ps / 2)).take (ps - ps / 2)).take
          (ps / 2)).map bp__kv_copy_alloc) =
        sumKVSize ((child.keys.drop (ps / 2)).take (ps - ps / 2))
      rw [hrc, hrt, sumKVSize_map_alloc])
  have heq := bp__page_split_eq ⟨ps, cmp⟩ parent index child hL hR
  refine ⟨_, _, heq, ?_, rfl, ?_, ?_⟩
  · exact Extends.trans (bp__page_save_extends hL) (bp__page_save_extends hR)
  · show (setChildRef (parent.keys.insertIdx (index + 1) _) index _ _).length = _
    rw [setChildRef_length, List.length_insertIdx _ _ (by omega)]
  · show parent.byte_size + BP__KV_SIZE _ =
      sumKVSize (setChildRef (parent.keys.insertIdx (index + 1) _) index _ _)
    rw [sumKVSize_setChildRef, sumKVSize_insertIdx (by omega), hpshape]

/-! ### Rebuilding an internal page's representation -/

theorem getD_setChildRef_value (l : List BpKV) (i o cv j : Nat) :
    ((setChildRef l i o cv).getD j default).value = (l.getD j default).value := by
  by_cases hij : i = j
  · subst hij
    by_cases hi : i < l.length
    · rw [getD_setChildRef_self hi]
    · rw [List.getD_eq_default _ _ (by rw [setChildRef_length]; omega),
        List.getD_eq_default _ _ (by omega)]
  · rw [getD_setChildRef_ne hij]

/-- Patching one child reference of a represented internal page, replacing
that child's segment. -/
theorem NodeRep_patch {ps : Nat} {rec rec' : BpPage → KMap → Prop} {d d' : Disk}
    {page : BpPage} {ms : List KMap} {idx o cv : Nat} {seg : KMap}
    (htype : page.type = .kPage) (hshape : PageShape page)
    (hwf : WfKVs ps page.keys) (hlen2 : 2 ≤ page.keys.length)
    (hms1 : ms.length = page.keys.length)
    (hch : ∀ i, i < page.keys.length →
      ChildAt rec d (page.keys.getD i default) (ms.getD i []))
    (hlo : ∀ i, 1 ≤ i → i < page.keys.length →
      ∀ x ∈ ms.getD i [], ¬ klt x.1 (page.keys.getD i default).value)
    (hhi : ∀ i, i + 1 < page.keys.length →
      (∀ x ∈ ms.getD i [], klt x.1 (page.keys.getD (i + 1) default).value) ∧
      (1 ≤ i → klt (page.keys.getD i default).value
        (page.keys.getD (i + 1) default).value))
    (hext : Extends d d') (hrec : ∀ c mm, rec c mm → rec' c mm)
    (hidx : idx < page.keys.length)
    (hnew : ChildAt rec' d'
      { page.keys.getD idx default with offset := o, config := cv } seg)
    (hsegl : 1 ≤ idx → ∀ x ∈ seg, ¬ klt x.1 (page.keys.getD idx default).value)
    (hsegh : idx + 1 < page.keys.length →
      ∀ x ∈ seg, klt x.1 (page.keys.getD (idx + 1) default).value)
    (hwfo : o < 2 ^ 64) (hwfc : cv < 2 ^ 64) :
    NodeRep ps rec' d' { page with keys := setChildRef page.keys idx o cv }
      ((ms.set idx seg).flatten) := by
  refine ⟨htype, ?_, ?_, ?_, ms.set idx seg, ?_, rfl, ?_, ?_, ?_⟩
  · show page.byte_size = sumKVSize (setChildRef page.keys idx o cv)
    rw [sumKVSize_setChildRef]
    exact hshape
  · intro kv hkv
    rcases mem_setChildRef hkv with h | ⟨hlt, rfl⟩
    · exact hwf kv h
    · have hold := hwf (page.keys.getD idx default) (by
        rw [List.getD_eq_getElem _ _ hidx]
        exact List.getElem_mem _)
      exact ⟨hold.1, hold.2.1, hwfo, hwfc⟩
  · show 2 ≤ (setChildRef page.keys idx o cv).length
    rw [setChildRef_length]
    exact hlen2
  · show (ms.set idx seg).length = (setChildRef page.keys idx o cv).length
    rw [List.length_set, setChildRef_length]
    exact hms1
  · intro i hi
    rw [setChildRef_length] at hi
    by_cases hii : i = idx
    · subst hii
      rw [getD_setChildRef_self hi, getD_set_self_km (by omega)]
      exact hnew
    · rw [getD_setChildRef_ne (fun h => hii h.symm),
        getD_set_ne_km (fun h => hii h.symm)]
      exact ChildAt_mono hrec hext (hch i hi)
  · intro i h1 hi x hx
    rw [setChildRef_length] at hi
    rw [getD_setChildRef_value]
    by_cases hii : i = idx
    · subst hii
      rw [getD_set_self_km (by omega)] at hx
      exact hsegl h1 x hx
    · rw [getD_set_ne_km (fun h => hii h.symm)] at hx
      exact hlo i h1 hi x hx
  · intro i hi
    rw [setChildRef_length] at hi
    rw [getD_setChildRef_value, getD_setChildRef_value]
    by_cases hii : i = idx
    · subst hii
      rw [getD_set_self_km (by omega)]
      exact ⟨hsegh hi, fun h1 => (hhi i hi).2 h1⟩
    · rw [getD_set_ne_km (fun h => hii h.symm)]
      exact hhi i hi

theorem getD_append_left_km {l l' : List KMap} {j : Nat} (hj : j < l.length) :
    (l ++ l').getD j [] = l.getD j [] := by
  rw [List.getD_eq_getElem _ _ (by rw [List.length_append]; omega),
    List.getD_eq_getElem _ _ hj]
  exact List.getElem_append_left hj

theorem getD_append_right_km {l l' : List KMap} {j : Nat} (hj : l.length ≤ j) :
    (l ++ l').getD j [] = l'.getD (j - l.length) [] := by
  by_cases hj' : j < l.length + l'.length
  · rw [List.getD_eq_getElem _ _ (by rw [List.length_append]; omega),
      List.getD_eq_getElem _ _ (by omega)]
    exact List.getElem_append_right hj
  · rw [List.getD_eq_default _ _ (by rw [List.length_append]; omega),
      List.getD_eq_default _ _ (by omega)]

/-- Splitting the child at `idx` of a (partially) represented internal page:
the entry at `idx` is repointed at the left half and the separator entry is
inserted at `idx + 1` pointing at the right half. -/
theorem NodeRep_split_patch {ps : Nat} {rec rec' : BpPage → KMap → Prop}
    {d d' : Disk} {page : BpPage} (ms : List KMap) {idx lo lc : Nat}
    {sep : BpKV} {m_l m_r : KMap}
    (htype : page.type = .kPage) (hshape : PageShape page)
    (hwf : WfKVs ps page.keys)
    (hidx : idx < page.keys.length)
    (hms1 : ms.length = page.keys.length)
    (hch : ∀ i, i < page.keys.length → i ≠ idx →
      ChildAt rec d (page.keys.getD i default) (ms.getD i []))
    (hlo : ∀ i, 1 ≤ i → i < page.keys.length → i ≠ idx →
      ∀ x ∈ ms.getD i [], ¬ klt x.1 (page.keys.getD i default).value)
    (hhi : ∀ i, i + 1 < page.keys.length → i ≠ idx →
      (∀ x ∈ ms.getD i [], klt x.1 (page.keys.getD (i + 1) default).value) ∧
      (1 ≤ i → klt (page.keys.getD i default).value
        (page.keys.getD (i + 1) default).value))
    (hext : Extends d d') (hrec : ∀ c mm, rec c mm → rec' c mm)
    (hml : ChildAt rec' d'
      { page.keys.getD idx default with offset := lo, config := lc } m_l)
    (hmr : ChildAt rec' d' sep m_r)
    (horder1 : ∀ x ∈ m_l, klt x.1 sep.value)
    (horder2 : ∀ x ∈ m_r, ¬ klt x.1 sep.value)
    (hlbound : 1 ≤ idx → ∀ x ∈ m_l ++ m_r,
      ¬ klt x.1 (page.keys.getD idx default).value)
    (hubound : idx + 1 < page.keys.length →
      ∀ x ∈ m_l ++ m_r, klt x.1 (page.keys.getD (idx + 1) default).value)
    (hwfsep : WfKV ps sep) (hwflo : lo < 2 ^ 64) (hwflc : lc < 2 ^ 64) :
    NodeRep ps rec' d'
      { page with
          keys := setChildRef (page.keys.insertIdx (idx + 1) sep) idx lo lc,
          byte_size := page.byte_size + BP__KV_SIZE sep }
      ((ms.take idx).flatten ++ (m_l ++ m_r) ++
        (ms.drop (idx + 1)).flatten) := by
  have hlenK' : (page.keys.insertIdx (idx + 1) sep).length =
      page.keys.length + 1 := List.length_insertIdx _ _ (by omega)
  have hlen' : (setChildRef (page.keys.insertIdx (idx + 1) sep) idx lo lc).length =
      page.keys.length + 1 := by
    rw [setChildRef_length, hlenK']
  -- entry lookups in the patched key list
  have g_lt : ∀ j, j < idx →
      (setChildRef (page.keys.insertIdx (idx + 1) sep) idx lo lc).getD j default =
        page.keys.getD j default := by
    intro j hj
    rw [getD_setChildRef_ne (by omega), getD_insertIdx_lt (by omega) (by omega)]
  have g_self :
      (setChildRef (page.keys.insertIdx (idx + 1) sep) idx lo lc).getD idx default =
        { page.keys.getD idx default with offset := lo, config := lc } := by
    rw [getD_setChildRef_self (by omega), getD_insertIdx_lt (by omega) (by omega)]
  have g_sep :
      (setChildRef (page.keys.insertIdx (idx + 1) sep) idx lo lc).getD (idx + 1)
        default = sep := by
    rw [getD_setChildRef_ne (by omega), getD_insertIdx_self (by omega)]
  have g_gt : ∀ j, idx + 2 ≤ j →
      (setChildRef (page.keys.insertIdx (idx + 1) sep) idx lo lc).getD j default =
        page.keys.getD (j - 1) default := by
    intro j hj
    rw [getD_setChildRef_ne (by omega), getD_insertIdx_gt (by omega) (by omega)]
  -- segment lookups in the patched segment list
  have htklen : (ms.take idx).length = idx := by
    rw [List.length_take]
    omega
  have s_lt : ∀ j, j < idx →
      (ms.take idx ++ m_l :: m_r :: ms.drop (idx + 1)).getD j [] =
        ms.getD j [] := by
    intro j hj
    rw [getD_append_left_km (by omega), getD_take_km hj]
  have s_self :
      (ms.take idx ++ m_l :: m_r :: ms.drop (idx + 1)).getD idx [] = m_l := by
    rw [getD_append_right_km (by omega), htklen]
    simp
  have s_sep :
      (ms.take idx ++ m_l :: m_r :: ms.drop (idx + 1)).getD (idx + 1) [] =
        m_r := by
    rw [getD_append_right_km (by omega), htklen]
    rw [show idx + 1 - idx = 1 from by omega]
    rfl
  have s_gt : ∀ j, idx + 2 ≤ j →
      (ms.take idx ++ m_l :: m_r :: ms.drop (idx + 1)).getD j [] =
        ms.getD (j - 1) [] := by
    intro j hj
    rw [getD_append_right_km (by omega), htklen]
    rw [show j - idx = (j - idx - 2) + 1 + 1 from by omega]
    show (ms.drop (idx + 1)).getD (j - idx - 2) [] = _
    rw [getD_drop_km]
    rw [show idx + 1 + (j - idx - 2) = j - 1 from by omega]
  refine ⟨htype, ?_, ?_, ?_, ms.take idx ++ m_l :: m_r :: ms.drop (idx + 1),
    ?_, ?_, ?_, ?_, ?_⟩
  · show page.byte_size + BP__KV_SIZE sep =
      sumKVSize (setChildRef (page.keys.insertIdx (idx + 1) sep) idx lo lc)
    rw [sumKVSize_setChildRef, sumKVSize_insertIdx (by omega), hshape]
  · intro kv hkv
    rcases mem_setChildRef hkv with h | ⟨hlt, rfl⟩
    · rcases mem_insertIdx h with h' | rfl
      · exact hwf kv h'
      · exact hwfsep
    · rw [getD_insertIdx_lt (by omega) (by omega)]
      have hold := hwf (page.keys.getD idx default) (by
        rw [List.getD_eq_getElem _ _ hidx]
        exact List.getElem_mem _)
      exact ⟨hold.1, hold.2.1, hwflo, hwflc⟩
  · rw [hlen']
    omega
  · rw [hlen']
    simp
    omega
  · rw [List.flatten_append]
    simp [List.append_assoc]
  · intro i hi
    rw [hlen'] at hi
    rcases Nat.lt_trichotomy i idx with h1 | h1 | h1
    · rw [g_lt i h1, s_lt i h1]
      exact ChildAt_mono hrec hext (hch i (by omega) (by omega))
    · subst h1
      rw [g_self, s_self]
      exact hml
    · rcases Nat.eq_or_lt_of_le h1 with h2 | h2
      · rw [← h2, g_sep, s_sep]
        exact hmr
      · rw [g_gt i (by omega), s_gt i (by omega)]
        exact ChildAt_mono hrec hext (hch (i - 1) (by omega) (by omega))
  · intro i h1 hi x hx
    rw [hlen'] at hi
    rcases Nat.lt_trichotomy i idx with hc | hc | hc
    · rw [s_lt i hc] at hx
      rw [g_lt i hc]
      exact hlo i h1 (by omega) (by omega) x hx
    · subst hc
      rw [s_self] at hx
      rw [g_self]
      exact hlbound h1 x (List.mem_append_left _ hx)
    · rcases Nat.eq_or_lt_of_le hc with h2 | h2
      · rw [← h2] at hx ⊢
        rw [s_sep] at hx
        rw [g_sep]
        exact horder2 x hx
      · rw [s_gt i (by omega)] at hx
        rw [g_gt i (by omega)]
        exact hlo (i - 1) (by omega) (by omega) (by omega) x hx
  · intro i hi
    rw [hlen'] at hi
    rcases Nat.lt_trichotomy (i + 1) idx with hc | hc | hc
    · rw [g_lt i (by omega), g_lt (i + 1) (by omega), s_lt i (by omega)]
      exact hhi i (by omega) (by omega)
    · -- the segment below the untouched entry `idx`
      rw [hc, g_lt i (by omega), g_self, s_lt i (by omega)]
      have hold := hhi i (by omega) (by omega)
      rw [hc] at hold
      exact ⟨fun x hx => hold.1 x hx, fun hh => hold.2 hh⟩
    · rcases Nat.eq_or_lt_of_le hc with h2 | h2
      · -- segment `m_l` sits between the patched entry and the separator
        have hieq : i = idx := by omega
        subst hieq
        rw [g_self, g_sep, s_self]
        refine ⟨horder1, fun h1 => ?_⟩
        obtain ⟨x, hx⟩ := List.exists_mem_of_ne_nil m_l hml.2
        exact kle_klt_trans
          (kle_of_not_klt (hlbound h1 x (List.mem_append_left _ hx)))
          (horder1 x hx)
      · rcases Nat.eq_or_lt_of_le h2 with h3 | h3
        · -- segment `m_r` sits between the separator and the next entry
          have hieq : i = idx + 1 := by omega
          subst hieq
          rw [g_sep, g_gt (idx + 2) (by omega), s_sep]
          rw [show idx + 2 - 1 = idx + 1 from by omega]
          refine ⟨fun x hx => hubound (by omega) x (List.mem_append_right _ hx),
            fun _ => ?_⟩
          obtain ⟨x, hx⟩ := List.exists_mem_of_ne_nil m_r hmr.2
          exact kle_klt_trans (kle_of_not_klt (horder2 x hx))
            (hubound (by omega) x (List.mem_append_right _ hx))
        · rw [g_gt i (by omega), g_gt (i + 1) (by omega), s_gt i (by omega)]
          rw [show i + 1 - 1 = (i - 1) + 1 from by omega]
          have hold := hhi (i - 1) (by omega) (by omega)
          exact ⟨fun x hx => hold.1 x hx, fun _ => hold.2 (by omega)⟩

/-! ### The insert tail (`bp__page_insert_finish`) -/

theorem bp__page_insert_finish_eq_root {cfg : BpCfg} {d : Disk} {P : BpPage}
    (hfull : P.keys.length = cfg.page_size) {d1 : Disk} {R : BpPage}
    (hsplit : bp__page_split cfg d (bp__page_create .kPage 0 0) 0 P = (d1, .ok R))
    (hR : R.keys.length < cfg.page_size) {d2 : Disk} {R' : BpPage}
    (hsave : bp__page_save d1 R = .ok (d2, R')) :
    bp__page_insert_finish cfg true d P = .ok d2 R' := by
  simp only [bp__page_insert_finish, if_pos hfull, hsplit, hsave, if_pos hR,
    if_true]

theorem bp__page_insert_finish_eq_save {cfg : BpCfg} {isRoot : Bool} {d : Disk}
    {P : BpPage} (hnotfull : P.keys.length ≠ cfg.page_size)
    (hlt : P.keys.length < cfg.page_size) {d' : Disk} {P' : BpPage}
    (hsave : bp__page_save d P = .ok (d', P')) :
    bp__page_insert_finish cfg isRoot d P = .ok d' P' := by
  simp only [bp__page_insert_finish, if_neg hnotfull, if_pos hlt, hsave]

theorem bp__page_insert_finish_eq_splitpage {cfg : BpCfg} {d : Disk}
    {P : BpPage} (hfull : P.keys.length = cfg.page_size) :
    bp__page_insert_finish cfg false d P = .splitpage d P := by
  simp only [bp__page_insert_finish, if_pos hfull, Bool.false_eq_true,
    if_false]

/-- The tail of an insert: save when there is room, split the root in place
when it filled up.  The page handed in is in-memory: its representation may
depend on file offsets being in `uint64_t` range, so it is assumed only
under the file-size bound, and everything representation-flavoured in the
conclusion is guarded the same way. -/
theorem bp__page_insert_finish_rep {ps h : Nat} (isRoot : Bool) {d : Disk}
    {P : BpPage} {M : KMap}
    (hps4 : 4 ≤ ps) (hev : ps % 2 = 0) (h24 : 24 * ps < 2 ^ 63)
    (hshape : P.byte_size = sumKVSize P.keys)
    (hne : P.type = .kLeaf ∨ P.keys.length ≠ 0)
    (hlen : P.keys.length ≤ ps)
    (hrep : d.length < 2 ^ 64 → PageRep ps h d P M) :
    (∃ d' P', bp__page_insert_finish ⟨ps, bp__default_compare_cb⟩ isRoot d P =
        .ok d' P' ∧ Extends d d' ∧
        (d'.length < 2 ^ 64 →
          SavedAt ps (if P.keys.length = ps then h + 1 else h) d' P' M)) ∨
    (isRoot = false ∧ P.keys.length = ps ∧
      bp__page_insert_finish ⟨ps, bp__default_compare_cb⟩ isRoot d P =
        .splitpage d P) := by
  by_cases hfull : P.keys.length = ps
  · cases isRoot with
    | false =>
      exact Or.inr ⟨rfl, hfull, bp__page_insert_finish_eq_splitpage hfull⟩
    | true =>
      -- split the root in place under a fresh internal page
      obtain ⟨d1, R, hsplit, hext1, htyR, hlenR, hshR⟩ :=
        bp__page_split_run hps4 hev hfull bp__default_compare_cb
          (bp__page_create .kPage 0 0) 0 (by decide) (by decide) (d := d)
      have hlenR2 : R.keys.length = 2 := by
        rw [hlenR]
        rfl
      obtain ⟨d2, R', hsave⟩ : ∃ d2 R', bp__page_save d1 R = .ok (d2, R') :=
        ⟨_, _, bp__page_save_eq d1 R (Or.inr (by omega)) hshR.symm⟩
      refine Or.inl ⟨d2, R', bp__page_insert_finish_eq_root hfull hsplit
        (by rw [hlenR2]; show (2 : Nat) < ps; omega) hsave,
        Extends.trans hext1 (bp__page_save_extends hsave), ?_⟩
      intro hcap
      rw [if_pos hfull]
      have hcap1 : d1.length < 2 ^ 64 :=
        lt_of_le_of_lt (Extends.length_le (bp__page_save_extends hsave)) hcap
      have hcap0 : d.length < 2 ^ 64 :=
        lt_of_le_of_lt (Extends.length_le hext1) hcap1
      have hrepP := hrep hcap0
      have hwfP := PageRep_wf hrepP
      obtain ⟨d1', lo, lc, ro, rc, m_l, m_r, hsplit', hext1', hmc, hlne, hrne,
        hbl, hbr, hlole, hlclt, hrole, hrclt, hloadL, hloadR⟩ :=
        bp__page_split_rep hps4 hev hrepP hfull bp__default_compare_cb
          (bp__page_create .kPage 0 0) 0
      rw [hsplit] at hsplit'
      have hd1 : d1 = d1' := congrArg Prod.fst hsplit'
      subst hd1
      have hRlit := Except.ok.inj (congrArg Prod.snd hsplit')
      -- the new root represents the two halves
      have hentry := hwfP (P.keys.getD (ps / 2) default) (by
        rw [List.getD_eq_getElem _ _ (by omega : ps / 2 < P.keys.length)]
        exact List.getElem_mem _)
      have hnode : NodeRep ps
          (fun c mm => c.keys.length < ps ∧ PageRep ps h d1 c mm) d1
          { bp__page_create .kPage 0 0 with
              keys := setChildRef
                ((bp__page_create .kPage 0 0).keys.insertIdx (0 + 1)
                  { bp__kv_copy_alloc (P.keys.getD (ps / 2) default) with
                      offset := ro, config := rc }) 0 lo lc,
              byte_size := (bp__page_create .kPage 0 0).byte_size +
                BP__KV_SIZE { bp__kv_copy_alloc (P.keys.getD (ps / 2) default) with
                  offset := ro, config := rc } }
          ((([M] : List KMap).take 0).flatten ++ (m_l ++ m_r) ++
            (([M] : List KMap).drop 1).flatten) := by
        refine NodeRep_split_patch [M] rfl ?_ ?_ (by decide) rfl
          ?_ ?_ ?_ (Extends.refl d1) (fun c mm hc => hc) ?_ ?_ ?_ ?_ ?_ ?_
          ?_ ?_ hlclt
        · show (bp__page_create .kPage 0 0).byte_size =
            sumKVSize (bp__page_create .kPage 0 0).keys
          decide
        · intro kv hkv
          have hkv0 : kv = ⟨0, 0, 0, [], false⟩ := by
            have hck : (bp__page_create .kPage 0 0).keys =
                [⟨0, 0, 0, [], false⟩] := rfl
            rw [hck] at hkv
            simpa using hkv
          subst hkv0
          exact ⟨rfl, by show (24 + 0) * ps < 2 ^ 63; omega,
            by show (0 : Nat) < 2 ^ 64; norm_num,
            by show (0 : Nat) < 2 ^ 64; norm_num⟩
        · intro i h1 h2
          exact absurd h1 (by show ¬ i < 1; omega)
        · intro i h1 h2 h3
          exact absurd h2 (by show ¬ i < 1; omega)
        · intro i h1 h2
          exact absurd h1 (by show ¬ i + 1 < 1; omega)
        · refine ⟨?_, hlne⟩
          obtain ⟨c, hloadc, hclen, hcrep⟩ := hloadL d1 (Extends.refl d1)
          exact ⟨c, hloadc, hclen, hcrep⟩
        · refine ⟨?_, hrne⟩
          obtain ⟨c, hloadc, hclen, hcrep⟩ := hloadR d1 (Extends.refl d1)
          exact ⟨c, hloadc, hclen, hcrep⟩
        · intro x hx
          exact hbl x hx
        · intro x hx
          exact hbr x hx
        · intro h1
          exact absurd h1 (by omega)
        · intro hcon
          exact absurd hcon (by show ¬ 0 + 1 < 1; omega)
        · exact ⟨hentry.1, hentry.2.1, show ro < 2 ^ 64 by omega, hrclt⟩
        · show lo < 2 ^ 64
          omega
      have hmm : ((([M] : List KMap).take 0).flatten ++ (m_l ++ m_r) ++
          (([M] : List KMap).drop 1).flatten) = M := by
        simp [hmc]
      have hrepR : PageRep ps (h + 1) d1 R M := by
        rw [hRlit, ← hmm]
        exact PageRep_node hnode
      exact (bp__page_save_SavedAt hrepR (by omega) (by omega) hsave).1
  · have hlt : P.keys.length < ps := by omega
    obtain ⟨d', P', hsaveEq⟩ : ∃ d' P', bp__page_save d P = .ok (d', P') :=
      ⟨_, _, bp__page_save_eq d P hne hshape.symm⟩
    refine Or.inl ⟨d', P', bp__page_insert_finish_eq_save hfull hlt hsaveEq,
      bp__page_save_extends hsaveEq, ?_⟩
    intro hcap
    rw [if_neg hfull]
    have hcap0 : d.length < 2 ^ 64 :=
      lt_of_le_of_lt (Extends.length_le (bp__page_save_extends hsaveEq)) hcap
    exact (bp__page_save_SavedAt (hrep hcap0) hlt (by omega) hsaveEq).1

/-- Inserting a key that the scan routed to segment `idx` touches only that
segment of an internal page's map. -/
theorem seg_kmInsert {ps : Nat} {rec : BpPage → KMap → Prop} {d : Disk}
    {p : BpPage} {m : KMap} (hn : NodeRep ps rec d p m)
    {ms : List KMap} {idx : Nat} {k : Key} {oc : Nat × Nat}
    (hms1 : ms.length = p.keys.length) (hms2 : m = ms.flatten)
    (hlo : ∀ i, 1 ≤ i → i < p.keys.length →
      ∀ x ∈ ms.getD i [], ¬ klt x.1 (p.keys.getD i default).value)
    (hhi : ∀ i, i + 1 < p.keys.length →
      (∀ x ∈ ms.getD i [], klt x.1 (p.keys.getD (i + 1) default).value) ∧
      (1 ≤ i → klt (p.keys.getD i default).value
        (p.keys.getD (i + 1) default).value))
    (hidx : idx < p.keys.length)
    (hgein : 1 ≤ idx → ¬ klt k (p.keys.getD idx default).value)
    (hltout : idx + 1 < p.keys.length →
      klt k (p.keys.getD (idx + 1) default).value) :
    kmInsert k oc m =
      (ms.take idx).flatten ++ kmInsert k oc (ms.getD idx []) ++
        (ms.drop (idx + 1)).flatten := by
  have hm' : m = (ms.take idx).flatten ++
      (ms.getD idx [] ++ (ms.drop (idx + 1)).flatten) := by
    rw [hms2]
    exact flatten_segment (by omega)
  rw [hm']
  rw [kmInsert_append_left (by
    intro x hx
    obtain ⟨j, hjlt, hjms, hxj⟩ := mem_take_flatten hx
    have h1le : 1 ≤ idx := by omega
    have hup : klt x.1 (p.keys.getD (j + 1) default).value :=
      (hhi j (by omega)).1 x hxj
    have hmono : kle (p.keys.getD (j + 1) default).value
        (p.keys.getD idx default).value :=
      NodeRep_entry_mono hn (j + 1) idx (by omega) (by omega) (by omega)
    exact klt_kle_trans (klt_kle_trans hup hmono) (kle_of_not_klt (hgein h1le)))]
  rw [kmInsert_append_right (by
    intro x hx
    obtain ⟨j, hjge, hjms, hxj⟩ := mem_drop_flatten hx
    have hnext : idx + 1 < p.keys.length := by omega
    have hmono : kle (p.keys.getD (idx + 1) default).value
        (p.keys.getD j default).value :=
      NodeRep_entry_mono hn (idx + 1) j (by omega) (by omega) (by omega)
    have hlow : kle (p.keys.getD j default).value x.1 :=
      kle_of_not_klt (hlo j (by omega) (by omega) x hxj)
    exact klt_kle_trans (klt_kle_trans (hltout hnext) hmono) hlow)]
  rw [List.append_assoc]

theorem SavedAt_if_root {ps h : Nat} {d : Disk} {p : BpPage} {m : KMap}
    {cond : Prop} [Decidable cond]
    (hs : SavedAt ps (if cond then h + 1 else h) d p m) :
    SavedAt ps (h + 1) d p m := by
  by_cases hh : cond
  · rw [if_pos hh] at hs
    exact hs
  · rw [if_neg hh] at hs
    exact SavedAt_mono_height (by omega) hs

theorem finish_nonroot_ok_not_full {cfg : BpCfg} {d : Disk} {P : BpPage}
    {d' : Disk} {P' : BpPage}
    (heqf : bp__page_insert_finish cfg false d P = .ok d' P') :
    P.keys.length ≠ cfg.page_size := by
  intro hh
  rw [bp__page_insert_finish_eq_splitpage hh] at heqf
  exact IRes.noConfusion heqf

/-- `bp__page_insert` refines `kmInsert`: on a represented page with room,
it either succeeds with a saved page representing the updated map, or (in a
non-root position, when the page filled up) hands back the full unsaved
page still representing the updated map.  No error is possible.  The
representation conclusions are guarded by the resulting file staying within
`uint64_t` addressing. -/
theorem bp__page_insert_rep :
    ∀ (fuel : Nat) {ps h : Nat} (isRoot : Bool) {d : Disk} {page : BpPage}
      {m : KMap} (kv : BpKV),
      4 ≤ ps → ps % 2 = 0 →
      PageRep ps h d page m → page.keys.length < ps →
      kv.value.length = kv.length → (24 + kv.length) * ps < 2 ^ 63 →
      kv.config < 2 ^ 64 → kv.offset ≤ d.length → h < fuel →
      (∃ d' page',
        bp__page_insert ⟨ps, bp__default_compare_cb⟩ fuel isRoot d page kv =
          .ok d' page' ∧ Extends d d' ∧
        (d'.length < 2 ^ 64 →
          SavedAt ps (if isRoot then h + 1 else h) d' page'
            (kmInsert kv.value (kv.offset, kv.config) m))) ∨
      (isRoot = false ∧ ∃ d' page',
        bp__page_insert ⟨ps, bp__default_compare_cb⟩ fuel isRoot d page kv =
          .splitpage d' page' ∧ Extends d d' ∧ page'.keys.length = ps ∧
        (d'.length < 2 ^ 64 →
          PageRep ps h d' page'
            (kmInsert kv.value (kv.offset, kv.config) m))) := by
  intro fuel
  induction fuel with
  | zero =>
    intro ps h isRoot d page m kv _ _ _ _ _ _ _ _ hfuel
    omega
  | succ fuel ih =>
    intro ps h isRoot d page m kv hps4 hev hrep hlen hkv1 hkv2 hkv3 hkv4 hfuel
    have hbig : 24 * ps < 2 ^ 63 :=
      lt_of_le_of_lt (Nat.mul_le_mul_right ps (by omega)) hkv2
    have hcase : LeafRep ps page m ∨ ∃ h', h = h' + 1 ∧ NodeRep ps
        (fun c mm => c.keys.length < ps ∧ PageRep ps h' d c mm) d page m := by
      cases h with
      | zero => exact Or.inl hrep
      | succ h' =>
        rcases hrep with hl | hnn
        · exact Or.inl hl
        · exact Or.inr ⟨h', rfl, hnn⟩
    rcases hcase with hl | ⟨h', rfl, hn⟩
    · -- leaf page: local insertion
      obtain ⟨htype, hshape, hwf, hm, hsort⟩ := hl
      obtain ⟨i, c, hsearch, hile, hbelow, hcase2⟩ :=
        bp__page_search_leaf_run ps d page kv htype
      have hmsorted : KMSorted m := by
        unfold KMSorted
        rw [hm, List.pairwise_map]
        exact hsort.imp (fun hab => hab)
      rcases hcase2 with ⟨hc0, hilt, heqv⟩ | ⟨hcne, hstop⟩
      · -- hit: the old binding is removed first
        have hueq : bp__page_insert ⟨ps, bp__default_compare_cb⟩ (fuel + 1)
            isRoot d page kv =
            bp__page_insert_finish ⟨ps, bp__default_compare_cb⟩ isRoot d
              { bp__page_remove_idx page i with
                  keys := (bp__page_remove_idx page i).keys.insertIdx i
                    (bp__kv_copy_alloc kv),
                  byte_size := (bp__page_remove_idx page i).byte_size +
                    BP__KV_SIZE kv } := by
          simp only [bp__page_insert, hsearch, if_pos hc0]
        have hlenE : (page.keys.eraseIdx i).length = page.keys.length - 1 := by
          rw [List.length_eraseIdx, if_pos hilt]
        have hlen2 : ((page.keys.eraseIdx i).insertIdx i
            (bp__kv_copy_alloc kv)).length = page.keys.length := by
          rw [List.length_insertIdx _ _ (by omega), hlenE]
          omega
        have hsum := sumKVSize_eraseIdx (l := page.keys) hilt
        have hmap2 : ((page.keys.eraseIdx i).insertIdx i
            (bp__kv_copy_alloc kv)).map kvEntry =
            kmInsert kv.value (kv.offset, kv.config) m := by
          rw [hm]
          exact leaf_insertIdx_hit hilt hbelow heqv
        have hshape2 : (page.byte_size -
            BP__KV_SIZE (page.keys.getD i default)) + BP__KV_SIZE kv =
            sumKVSize ((page.keys.eraseIdx i).insertIdx i
              (bp__kv_copy_alloc kv)) := by
          rw [sumKVSize_insertIdx (by omega)]
          have he : BP__KV_SIZE (bp__kv_copy_alloc kv) = BP__KV_SIZE kv := rfl
          rw [he, hshape]
          omega
        have hrep2 : d.length < 2 ^ 64 →
            PageRep ps h d
              { bp__page_remove_idx page i with
                  keys := (bp__page_remove_idx page i).keys.insertIdx i
                    (bp__kv_copy_alloc kv),
                  byte_size := (bp__page_remove_idx page i).byte_size +
                    BP__KV_SIZE kv }
              (kmInsert kv.value (kv.offset, kv.config) m) := by
          intro hcap
          refine PageRep_leaf ⟨htype, hshape2, ?_, hmap2.symm, ?_⟩
          · intro y hy
            rcases mem_insertIdx hy with hy' | rfl
            · exact hwf y ((List.eraseIdx_sublist _ _).subset hy')
            · exact ⟨hkv1, hkv2, show kv.offset < 2 ^ 64 by omega, hkv3⟩
          · have hs2 : KMSorted (kmInsert kv.value (kv.offset, kv.config) m) :=
              kmInsert_sorted hmsorted
            unfold KMSorted at hs2
            rw [← hmap2, List.pairwise_map] at hs2
            exact hs2.imp (fun hab => hab)
        rcases bp__page_insert_finish_rep isRoot (P := { bp__page_remove_idx page i with
              keys := (bp__page_remove_idx page i).keys.insertIdx i
                (bp__kv_copy_alloc kv),
              byte_size := (bp__page_remove_idx page i).byte_size +
                BP__KV_SIZE kv })
            hps4 hev hbig hshape2
            (Or.inl htype)
            (by
              show ((page.keys.eraseIdx i).insertIdx i
                (bp__kv_copy_alloc kv)).length ≤ ps
              rw [hlen2]
              omega)
            hrep2
            with ⟨d', P', heqf, hextf, hcondf⟩ | ⟨hroot, hfull2, heqsp⟩
        · refine Or.inl ⟨d', P', hueq.trans heqf, hextf, ?_⟩
          intro hcap
          have hsv := hcondf hcap
          cases isRoot with
          | true =>
            exact SavedAt_if_root hsv
          | false =>
            have hnf := finish_nonroot_ok_not_full heqf
            rw [if_neg hnf] at hsv
            exact hsv
        · refine Or.inr ⟨hroot, d, _, hueq.trans heqsp, Extends.refl d,
            hfull2, hrep2⟩
      · -- miss: plain insertion at the scan index
        have hueq : bp__page_insert ⟨ps, bp__default_compare_cb⟩ (fuel + 1)
            isRoot d page kv =
            bp__page_insert_finish ⟨ps, bp__default_compare_cb⟩ isRoot d
              { page with
                  keys := page.keys.insertIdx i (bp__kv_copy_alloc kv),
                  byte_size := page.byte_size + BP__KV_SIZE kv } := by
          simp only [bp__page_insert, hsearch, if_neg hcne]
        have hlen2 : (page.keys.insertIdx i
            (bp__kv_copy_alloc kv)).length = page.keys.length + 1 :=
          List.length_insertIdx _ _ hile
        have hmap2 : (page.keys.insertIdx i (bp__kv_copy_alloc kv)).map kvEntry =
            kmInsert kv.value (kv.offset, kv.config) m := by
          rw [hm]
          exact leaf_insertIdx_miss hile hbelow hstop
        have hshape2 : page.byte_size + BP__KV_SIZE kv =
            sumKVSize (page.keys.insertIdx i (bp__kv_copy_alloc kv)) := by
          rw [sumKVSize_insertIdx hile]
          have he : BP__KV_SIZE (bp__kv_copy_alloc kv) = BP__KV_SIZE kv := rfl
          rw [he, hshape]
        have hrep2 : d.length < 2 ^ 64 →
            PageRep ps h d
              { page with
                  keys := page.keys.insertIdx i (bp__kv_copy_alloc kv),
                  byte_size := page.byte_size + BP__KV_SIZE kv }
              (kmInsert kv.value (kv.offset, kv.config) m) := by
          intro hcap
          refine PageRep_leaf ⟨htype, hshape2, ?_, hmap2.symm, ?_⟩
          · intro y hy
            rcases mem_insertIdx hy with hy' | rfl
            · exact hwf y hy'
            · exact ⟨hkv1, hkv2, show kv.offset < 2 ^ 64 by omega, hkv3⟩
          · have hs2 : KMSorted (kmInsert kv.value (kv.offset, kv.config) m) :=
              kmInsert_sorted hmsorted
            unfold KMSorted at hs2
            rw [← hmap2, List.pairwise_map] at hs2
            exact hs2.imp (fun hab => hab)
        rcases bp__page_insert_finish_rep isRoot (P := { page with
              keys := page.keys.insertIdx i (bp__kv_copy_alloc kv),
              byte_size := page.byte_size + BP__KV_SIZE kv })
            hps4 hev hbig hshape2
            (Or.inl htype)
            (by
              show (page.keys.insertIdx i (bp__kv_copy_alloc kv)).length ≤ ps
              rw [hlen2]
              omega)
            hrep2
            with ⟨d', P', heqf, hextf, hcondf⟩ | ⟨hroot, hfull2, heqsp⟩
        · refine Or.inl ⟨d', P', hueq.trans heqf, hextf, ?_⟩
          intro hcap
          have hsv := hcondf hcap
          cases isRoot with
          | true =>
            exact SavedAt_if_root hsv
          | false =>
            have hnf := finish_nonroot_ok_not_full heqf
            rw [if_neg hnf] at hsv
            exact hsv
        · refine Or.inr ⟨hroot, d, _, hueq.trans heqsp, Extends.refl d,
            hfull2, hrep2⟩
    · -- internal page: descend
      obtain ⟨htype, hshape, hwf, hlen2, ms, hms1, hms2, hch, hlo, hhi⟩ := hn
      have hnfull : NodeRep ps
          (fun c mm => c.keys.length < ps ∧ PageRep ps h' d c mm) d page m :=
        ⟨htype, hshape, hwf, hlen2, ms, hms1, hms2, hch, hlo, hhi⟩
      obtain ⟨idx, cv, child, hsearch, hloadeq, hidxlt, hgein, hltout⟩ :=
        bp__page_search_node_run ps d page kv htype hlen2
          (fun i h1 h2 => (hhi i h2).2 h1)
          (fun i hi => ((hch i hi).1).imp (fun c hc => hc.1))
      obtain ⟨⟨c0, hload0, hrec0⟩, hsegne⟩ := hch idx hidxlt
      have hceq : c0 = child := by
        rw [hload0] at hloadeq
        exact Except.ok.inj hloadeq
      subst hceq
      rcases ih false kv hps4 hev hrec0.2 hrec0.1 hkv1 hkv2 hkv3 hkv4
          (show h' < fuel by omega)
          with ⟨d1, child', heqc, hextc, hcond⟩ |
            ⟨-, d1, child'', heqc, hextc, hfullc, hcondc⟩
      · -- the child was saved: patch its reference in
        have hueq : bp__page_insert ⟨ps, bp__default_compare_cb⟩ (fuel + 1)
            isRoot d page kv =
            bp__page_insert_finish ⟨ps, bp__default_compare_cb⟩ isRoot d1
              { page with
                  keys := setChildRef page.keys idx child'.offset
                    child'.config } := by
          simp only [bp__page_insert, hsearch, heqc]
        have hshape1 : page.byte_size =
            sumKVSize (setChildRef page.keys idx child'.offset child'.config) := by
          rw [sumKVSize_setChildRef]
          exact hshape
        have hrep1 : d1.length < 2 ^ 64 →
            PageRep ps (h' + 1) d1
              { page with
                  keys := setChildRef page.keys idx child'.offset child'.config }
              (kmInsert kv.value (kv.offset, kv.config) m) := by
          intro hcap1
          obtain ⟨hoff', hcfg', hclen', hrepc', hload'⟩ := hcond hcap1
          have hnew : ChildAt
              (fun cc mm => cc.keys.length < ps ∧ PageRep ps h' d1 cc mm) d1
              { page.keys.getD idx default with
                  offset := child'.offset, config := child'.config }
              (kmInsert kv.value (kv.offset, kv.config) (ms.getD idx [])) := by
            refine ⟨?_, kmInsert_ne_nil⟩
            obtain ⟨cc, hloadcc, hlencc, hrepcc⟩ := hload' d1 (Extends.refl d1)
            exact ⟨cc, hloadcc, hlencc, hrepcc⟩
          have hnode := NodeRep_patch htype hshape hwf hlen2 hms1 hch hlo hhi
            hextc (fun cc mm hc => ⟨hc.1, PageRep_mono_disk hextc hc.2⟩)
            hidxlt hnew
            (fun h1 x hx => by
              rcases kmInsert_mem hx with hx' | rfl
              · exact hlo idx h1 hidxlt x hx'
              · exact hgein h1)
            (fun hnext x hx => by
              rcases kmInsert_mem hx with hx' | rfl
              · exact (hhi idx hnext).1 x hx'
              · exact hltout hnext)
            (by omega) hcfg'
          have hmapeq : ((ms.set idx (kmInsert kv.value (kv.offset, kv.config)
              (ms.getD idx []))).flatten) =
              kmInsert kv.value (kv.offset, kv.config) m := by
            rw [flatten_set_km (by omega)]
            rw [seg_kmInsert hnfull hms1 hms2 hlo hhi hidxlt hgein hltout]
          rw [← hmapeq]
          exact PageRep_node hnode
        rcases bp__page_insert_finish_rep isRoot (P := { page with
              keys := setChildRef page.keys idx child'.offset child'.config })
            hps4 hev hbig hshape1
            (Or.inr (by rw [setChildRef_length]; omega))
            (by rw [setChildRef_length]; omega) hrep1
            with ⟨d2, P', heqf, hextf, hcondf⟩ | ⟨hroot, hfull1, heqsp⟩
        · refine Or.inl ⟨d2, P', hueq.trans heqf,
            Extends.trans hextc hextf, ?_⟩
          intro hcap
          have hsv := hcondf hcap
          cases isRoot with
          | true =>
            exact SavedAt_if_root hsv
          | false =>
            have hnf := finish_nonroot_ok_not_full heqf
            rw [if_neg hnf] at hsv
            exact hsv
        · rw [setChildRef_length] at hfull1
          omega
      · -- the child filled up: split it into this page
        obtain ⟨d2, P, hspliteq, hextsp, htyP, hlenP, hshP⟩ :=
          bp__page_split_run hps4 hev hfullc bp__default_compare_cb page idx
            hidxlt hshape (d := d1)
        have hueq : bp__page_insert ⟨ps, bp__default_compare_cb⟩ (fuel + 1)
            isRoot d page kv =
            bp__page_insert_finish ⟨ps, bp__default_compare_cb⟩ isRoot d2 P := by
          simp only [bp__page_insert, hsearch, heqc, hspliteq]
        have hrepP : d2.length < 2 ^ 64 →
            PageRep ps (h' + 1) d2 P
              (kmInsert kv.value (kv.offset, kv.config) m) := by
          intro hcap2
          have hcap1 : d1.length < 2 ^ 64 :=
            lt_of_le_of_lt (Extends.length_le hextsp) hcap2
          have hrepc'' := hcondc hcap1
          have hwfc'' := PageRep_wf hrepc''
          obtain ⟨d2', lo, lc, ro, rc, m_l, m_r, hsplit', hext2', hmc'', hlne,
            hrne, hbl, hbr, hlole, hlclt, hrole, hrclt, hloadL, hloadR⟩ :=
            bp__page_split_rep hps4 hev hrepc'' hfullc bp__default_compare_cb
              page idx
          rw [hspliteq] at hsplit'
          have hd2 : d2 = d2' := congrArg Prod.fst hsplit'
          subst hd2
          have hPlit := Except.ok.inj (congrArg Prod.snd hsplit')
          have hentry := hwfc'' (child''.keys.getD (ps / 2) default) (by
            rw [List.getD_eq_getElem _ _
              (by omega : ps / 2 < child''.keys.length)]
            exact List.getElem_mem _)
          have hnode : NodeRep ps
              (fun cc mm => cc.keys.length < ps ∧ PageRep ps h' d2 cc mm) d2
              { page with
                  keys := setChildRef (page.keys.insertIdx (idx + 1)
                    { bp__kv_copy_alloc (child''.keys.getD (ps / 2) default) with
                        offset := ro, config := rc }) idx lo lc,
                  byte_size := page.byte_size + BP__KV_SIZE
                    { bp__kv_copy_alloc (child''.keys.getD (ps / 2) default) with
                        offset := ro, config := rc } }
              ((ms.take idx).flatten ++ (m_l ++ m_r) ++
                (ms.drop (idx + 1)).flatten) := by
            refine NodeRep_split_patch ms htype hshape hwf hidxlt hms1
              (fun j hj hne => hch j hj)
              (fun j h1 hj hne x hx => hlo j h1 hj x hx)
              (fun j hj hne => hhi j hj)
              (Extends.trans hextc hextsp)
              (fun cc mm hc =>
                ⟨hc.1, PageRep_mono_disk (Extends.trans hextc hextsp) hc.2⟩)
              ?_ ?_ ?_ ?_ ?_ ?_ ?_ ?_ hlclt
            · refine ⟨?_, hlne⟩
              obtain ⟨cc, hloadcc, hlencc, hrepcc⟩ := hloadL d2 (Extends.refl d2)
              exact ⟨cc, hloadcc, hlencc, hrepcc⟩
            · refine ⟨?_, hrne⟩
              obtain ⟨cc, hloadcc, hlencc, hrepcc⟩ := hloadR d2 (Extends.refl d2)
              exact ⟨cc, hloadcc, hlencc, hrepcc⟩
            · intro x hx
              exact hbl x hx
            · intro x hx
              exact hbr x hx
            · intro h1 x hx
              rw [← hmc''] at hx
              rcases kmInsert_mem hx with hx' | rfl
              · exact hlo idx h1 hidxlt x hx'
              · exact hgein h1
            · intro hnext x hx
              rw [← hmc''] at hx
              rcases kmInsert_mem hx with hx' | rfl
              · exact (hhi idx hnext).1 x hx'
              · exact hltout hnext
            · exact ⟨hentry.1, hentry.2.1, show ro < 2 ^ 64 by omega, hrclt⟩
            · show lo < 2 ^ 64
              omega
          have hmapeq : ((ms.take idx).flatten ++ (m_l ++ m_r) ++
              (ms.drop (idx + 1)).flatten) =
              kmInsert kv.value (kv.offset, kv.config) m := by
            rw [← hmc'']
            rw [seg_kmInsert hnfull hms1 hms2 hlo hhi hidxlt hgein hltout]
          rw [hPlit, ← hmapeq]
          exact PageRep_node hnode
        rcases bp__page_insert_finish_rep isRoot hps4 hev hbig hshP
            (Or.inr (by rw [hlenP]; omega))
            (by rw [hlenP]; omega) hrepP
            with ⟨d3, P', heqf, hextf, hcondf⟩ | ⟨hroot, hfullP, heqsp⟩
        · refine Or.inl ⟨d3, P', hueq.trans heqf,
            Extends.trans (Extends.trans hextc hextsp) hextf, ?_⟩
          intro hcap
          have hsv := hcondf hcap
          cases isRoot with
          | true =>
            exact SavedAt_if_root hsv
          | false =>
            have hnf := finish_nonroot_ok_not_full heqf
            rw [if_neg hnf] at hsv
            exact hsv
        · refine Or.inr ⟨hroot, d2, P, hueq.trans heqsp,
            Extends.trans hextc hextsp, hfullP, hrepP⟩

/-- Lookup of a key the scan routed to segment `idx` only sees that
segment. -/
theorem seg_kmFind {ps : Nat} {rec : BpPage → KMap → Prop} {d : Disk}
    {p : BpPage} {m : KMap} (hn : NodeRep ps rec d p m)
    {ms : List KMap} {idx : Nat} {k : Key}
    (hms1 : ms.length = p.keys.length) (hms2 : m = ms.flatten)
    (hlo : ∀ i, 1 ≤ i → i < p.keys.length →
      ∀ x ∈ ms.getD i [], ¬ klt x.1 (p.keys.getD i default).value)
    (hhi : ∀ i, i + 1 < p.keys.length →
      (∀ x ∈ ms.getD i [], klt x.1 (p.keys.getD (i + 1) default).value) ∧
      (1 ≤ i → klt (p.keys.getD i default).value
        (p.keys.getD (i + 1) default).value))
    (hidx : idx < p.keys.length)
    (hgein : 1 ≤ idx → ¬ klt k (p.keys.getD idx default).value)
    (hltout : idx + 1 < p.keys.length →
      klt k (p.keys.getD (idx + 1) default).value) :
    kmFind k m = kmFind k (ms.getD idx []) := by
  have hA : ∀ x ∈ (ms.take idx).flatten, x.1 ≠ k := by
    intro x hx
    obtain ⟨j, hjlt, hjms, hxj⟩ := mem_take_flatten hx
    have h1le : 1 ≤ idx := by omega
    have hup : klt x.1 (p.keys.getD (j + 1) default).value :=
      (hhi j (by omega)).1 x hxj
    have hmono : kle (p.keys.getD (j + 1) default).value
        (p.keys.getD idx default).value :=
      NodeRep_entry_mono hn (j + 1) idx (by omega) (by omega) (by omega)
    exact klt_ne (klt_kle_trans (klt_kle_trans hup hmono)
      (kle_of_not_klt (hgein h1le)))
  have hC : ∀ x ∈ (ms.drop (idx + 1)).flatten, x.1 ≠ k := by
    intro x hx
    obtain ⟨j, hjge, hjms, hxj⟩ := mem_drop_flatten hx
    have hnext : idx + 1 < p.keys.length := by omega
    have hmono : kle (p.keys.getD (idx + 1) default).value
        (p.keys.getD j default).value :=
      NodeRep_entry_mono hn (idx + 1) j (by omega) (by omega) (by omega)
    have hlow : kle (p.keys.getD j default).value x.1 :=
      kle_of_not_klt (hlo j (by omega) (by omega) x hxj)
    exact fun hc =>
      klt_ne (klt_kle_trans (klt_kle_trans (hltout hnext) hmono) hlow) hc.symm
  have hm' : m = (ms.take idx).flatten ++
      (ms.getD idx [] ++ (ms.drop (idx + 1)).flatten) := by
    rw [hms2]
    exact flatten_segment (by omega)
  rw [hm', kmFind_append_left hA]
  cases hfind : kmFind k (ms.getD idx []) with
  | some v => exact kmFind_append_right hfind
  | none =>
    rw [kmFind_eq_none]
    intro x hx
    rcases List.mem_append.mp hx with hx' | hx'
    · exact (kmFind_eq_none.mp hfind) x hx'
    · exact hC x hx'

/-- Erasing a key the scan routed to segment `idx` touches only that
segment. -/
theorem seg_kmErase {ps : Nat} {rec : BpPage → KMap → Prop} {d : Disk}
    {p : BpPage} {m : KMap} (hn : NodeRep ps rec d p m)
    {ms : List KMap} {idx : Nat} {k : Key}
    (hms1 : ms.length = p.keys.length) (hms2 : m = ms.flatten)
    (hlo : ∀ i, 1 ≤ i → i < p.keys.length →
      ∀ x ∈ ms.getD i [], ¬ klt x.1 (p.keys.getD i default).value)
    (hhi : ∀ i, i + 1 < p.keys.length →
      (∀ x ∈ ms.getD i [], klt x.1 (p.keys.getD (i + 1) default).value) ∧
      (1 ≤ i → klt (p.keys.getD i default).value
        (p.keys.getD (i + 1) default).value))
    (hidx : idx < p.keys.length)
    (hgein : 1 ≤ idx → ¬ klt k (p.keys.getD idx default).value)
    (hltout : idx + 1 < p.keys.length →
      klt k (p.keys.getD (idx + 1) default).value) :
    kmErase k m =
      (ms.take idx).flatten ++ kmErase k (ms.getD idx []) ++
        (ms.drop (idx + 1)).flatten := by
  have hA : ∀ x ∈ (ms.take idx).flatten, x.1 ≠ k := by
    intro x hx
    obtain ⟨j, hjlt, hjms, hxj⟩ := mem_take_flatten hx
    have h1le : 1 ≤ idx := by omega
    have hup : klt x.1 (p.keys.getD (j + 1) default).value :=
      (hhi j (by omega)).1 x hxj
    have hmono : kle (p.keys.getD (j + 1) default).value
        (p.keys.getD idx default).value :=
      NodeRep_entry_mono hn (j + 1) idx (by omega) (by omega) (by omega)
    exact klt_ne (klt_kle_trans (klt_kle_trans hup hmono)
      (kle_of_not_klt (hgein h1le)))
  have hC : ∀ x ∈ (ms.drop (idx + 1)).flatten, x.1 ≠ k := by
    intro x hx
    obtain ⟨j, hjge, hjms, hxj⟩ := mem_drop_flatten hx
    have hnext : idx + 1 < p.keys.length := by omega
    have hmono : kle (p.keys.getD (idx + 1) default).value
        (p.keys.getD j default).value :=
      NodeRep_entry_mono hn (idx + 1) j (by omega) (by omega) (by omega)
    have hlow : kle (p.keys.getD j default).value x.1 :=
      kle_of_not_klt (hlo j (by omega) (by omega) x hxj)
    exact fun hc =>
      klt_ne (klt_kle_trans (klt_kle_trans (hltout hnext) hmono) hlow) hc.symm
  have hm' : m = (ms.take idx).flatten ++
      (ms.getD idx [] ++ (ms.drop (idx + 1)).flatten) := by
    rw [hms2]
    exact flatten_segment (by omega)
  rw [hm', kmErase_append_left hA, kmErase_append_right hC,
    List.append_assoc]

/-- `bp__page_get` refines `kmFind`: on a represented page it fails with
`ENOTFOUND` exactly on absent keys, and on present keys dereferences the
stored `(offset, config)` pair. -/
theorem bp__page_get_rep :
    ∀ (fuel : Nat) {ps h : Nat} {d : Disk} {page : BpPage} {m : KMap}
      (kv : BpKV),
      PageRep ps h d page m → h < fuel →
      (kmFind kv.value m = none →
        bp__page_get ⟨ps, bp__default_compare_cb⟩ fuel d page kv =
          .error .ENOTFOUND) ∧
      (∀ o cfgv, kmFind kv.value m = some (o, cfgv) →
        bp__page_get ⟨ps, bp__default_compare_cb⟩ fuel d page kv =
          (match bp__writer_read .kCompressed o cfgv d with
           | .error e => .error e
           | .ok (data, size') => .ok ⟨size', data⟩)) := by
  intro fuel
  induction fuel with
  | zero =>
    intro ps h d page m kv _ hfuel
    omega
  | succ fuel ih =>
    intro ps h d page m kv hrep hfuel
    have hcase : LeafRep ps page m ∨ ∃ h', h = h' + 1 ∧ NodeRep ps
        (fun c mm => c.keys.length < ps ∧ PageRep ps h' d c mm) d page m := by
      cases h with
      | zero => exact Or.inl hrep
      | succ h' =>
        rcases hrep with hl | hnn
        · exact Or.inl hl
        · exact Or.inr ⟨h', rfl, hnn⟩
    rcases hcase with hl | ⟨h', rfl, hn⟩
    · -- leaf
      obtain ⟨htype, hshape, hwf, hm, hsort⟩ := hl
      obtain ⟨i, c, hsearch, hile, hbelow, hcase2⟩ :=
        bp__page_search_leaf_run ps d page kv htype
      rcases hcase2 with ⟨hc0, hilt, heqv⟩ | ⟨hcne, hstop⟩
      · -- hit
        have hfind : kmFind kv.value m =
            some ((page.keys.getD i default).offset,
              (page.keys.getD i default).config) := by
          rw [hm]
          exact leaf_find_hit hilt hbelow heqv
        constructor
        · intro hnone
          rw [hfind] at hnone
          exact Option.noConfusion hnone
        · intro o cfgv hsome
          rw [hfind] at hsome
          have hov := Option.some.inj hsome
          have ho : (page.keys.getD i default).offset = o :=
            congrArg Prod.fst hov
          have hcfg : (page.keys.getD i default).config = cfgv :=
            congrArg Prod.snd hov
          simp only [bp__page_get, hsearch, if_neg (by
            show ¬ ¬ (c = 0)
            exact not_not_intro hc0), ho, hcfg]
      · -- miss
        have hfind : kmFind kv.value m = none := by
          rw [hm]
          exact leaf_find_none hsort hile hbelow hstop
        constructor
        · intro _
          simp only [bp__page_get, hsearch, if_pos hcne]
        · intro o cfgv hsome
          rw [hfind] at hsome
          exact Option.noConfusion hsome
    · -- internal: descend
      obtain ⟨htype, hshape, hwf, hlen2, ms, hms1, hms2, hch, hlo, hhi⟩ := hn
      have hnfull : NodeRep ps
          (fun c mm => c.keys.length < ps ∧ PageRep ps h' d c mm) d page m :=
        ⟨htype, hshape, hwf, hlen2, ms, hms1, hms2, hch, hlo, hhi⟩
      obtain ⟨idx, cv, child, hsearch, hloadeq, hidxlt, hgein, hltout⟩ :=
        bp__page_search_node_run ps d page kv htype hlen2
          (fun i h1 h2 => (hhi i h2).2 h1)
          (fun i hi => ((hch i hi).1).imp (fun c hc => hc.1))
      obtain ⟨⟨c0, hload0, hrec0⟩, hsegne⟩ := hch idx hidxlt
      have hceq : c0 = child := by
        rw [hload0] at hloadeq
        exact Except.ok.inj hloadeq
      subst hceq
      have hfind : kmFind kv.value m = kmFind kv.value (ms.getD idx []) :=
        seg_kmFind hnfull hms1 hms2 hlo hhi hidxlt hgein hltout
      have hih := ih kv hrec0.2 (show h' < fuel by omega)
      constructor
      · intro hnone
        rw [hfind] at hnone
        simp only [bp__page_get, hsearch]
        exact hih.1 hnone
      · intro o cfgv hsome
        rw [hfind] at hsome
        simp only [bp__page_get, hsearch]
        exact hih.2 o cfgv hsome

/-! ### Remove -/

theorem getD_eraseIdx_lt_km {l : List KMap} {n k : Nat} (hk : k < n) :
    (l.eraseIdx n).getD k [] = l.getD k [] := by
  by_cases hk' : k < (l.eraseIdx n).length
  · rw [List.getD_eq_getElem _ _ hk']
    rw [List.getD_eq_getElem _ _ (by
      have := l.length_eraseIdx n
      by_cases hn : n < l.length <;> simp [hn] at this <;> omega)]
    exact List.getElem_eraseIdx_of_lt l n k hk' hk
  · have hlen := l.length_eraseIdx n
    rw [List.getD_eq_default _ _ (by omega)]
    rw [List.getD_eq_default _ _ (by
      by_cases hn : n < l.length <;> simp [hn] at hlen <;> omega)]

theorem getD_eraseIdx_ge_km {l : List KMap} {n k : Nat} (hn : n < l.length)
    (hk : n ≤ k) (hkl : k + 1 < l.length) :
    (l.eraseIdx n).getD k [] = l.getD (k + 1) [] := by
  have hlen := l.length_eraseIdx n
  rw [if_pos hn] at hlen
  have hk' : k < (l.eraseIdx n).length := by omega
  rw [List.getD_eq_getElem _ _ hk', List.getD_eq_getElem _ _ hkl]
  exact List.getElem_eraseIdx_of_ge l n k hk' hk

theorem flatten_drop_getD {ms : List KMap} {j : Nat} (hj : j < ms.length) :
    (ms.drop j).flatten = ms.getD j [] ++ (ms.drop (j + 1)).flatten := by
  rw [List.drop_eq_getElem_cons hj]
  rw [List.getD_eq_getElem _ _ hj]
  rfl

/-- `bp__page_load` only reads the base page's `offset` and `config`, and
overwrites every other field. -/
theorem bp__page_load_eta {d : Disk} {p q : BpPage}
    (ho : p.offset = q.offset) (hc : p.config = q.config) :
    bp__page_load d p = bp__page_load d q := by
  obtain ⟨pt, pk, pb, po, pc⟩ := p
  obtain ⟨qt, qk, qb, qo, qc⟩ := q
  simp only at ho hc
  subst ho
  subst hc
  simp [bp__page_load]

theorem bp__page_remove_save_eq {d : Disk} {p : BpPage} {d' : Disk}
    {p' : BpPage} (hsave : bp__page_save d p = .ok (d', p')) :
    bp__page_remove_save d p = .ok d' p' := by
  simp only [bp__page_remove_save, hsave]

/-- Removing one child entry of a represented internal page that keeps at
least two entries. -/
theorem NodeRep_erase {ps : Nat} (rec : BpPage → KMap → Prop) {d : Disk}
    {page : BpPage} {ms : List KMap} {idx : Nat}
    (htype : page.type = .kPage) (hshape : PageShape page)
    (hwf : WfKVs ps page.keys) (hlen3 : 3 ≤ page.keys.length)
    (hidx : idx < page.keys.length)
    (hms1 : ms.length = page.keys.length)
    (hch : ∀ i, i < page.keys.length →
      ChildAt rec d (page.keys.getD i default) (ms.getD i []))
    (hlo : ∀ i, 1 ≤ i → i < page.keys.length →
      ∀ x ∈ ms.getD i [], ¬ klt x.1 (page.keys.getD i default).value)
    (hhi : ∀ i, i + 1 < page.keys.length →
      (∀ x ∈ ms.getD i [], klt x.1 (page.keys.getD (i + 1) default).value) ∧
      (1 ≤ i → klt (page.keys.getD i default).value
        (page.keys.getD (i + 1) default).value)) :
    NodeRep ps rec d (bp__page_remove_idx page idx)
      ((ms.eraseIdx idx).flatten) := by
  show NodeRep ps rec d
    { page with
        byte_size := page.byte_size -
          BP__KV_SIZE (page.keys.getD idx default),
        keys := page.keys.eraseIdx idx }
    ((ms.eraseIdx idx).flatten)
  have hn : NodeRep ps rec d page ms.flatten :=
    ⟨htype, hshape, hwf, by omega, ms, hms1, rfl, hch, hlo, hhi⟩
  have hlenE : (page.keys.eraseIdx idx).length = page.keys.length - 1 := by
    rw [List.length_eraseIdx, if_pos hidx]
  have hlenEm : (ms.eraseIdx idx).length = ms.length - 1 := by
    rw [List.length_eraseIdx, if_pos (by omega)]
  refine ⟨htype, ?_, ?_, ?_, ms.eraseIdx idx, ?_, rfl, ?_, ?_, ?_⟩
  · show page.byte_size - BP__KV_SIZE (page.keys.getD idx default) =
      sumKVSize (page.keys.eraseIdx idx)
    have hsum := sumKVSize_eraseIdx (l := page.keys) hidx
    rw [hshape]
    omega
  · intro y hy
    exact hwf y ((List.eraseIdx_sublist _ _).subset hy)
  · show 2 ≤ (page.keys.eraseIdx idx).length
    omega
  · rw [hlenE, hlenEm]
    omega
  · intro i hi
    rw [hlenE] at hi
    by_cases hii : i < idx
    · rw [getD_eraseIdx_lt hii, getD_eraseIdx_lt_km hii]
      exact hch i (by omega)
    · rw [getD_eraseIdx_ge hidx (by omega) (by omega),
        getD_eraseIdx_ge_km (by omega) (by omega) (by omega)]
      exact hch (i + 1) (by omega)
  · intro i h1 hi x hx
    rw [hlenE] at hi
    by_cases hii : i < idx
    · rw [getD_eraseIdx_lt hii]
      rw [getD_eraseIdx_lt_km hii] at hx
      exact hlo i h1 (by omega) x hx
    · rw [getD_eraseIdx_ge hidx (by omega) (by omega)]
      rw [getD_eraseIdx_ge_km (by omega) (by omega) (by omega)] at hx
      exact hlo (i + 1) (by omega) (by omega) x hx
  · intro i hi
    rw [hlenE] at hi
    by_cases hc1 : i + 1 < idx
    · rw [getD_eraseIdx_lt (by omega), getD_eraseIdx_lt (by omega)]
      rw [getD_eraseIdx_lt_km (by omega)]
      exact hhi i (by omega)
    · by_cases hc2 : i + 1 = idx
      · rw [getD_eraseIdx_lt (show i < idx by omega),
          getD_eraseIdx_ge hidx (show idx ≤ i + 1 by omega)
            (show i + 1 + 1 < page.keys.length by omega)]
        rw [getD_eraseIdx_lt_km (show i < idx by omega)]
        have hmono : kle (page.keys.getD idx default).value
            (page.keys.getD (i + 1 + 1) default).value := by
          rw [show i + 1 + 1 = idx + 1 from by omega]
          exact NodeRep_entry_mono hn idx (idx + 1) (by omega) (by omega)
            (by omega)
        have hold := hhi i (by omega)
        refine ⟨?_, ?_⟩
        · intro x hx
          have hx1 := hold.1 x hx
          rw [hc2] at hx1
          exact klt_kle_trans hx1 hmono
        · intro hge1
          have hx2 := hold.2 hge1
          rw [hc2] at hx2
          exact klt_kle_trans hx2 hmono
      · rw [getD_eraseIdx_ge hidx (show idx ≤ i by omega)
            (show i + 1 < page.keys.length by omega),
          getD_eraseIdx_ge hidx (show idx ≤ i + 1 by omega)
            (show i + 1 + 1 < page.keys.length by omega)]
        rw [getD_eraseIdx_ge_km (show idx < ms.length by omega)
          (show idx ≤ i by omega) (show i + 1 < ms.length by omega)]
        have hold := hhi (i + 1) (by omega)
        exact ⟨fun x hx => hold.1 x hx, fun _ => hold.2 (by omega)⟩

theorem around_ne_nil {ms : List KMap} {idx : Nat} (E : KMap)
    (hlen2 : 2 ≤ ms.length) (hidx : idx < ms.length)
    (hne : ∀ i, i < ms.length → ms.getD i [] ≠ []) :
    (ms.take idx).flatten ++ E ++ (ms.drop (idx + 1)).flatten ≠ [] := by
  rcases Nat.eq_zero_or_pos idx with h0 | hpos
  · subst h0
    obtain ⟨x, hx⟩ := List.exists_mem_of_ne_nil _ (hne 1 (by omega))
    apply List.ne_nil_of_mem (a := x)
    apply List.mem_append_right
    rw [flatten_drop_getD (by omega)]
    exact List.mem_append_left _ hx
  · obtain ⟨x, hx⟩ := List.exists_mem_of_ne_nil _ (hne 0 (by omega))
    apply List.ne_nil_of_mem (a := x)
    apply List.mem_append_left
    apply List.mem_append_left
    exact mem_flatten_of_mem_getD (ms.take idx) (i := 0) (by
      rw [List.length_take]
      omega) (by rw [getD_take_km hpos]; exact hx)

/-- `bp__page_remove` refines `kmErase`: `ENOTFOUND` exactly on absent keys
with the file untouched; otherwise the page is saved with the binding
erased, or — empty and non-root — handed back unsaved with the file
untouched. -/
theorem bp__page_remove_rep :
    ∀ (fuel : Nat) {ps h : Nat} (isRoot : Bool) {d : Disk} {page : BpPage}
      {m : KMap} (kv : BpKV),
      1 ≤ ps →
      PageRep ps h d page m → page.keys.length < ps → h < fuel →
      (∃ d' page',
        bp__page_remove ⟨ps, bp__default_compare_cb⟩ fuel isRoot d page kv =
          .ok d' page' ∧ Extends d d' ∧ kmFind kv.value m ≠ none ∧
        (isRoot = false → kmErase kv.value m ≠ []) ∧
        (d'.length < 2 ^ 64 →
          SavedAt ps h d' page' (kmErase kv.value m))) ∨
      (isRoot = false ∧ ∃ page',
        bp__page_remove ⟨ps, bp__default_compare_cb⟩ fuel isRoot d page kv =
          .emptypage d page' ∧ kmFind kv.value m ≠ none ∧
        kmErase kv.value m = []) ∨
      (bp__page_remove ⟨ps, bp__default_compare_cb⟩ fuel isRoot d page kv =
          .err d .ENOTFOUND ∧ kmFind kv.value m = none) := by
  intro fuel
  induction fuel with
  | zero =>
    intro ps h isRoot d page m kv _ _ _ hfuel
    omega
  | succ fuel ih =>
    intro ps h isRoot d page m kv hps hrep hlen hfuel
    have hcase : LeafRep ps page m ∨ ∃ h', h = h' + 1 ∧ NodeRep ps
        (fun c mm => c.keys.length < ps ∧ PageRep ps h' d c mm) d page m := by
      cases h with
      | zero => exact Or.inl hrep
      | succ h' =>
        rcases hrep with hl | hnn
        · exact Or.inl hl
        · exact Or.inr ⟨h', rfl, hnn⟩
    rcases hcase with hl | ⟨h', rfl, hn⟩
    · -- leaf page
      obtain ⟨htype, hshape, hwf, hm, hsort⟩ := hl
      obtain ⟨i, c, hsearch, hile, hbelow, hcase2⟩ :=
        bp__page_search_leaf_run ps d page kv htype
      rcases hcase2 with ⟨hc0, hilt, heqv⟩ | ⟨hcne, hstop⟩
      · -- hit: erase the entry
        have hfind : kmFind kv.value m ≠ none := by
          rw [hm, leaf_find_hit hilt hbelow heqv]
          exact Option.noConfusion
        have heraseL : (page.keys.eraseIdx i).map kvEntry =
            kmErase kv.value m := by
          rw [hm]
          exact leaf_eraseIdx_eq hilt hbelow heqv
        have hlenE : (page.keys.eraseIdx i).length = page.keys.length - 1 := by
          rw [List.length_eraseIdx, if_pos hilt]
        have hsum := sumKVSize_eraseIdx (l := page.keys) hilt
        have hrep1 : PageRep ps h d (bp__page_remove_idx page i)
            (kmErase kv.value m) := by
          refine PageRep_leaf ⟨htype, ?_, ?_, heraseL.symm, ?_⟩
          · show page.byte_size - BP__KV_SIZE (page.keys.getD i default) =
              sumKVSize (page.keys.eraseIdx i)
            rw [hshape]
            omega
          · intro y hy
            exact hwf y ((List.eraseIdx_sublist _ _).subset hy)
          · exact hsort.sublist (List.eraseIdx_sublist _ _)
        by_cases hcond : (bp__page_remove_idx page i).keys.length = 0 ∧
            isRoot = false
        · -- the page emptied below the root
          have hueq : bp__page_remove ⟨ps, bp__default_compare_cb⟩ (fuel + 1)
              isRoot d page kv = .emptypage d (bp__page_remove_idx page i) := by
            simp only [bp__page_remove, hsearch,
              if_neg (not_not_intro hc0), if_pos hcond]
          refine Or.inr (Or.inl ⟨hcond.2, _, hueq, hfind, ?_⟩)
          have hnil : page.keys.eraseIdx i = [] := by
            apply List.eq_nil_of_length_eq_zero
            exact hcond.1
          rw [← heraseL, hnil]
          rfl
        · -- still nonempty (or the root): save
          obtain ⟨d', p', hsave⟩ : ∃ d' p',
              bp__page_save d (bp__page_remove_idx page i) = .ok (d', p') :=
            ⟨_, _, bp__page_save_eq _ _ (Or.inl htype) (by
              show sumKVSize (page.keys.eraseIdx i) =
                page.byte_size - BP__KV_SIZE (page.keys.getD i default)
              rw [hshape]
              omega)⟩
          have hueq : bp__page_remove ⟨ps, bp__default_compare_cb⟩ (fuel + 1)
              isRoot d page kv = .ok d' p' := by
            simp only [bp__page_remove, hsearch,
              if_neg (not_not_intro hc0), if_neg hcond,
              bp__page_remove_save, hsave]
          refine Or.inl ⟨d', p', hueq, bp__page_save_extends hsave, hfind,
            ?_, ?_⟩
          · intro hroot
            have hne0 : (page.keys.eraseIdx i).length ≠ 0 := by
              intro h0
              exact hcond ⟨h0, hroot⟩
            intro hnil
            apply hne0
            have : (page.keys.eraseIdx i).map kvEntry = [] := by
              rw [heraseL, hnil]
            have hlm := congrArg List.length this
            rw [List.length_map] at hlm
            exact hlm
          · intro hcap
            exact (bp__page_save_SavedAt hrep1 (by
              show (page.keys.eraseIdx i).length < ps
              omega) hps hsave).1
      · -- miss
        have hfind : kmFind kv.value m = none := by
          rw [hm]
          exact leaf_find_none hsort hile hbelow hstop
        refine Or.inr (Or.inr ⟨?_, hfind⟩)
        simp only [bp__page_remove, hsearch, if_pos hcne]
    · -- internal page
      obtain ⟨htype, hshape, hwf, hlen2, ms, hms1, hms2, hch, hlo, hhi⟩ := hn
      have hnfull : NodeRep ps
          (fun c mm => c.keys.length < ps ∧ PageRep ps h' d c mm) d page m :=
        ⟨htype, hshape, hwf, hlen2, ms, hms1, hms2, hch, hlo, hhi⟩
      obtain ⟨idx, cv, child, hsearch, hloadeq, hidxlt, hgein, hltout⟩ :=
        bp__page_search_node_run ps d page kv htype hlen2
          (fun i h1 h2 => (hhi i h2).2 h1)
          (fun i hi => ((hch i hi).1).imp (fun c hc => hc.1))
      obtain ⟨⟨c0, hload0, hrec0⟩, hsegne⟩ := hch idx hidxlt
      have hceq : c0 = child := by
        rw [hload0] at hloadeq
        exact Except.ok.inj hloadeq
      subst hceq
      have hfindeq : kmFind kv.value m = kmFind kv.value (ms.getD idx []) :=
        seg_kmFind hnfull hms1 hms2 hlo hhi hidxlt hgein hltout
      have heraseeq : kmErase kv.value m =
          (ms.take idx).flatten ++ kmErase kv.value (ms.getD idx []) ++
            (ms.drop (idx + 1)).flatten :=
        seg_kmErase hnfull hms1 hms2 hlo hhi hidxlt hgein hltout
      rcases ih false kv hps hrec0.2 hrec0.1
          (show h' < fuel by omega)
          with ⟨d1, child', heqc, hextc, hfindc, hnec, hcond⟩ |
            ⟨-, child'', heqc, hfindc, hemptyc⟩ | ⟨heqc, hfindc⟩
      · -- child saved: patch the reference
        have hueq : bp__page_remove ⟨ps, bp__default_compare_cb⟩ (fuel + 1)
            isRoot d page kv =
            bp__page_remove_save d1
              { page with
                  keys := setChildRef page.keys idx child'.offset
                    child'.config } := by
          simp only [bp__page_remove, hsearch, heqc]
        obtain ⟨d2, p2, hsave⟩ : ∃ d2 p2,
            bp__page_save d1
              { page with
                  keys := setChildRef page.keys idx child'.offset
                    child'.config } = .ok (d2, p2) :=
          ⟨_, _, bp__page_save_eq _ _ (Or.inr (by
              show (setChildRef page.keys idx child'.offset
                child'.config).length ≠ 0
              rw [setChildRef_length]
              omega)) (by
              show sumKVSize (setChildRef page.keys idx child'.offset
                child'.config) = page.byte_size
              rw [sumKVSize_setChildRef]
              exact hshape.symm)⟩
        have hrep1 : d1.length < 2 ^ 64 →
            PageRep ps (h' + 1) d1
              { page with
                  keys := setChildRef page.keys idx child'.offset
                    child'.config }
              (kmErase kv.value m) := by
          intro hcap1
          obtain ⟨hoff', hcfg', hclen', hrepc', hload'⟩ := hcond hcap1
          have hnew : ChildAt
              (fun cc mm => cc.keys.length < ps ∧ PageRep ps h' d1 cc mm) d1
              { page.keys.getD idx default with
                  offset := child'.offset, config := child'.config }
              (kmErase kv.value (ms.getD idx [])) := by
            refine ⟨?_, hnec rfl⟩
            obtain ⟨cc, hloadcc, hlencc, hrepcc⟩ := hload' d1 (Extends.refl d1)
            exact ⟨cc, hloadcc, hlencc, hrepcc⟩
          have hnode := NodeRep_patch htype hshape hwf hlen2 hms1 hch hlo hhi
            hextc (fun cc mm hc => ⟨hc.1, PageRep_mono_disk hextc hc.2⟩)
            hidxlt hnew
            (fun h1 x hx => hlo idx h1 hidxlt x (kmErase_mem hx))
            (fun hnext x hx => (hhi idx hnext).1 x (kmErase_mem hx))
            (by omega) hcfg'
          have hmapeq : ((ms.set idx (kmErase kv.value
              (ms.getD idx []))).flatten) = kmErase kv.value m := by
            rw [flatten_set_km (by omega), ← heraseeq]
          rw [← hmapeq]
          exact PageRep_node hnode
        have hueq2 : bp__page_remove ⟨ps, bp__default_compare_cb⟩ (fuel + 1)
            isRoot d page kv = .ok d2 p2 :=
          hueq.trans (bp__page_remove_save_eq hsave)
        refine Or.inl ⟨d2, p2, hueq2,
          Extends.trans hextc (bp__page_save_extends hsave), ?_, ?_, ?_⟩
        · rw [hfindeq]
          exact hfindc
        · intro _
          rw [heraseeq]
          exact around_ne_nil _ (by omega) (by omega)
            (fun j hj => (hch j (by omega)).2)
        · intro hcap
          have hcap1 : d1.length < 2 ^ 64 :=
            lt_of_le_of_lt (Extends.length_le (bp__page_save_extends hsave))
              hcap
          exact (bp__page_save_SavedAt (hrep1 hcap1) (by
            show (setChildRef page.keys idx child'.offset
              child'.config).length < ps
            rw [setChildRef_length]
            omega) hps hsave).1
      · -- child emptied: drop its entry, maybe collapse
        have hfind : kmFind kv.value m ≠ none := by
          rw [hfindeq]
          exact hfindc
        have hlenE : (page.keys.eraseIdx idx).length =
            page.keys.length - 1 := by
          rw [List.length_eraseIdx, if_pos hidxlt]
        by_cases hone : (bp__page_remove_idx page idx).keys.length = 1
        · -- collapse: adopt the surviving child
          have hone' : (page.keys.eraseIdx idx).length = 1 := hone
          have hplen2 : page.keys.length = 2 := by omega
          have hms2' : ms.length = 2 := by omega
          obtain ⟨s0, s1, hmseq⟩ := List.length_eq_two.mp hms2'
          subst hmseq
          have hidx2 : idx = 0 ∨ idx = 1 := by omega
          -- the surviving entry and child
          rcases hidx2 with hidx0 | hidx1
          · -- survivor is entry 1
            subst hidx0
            have hE0 : (page.keys.eraseIdx 0).getD 0 default =
                page.keys.getD 1 default :=
              getD_eraseIdx_ge (by omega) (by omega) (by omega)
            obtain ⟨⟨c1, hload1, hrec1⟩, hsegne1⟩ := hch 1 (by omega)
            have hload3 : bp__page_load d
                (bp__page_remove_idx
                  { bp__page_remove_idx page 0 with
                      offset := ((bp__page_remove_idx page 0).keys.getD 0
                        default).offset,
                      config := ((bp__page_remove_idx page 0).keys.getD 0
                        default).config } 0) = .ok c1 := by
              rw [bp__page_load_eta
                (p := bp__page_remove_idx
                  { bp__page_remove_idx page 0 with
                      offset := ((bp__page_remove_idx page 0).keys.getD 0
                        default).offset,
                      config := ((bp__page_remove_idx page 0).keys.getD 0
                        default).config } 0)
                (q := bp__page_create .kPage
                (((bp__page_remove_idx page 0).keys.getD 0 default).offset)
                (((bp__page_remove_idx page 0).keys.getD 0 default).config))
                rfl rfl]
              show loadPageAt d
                ((page.keys.eraseIdx 0).getD 0 default).offset
                ((page.keys.eraseIdx 0).getD 0 default).config = .ok c1
              rw [hE0]
              exact hload1
            obtain ⟨d2, p2, hsave⟩ : ∃ d2 p2,
                bp__page_save d c1 = .ok (d2, p2) :=
              ⟨_, _, bp__page_save_eq _ _ (PageRep_save_pre hrec1.2)
                (PageRep_shape hrec1.2).symm⟩
            have hueq : bp__page_remove ⟨ps, bp__default_compare_cb⟩
                (fuel + 1) isRoot d page kv = .ok d2 p2 := by
              simp only [bp__page_remove, hsearch, heqc, if_pos hone,
                hload3, bp__page_remove_save, hsave]
            have hmape : kmErase kv.value m = s1 := by
              rw [heraseeq, hemptyc]
              simp
            refine Or.inl ⟨d2, p2, hueq, bp__page_save_extends hsave,
              hfind, ?_, ?_⟩
            · intro _
              rw [hmape]
              exact hsegne1
            · intro hcap
              rw [hmape]
              exact SavedAt_mono_height (by omega)
                (bp__page_save_SavedAt hrec1.2 hrec1.1 hps hsave).1
          · -- survivor is entry 0
            subst hidx1
            have hE0 : (page.keys.eraseIdx 1).getD 0 default =
                page.keys.getD 0 default :=
              getD_eraseIdx_lt (by omega)
            obtain ⟨⟨c1, hload1, hrec1⟩, hsegne1⟩ := hch 0 (by omega)
            have hload3 : bp__page_load d
                (bp__page_remove_idx
                  { bp__page_remove_idx page 1 with
                      offset := ((bp__page_remove_idx page 1).keys.getD 0
                        default).offset,
                      config := ((bp__page_remove_idx page 1).keys.getD 0
                        default).config } 0) = .ok c1 := by
              rw [bp__page_load_eta
                (p := bp__page_remove_idx
                  { bp__page_remove_idx page 1 with
                      offset := ((bp__page_remove_idx page 1).keys.getD 0
                        default).offset,
                      config := ((bp__page_remove_idx page 1).keys.getD 0
                        default).config } 0)
                (q := bp__page_create .kPage
                (((bp__page_remove_idx page 1).keys.getD 0 default).offset)
                (((bp__page_remove_idx page 1).keys.getD 0 default).config))
                rfl rfl]
              show loadPageAt d
                ((page.keys.eraseIdx 1).getD 0 default).offset
                ((page.keys.eraseIdx 1).getD 0 default).config = .ok c1
              rw [hE0]
              exact hload1
            obtain ⟨d2, p2, hsave⟩ : ∃ d2 p2,
                bp__page_save d c1 = .ok (d2, p2) :=
              ⟨_, _, bp__page_save_eq _ _ (PageRep_save_pre hrec1.2)
                (PageRep_shape hrec1.2).symm⟩
            have hueq : bp__page_remove ⟨ps, bp__default_compare_cb⟩
                (fuel + 1) isRoot d page kv = .ok d2 p2 := by
              simp only [bp__page_remove, hsearch, heqc, if_pos hone,
                hload3, bp__page_remove_save, hsave]
            have hmape : kmErase kv.value m = s0 := by
              rw [heraseeq, hemptyc]
              simp
            refine Or.inl ⟨d2, p2, hueq, bp__page_save_extends hsave,
              hfind, ?_, ?_⟩
            · intro _
              rw [hmape]
              exact hsegne1
            · intro hcap
              rw [hmape]
              exact SavedAt_mono_height (by omega)
                (bp__page_save_SavedAt hrec1.2 hrec1.1 hps hsave).1
        · -- at least two entries remain: just erase and save
          have hlen3 : 3 ≤ page.keys.length := by
            have h1 : (bp__page_remove_idx page idx).keys.length =
                page.keys.length - 1 := hlenE
            omega
          have hnode := NodeRep_erase (fun cc mm =>
              cc.keys.length < ps ∧ PageRep ps h' d cc mm)
            htype hshape hwf hlen3 hidxlt hms1 hch hlo hhi
          have hmapE : ((ms.eraseIdx idx).flatten) = kmErase kv.value m := by
            rw [List.eraseIdx_eq_take_drop_succ, List.flatten_append,
              heraseeq, hemptyc]
            simp
          have hrep1 : PageRep ps (h' + 1) d (bp__page_remove_idx page idx)
              (kmErase kv.value m) := by
            rw [← hmapE]
            exact PageRep_node hnode
          obtain ⟨d2, p2, hsave⟩ : ∃ d2 p2,
              bp__page_save d (bp__page_remove_idx page idx) = .ok (d2, p2) :=
            ⟨_, _, bp__page_save_eq _ _ (PageRep_save_pre hrep1)
              (PageRep_shape hrep1).symm⟩
          have hueq : bp__page_remove ⟨ps, bp__default_compare_cb⟩
              (fuel + 1) isRoot d page kv = .ok d2 p2 := by
            simp only [bp__page_remove, hsearch, heqc, if_neg hone,
              bp__page_remove_save, hsave]
          refine Or.inl ⟨d2, p2, hueq, bp__page_save_extends hsave,
            hfind, ?_, ?_⟩
          · intro _
            rw [heraseeq, hemptyc]
            exact around_ne_nil _ (by omega) (by omega)
              (fun j hj => (hch j (by omega)).2)
          · intro hcap
            exact (bp__page_save_SavedAt hrep1 (by
              show (page.keys.eraseIdx idx).length < ps
              omega) hps hsave).1
      · -- child reported the key absent
        refine Or.inr (Or.inr ⟨?_, by rw [hfindeq]; exact hfindc⟩)
        simp only [bp__page_remove, hsearch, heqc]

/-! ### The tree level -/

/-- A value blob of `v` stored at `(offset, size) = oc` in the file. -/
def ValAt (d : Disk) (oc : Nat × Nat) (v : List Nat) : Prop :=
  oc.2 = v.length ∧ oc.1 + v.length ≤ d.length ∧
    (d.drop oc.1).take v.length = v

theorem ValAt_mono {d d' : Disk} {oc : Nat × Nat} {v : List Nat}
    (hext : Extends d d') (hv : ValAt d oc v) : ValAt d' oc v := by
  obtain ⟨h1, h2, h3⟩ := hv
  obtain ⟨tail, rfl⟩ := hext
  refine ⟨h1, by rw [List.length_append]; omega, ?_⟩
  rw [List.drop_append_of_le_length (by omega),
    List.take_append_of_le_length (by rw [List.length_drop]; omega)]
  exact h3

/-- The blob just written by `bp__writer_write` reads back. -/
theorem bp__writer_write_ValAt (comp : CompType) (v : List Nat) (d : Disk) :
    ValAt (bp__writer_write comp v d).1
      ((bp__writer_write comp v d).2.1, v.length) v := by
  rw [bp__writer_write_eq]
  by_cases h : v.length = 0
  · have hnil : v = [] := List.eq_nil_of_length_eq_zero h
    subst hnil
    refine ⟨rfl, by simp, by simp⟩
  · rw [if_neg h]
    refine ⟨rfl, by rw [List.length_append], ?_⟩
    show ((padTo8 d ++ v).drop (padTo8 d).length).take v.length = v
    rw [List.drop_left, List.take_length]

theorem bp__writer_write_offset_le (comp : CompType) (v : List Nat)
    (d : Disk) :
    (bp__writer_write comp v d).2.1 ≤ (bp__writer_write comp v d).1.length := by
  rw [bp__writer_write_eq]
  by_cases h : v.length = 0
  · simp [h]
  · rw [if_neg h]
    show (padTo8 d).length ≤ (padTo8 d ++ v).length
    rw [List.length_append]
    omega

/-- Reading a stored blob back through `bp__writer_read`. -/
theorem bp__writer_read_ValAt {d : Disk} {o cfgv : Nat} {v : List Nat}
    (hd64 : d.length < 2 ^ 64) (hv : ValAt d (o, cfgv) v) :
    bp__writer_read .kCompressed o cfgv d =
      .ok (if v.length = 0 then none else some v, v.length) := by
  obtain ⟨h1, h2, h3⟩ := hv
  simp only at h1 h2 h3
  subst h1
  unfold bp__writer_read
  rw [Nat.mod_eq_of_lt (by omega)]
  rw [if_neg (by omega)]
  by_cases h : v.length = 0
  · rw [if_pos h, if_pos h]
  · rw [if_neg h, if_neg h, if_pos h2, h3]

/-- The tree-level invariant: the default comparator is installed, the
configuration is in range, the file is within `uint64_t` addressing, and
the in-memory root represents the tree's map at height bound `h`. -/
def TreeRep (t : BpTree) (h : Nat) (m : KMap) : Prop :=
  t.compare = bp__default_compare_cb ∧
  4 ≤ t.page_size ∧ t.page_size % 2 = 0 ∧
  t.d.length < 2 ^ 64 ∧
  t.head_page.keys.length < t.page_size ∧
  PageRep t.page_size h t.d t.head_page m

theorem BpTree_cfg_eq {t : BpTree} (hcmp : t.compare = bp__default_compare_cb) :
    t.cfg = ⟨t.page_size, bp__default_compare_cb⟩ := by
  show (⟨t.page_size, t.compare⟩ : BpCfg) = _
  rw [hcmp]

/-- A successful `set` with enough fuel: the head is rewritten over the
extended file, and — if the file stayed in range — the new state represents
the inserted map, with the value blob intact on disk. -/
theorem bp_set_run (fuel : Nat) {t : BpTree} {h : Nat} {m : KMap}
    {key value : List Nat}
    (hrep : TreeRep t h m)
    (hkey : (24 + key.length) * t.page_size < 2 ^ 63)
    (hval : value.length < 2 ^ 64)
    (hfuel : h < fuel) :
    ∃ t', bp_set fuel t key value = .ok t' ∧ Extends t.d t'.d ∧
      t'.page_size = t.page_size ∧ t'.compare = t.compare ∧
      (t'.d.length < 2 ^ 64 →
        TreeRep t' (h + 1) (kmInsert key
          ((bp__writer_write .kCompressed value t.d).2.1, value.length) m) ∧
        ValAt t'.d ((bp__writer_write .kCompressed value t.d).2.1,
          value.length) value) := by
  obtain ⟨hcmp, hps4, hev, hd64, hlen, hprep⟩ := hrep
  have hextw : Extends t.d (bp__writer_write .kCompressed value t.d).1 :=
    bp__writer_write_extends _ _ _
  have hinsert := bp__page_insert_rep fuel true
    ⟨key.length, (bp__writer_write .kCompressed value t.d).2.1,
      value.length, key, false⟩
    hps4 hev (PageRep_mono_disk hextw hprep) hlen rfl hkey hval
    (bp__writer_write_offset_le _ _ _) hfuel
  rcases hinsert with ⟨d', root, heqi, hexti, hcond⟩ | ⟨hfalse, -⟩
  · refine ⟨bp__tree_write_head { t with d := d', head_page := root }, ?_,
      ?_, rfl, rfl, ?_⟩
    · show bp_set fuel t key value = _
      simp only [bp_set, BpTree_cfg_eq hcmp, heqi]
    · refine Extends.trans hextw (Extends.trans hexti ?_)
      exact bp__writer_write_extends _ _ _
    · intro hcap
      have hext2 : Extends d'
          (bp__tree_write_head { t with d := d', head_page := root }).d :=
        bp__writer_write_extends _ _ _
      have hcap' : d'.length < 2 ^ 64 :=
        lt_of_le_of_lt (Extends.length_le hext2) hcap
      obtain ⟨hoff, hcfg, hrootlen, hrootrep, -⟩ := hcond hcap'
      refine ⟨⟨hcmp, hps4, hev, hcap, hrootlen, ?_⟩, ?_⟩
      · exact PageRep_mono_disk hext2 hrootrep
      · exact ValAt_mono (Extends.trans hexti hext2)
          (bp__writer_write_ValAt .kCompressed value t.d)
  · exact absurd hfalse (by decide)

/-- A `remove` with enough fuel either succeeds — saving the erased map —
or reports `ENOTFOUND` for an absent key, leaving the file untouched. -/
theorem bp_remove_run (fuel : Nat) {t : BpTree} {h : Nat} {m : KMap}
    {key : List Nat}
    (hrep : TreeRep t h m) (hfuel : h < fuel) :
    (∃ t', bp_remove fuel t key = .ok t' ∧ Extends t.d t'.d ∧
      t'.page_size = t.page_size ∧ t'.compare = t.compare ∧
      kmFind key m ≠ none ∧
      (t'.d.length < 2 ^ 64 → TreeRep t' h (kmErase key m))) ∨
    (bp__page_remove ⟨t.page_size, bp__default_compare_cb⟩ fuel true t.d
        t.head_page ⟨key.length, 0, 0, key, false⟩ = .err t.d .ENOTFOUND ∧
      bp_remove fuel t key = .error .ENOTFOUND ∧ kmFind key m = none) := by
  obtain ⟨hcmp, hps4, hev, hd64, hlen, hprep⟩ := hrep
  have hremove := bp__page_remove_rep fuel true
    ⟨key.length, 0, 0, key, false⟩ (by omega) hprep hlen hfuel
  rcases hremove with ⟨d', root, heqr, hextr, hfind, -, hcond⟩ |
    ⟨hfalse, -⟩ | ⟨heqr, hfind⟩
  · refine Or.inl ⟨bp__tree_write_head { t with d := d', head_page := root },
      ?_, ?_, rfl, rfl, hfind, ?_⟩
    · show bp_remove fuel t key = _
      simp only [bp_remove, BpTree_cfg_eq hcmp, heqr]
    · exact Extends.trans hextr (bp__writer_write_extends _ _ _)
    · intro hcap
      have hext2 : Extends d'
          (bp__tree_write_head { t with d := d', head_page := root }).d :=
        bp__writer_write_extends _ _ _
      have hcap' : d'.length < 2 ^ 64 :=
        lt_of_le_of_lt (Extends.length_le hext2) hcap
      obtain ⟨hoff, hcfg, hrootlen, hrootrep, -⟩ := hcond hcap'
      exact ⟨hcmp, hps4, hev, hcap, hrootlen, PageRep_mono_disk hext2 hrootrep⟩
  · exact absurd hfalse (by decide)
  · refine Or.inr ⟨heqr, ?_, hfind⟩
    show bp_remove fuel t key = _
    simp only [bp_remove, BpTree_cfg_eq hcmp, heqr]

/-- A `get` with enough fuel reads exactly the blob bound to the key. -/
theorem bp_get_run (fuel : Nat) {t : BpTree} {h : Nat} {m : KMap}
    {key : List Nat}
    (hrep : TreeRep t h m) (hfuel : h < fuel) :
    (kmFind key m = none →
      bp_get fuel t key = .error .ENOTFOUND) ∧
    (∀ oc v, kmFind key m = some oc → ValAt t.d oc v →
      bp_get fuel t key = .ok ⟨v.length, if v.length = 0 then none
        else some v⟩) := by
  obtain ⟨hcmp, hps4, hev, hd64, hlen, hprep⟩ := hrep
  have hget := bp__page_get_rep fuel ⟨key.length, 0, 0, key, false⟩
    hprep hfuel
  constructor
  · intro hnone
    show bp_get fuel t key = _
    simp only [bp_get, BpTree_cfg_eq hcmp]
    exact hget.1 hnone
  · intro oc v hsome hval
    show bp_get fuel t key = _
    simp only [bp_get, BpTree_cfg_eq hcmp]
    rw [hget.2 oc.1 oc.2 (by rw [hsome])]
    rw [bp__writer_read_ValAt hd64 (by
      show ValAt t.d (oc.1, oc.2) v
      exact hval)]

theorem TreeRep_mono_height {t : BpTree} {h h' : Nat} {m : KMap}
    (hh : h ≤ h') (hrep : TreeRep t h m) : TreeRep t h' m := by
  obtain ⟨h1, h2, h3, h4, h5, h6⟩ := hrep
  exact ⟨h1, h2, h3, h4, h5, PageRep_mono_height hh h6⟩

/-! ### Operation traces -/

/-- A public operation against the store. -/
inductive Op where
  | set (key value : List Nat) : Op
  | remove (key : List Nat) : Op
  | get (key : List Nat) : Op

/-- One completed public operation: the API call returned normally (for
every sufficient fuel), within `uint64_t` file addressing.  A `remove` may
also report `ENOTFOUND`, leaving the tree as it was; a `get` never changes
the tree. -/
def stepOk (t : BpTree) : Op → BpTree → Prop
  | .set key value => fun t' =>
      (∃ fuel, ∀ fuel', fuel ≤ fuel' → bp_set fuel' t key value = .ok t') ∧
      t'.d.length < 2 ^ 64 ∧ (24 + key.length) * t.page_size < 2 ^ 63 ∧
      value.length < 2 ^ 64
  | .remove key => fun t' =>
      ((∃ fuel, ∀ fuel', fuel ≤ fuel' → bp_remove fuel' t key = .ok t') ∧
        t'.d.length < 2 ^ 64) ∨
      ((∃ fuel, ∀ fuel', fuel ≤ fuel' →
          bp_remove fuel' t key = .error .ENOTFOUND) ∧ t' = t)
  | .get _ => fun t' => t' = t

/-- A sequence of completed public operations. -/
inductive Steps : BpTree → List Op → BpTree → Prop where
  | nil (t : BpTree) : Steps t [] t
  | cons {t t' t'' : BpTree} {op : Op} {ops : List Op}
      (h1 : stepOk t op t') (h2 : Steps t' ops t'') :
      Steps t (op :: ops) t''

/-- The operation neither sets nor removes a key comparing equal to `k`
under the default comparator. -/
def avoids (k : Key) : Op → Prop
  | .set key _ => bp__default_compare_cb key k ≠ 0
  | .remove key => bp__default_compare_cb key k ≠ 0
  | .get _ => True

theorem avoids_ne {k key : Key} (h : bp__default_compare_cb key k ≠ 0) :
    k ≠ key :=
  fun he => h ((dcmp_eq_zero_iff key k).mpr he.symm)

/-- One completed operation preserves the tree invariant (height bound
grows by at most one) and the bindings of every key it avoids. -/
theorem stepOk_preserve {t t' : BpTree} {op : Op} {h : Nat} {m : KMap}
    (hrep : TreeRep t h m) (hstep : stepOk t op t') :
    ∃ m', TreeRep t' (h + 1) m' ∧ Extends t.d t'.d ∧
      t'.page_size = t.page_size ∧ t'.compare = t.compare ∧
      ∀ k, avoids k op → kmFind k m' = kmFind k m := by
  cases op with
  | set key value =>
    obtain ⟨⟨fuel, hrun⟩, hcap, hkey, hval⟩ := hstep
    have hkey' : (24 + key.length) * t.page_size < 2 ^ 63 := hkey
    obtain ⟨t'', heq, hext, hps, hcmp, hcond⟩ :=
      bp_set_run (max fuel (h + 1)) hrep hkey' hval
        (lt_of_lt_of_le (Nat.lt_succ_self h) (le_max_right _ _))
    have ht : t'' = t' :=
      Except.ok.inj ((heq.symm).trans (hrun _ (le_max_left _ _)))
    subst ht
    obtain ⟨hrep', -⟩ := hcond hcap
    refine ⟨_, hrep', hext, hps, hcmp, ?_⟩
    intro k hk
    exact kmFind_kmInsert_ne (avoids_ne hk)
  | remove key =>
    rcases hstep with ⟨⟨fuel, hrun⟩, hcap⟩ | ⟨-, rfl⟩
    · rcases bp_remove_run (max fuel (h + 1)) hrep
        (lt_of_lt_of_le (Nat.lt_succ_self h) (le_max_right _ _)) with
        ⟨t'', heq, hext, hps, hcmp, -, hcond⟩ | ⟨-, heq, -⟩
      · have ht : t'' = t' :=
          Except.ok.inj ((heq.symm).trans (hrun _ (le_max_left _ _)))
        subst ht
        refine ⟨_, TreeRep_mono_height (Nat.le_succ h) (hcond hcap), hext,
          hps, hcmp, ?_⟩
        intro k hk
        have hsorted : KMSorted m := PageRep_sorted hrep.2.2.2.2.2
        exact kmFind_kmErase_ne (avoids_ne hk) hsorted
      · exact absurd ((heq.symm).trans (hrun _ (le_max_left _ _))) (by simp)
    · exact ⟨m, TreeRep_mono_height (Nat.le_succ h) hrep, Extends.refl _,
        rfl, rfl, fun k _ => rfl⟩
  | get key =>
    subst hstep
    exact ⟨m, TreeRep_mono_height (Nat.le_succ h) hrep, Extends.refl _,
      rfl, rfl, fun k _ => rfl⟩

/-- A trace of completed operations preserves the tree invariant and the
bindings of every key the whole trace avoids. -/
theorem Steps_preserve {t t' : BpTree} {ops : List Op} {h : Nat} {m : KMap}
    (hrep : TreeRep t h m) (hsteps : Steps t ops t') :
    ∃ m', TreeRep t' (h + ops.length) m' ∧ Extends t.d t'.d ∧
      t'.page_size = t.page_size ∧ t'.compare = t.compare ∧
      ∀ k, (∀ op ∈ ops, avoids k op) → kmFind k m' = kmFind k m := by
  induction hsteps generalizing h m with
  | nil t =>
    exact ⟨m, by simpa using hrep, Extends.refl _, rfl, rfl, fun k _ => rfl⟩
  | cons h1 h2 ih =>
    obtain ⟨m₁, hrep₁, hext₁, hps₁, hcmp₁, hfind₁⟩ := stepOk_preserve hrep h1
    obtain ⟨m', hrep', hext', hps', hcmp', hfind'⟩ := ih hrep₁
    refine ⟨m', TreeRep_mono_height (by simp; omega) hrep',
      Extends.trans hext₁ hext', hps'.trans hps₁, hcmp'.trans hcmp₁, ?_⟩
    intro k hk
    rw [hfind' k (fun op hop => hk op (by simp [hop])),
      hfind₁ k (hk _ (by simp))]

/-! ### Reachable pages -/

/-- A page reachable from `p` by repeatedly loading the child an internal
page's entry points at — exactly the pages the recursive descents visit. -/
inductive ReachableFrom (d : Disk) : BpPage → BpPage → Prop where
  | refl (p : BpPage) : ReachableFrom d p p
  | child {p c q : BpPage} {kv : BpKV} (htype : p.type = .kPage)
      (hkv : kv ∈ p.keys)
      (hload : loadPageAt d kv.offset kv.config = .ok c)
      (hq : ReachableFrom d c q) : ReachableFrom d p q

/-- Every page reachable from a represented page keeps its `byte_size`
accounting and stays strictly below `page_size` entries. -/
theorem PageRep_reachable {ps : Nat} {d : Disk} {p q : BpPage}
    (hreach : ReachableFrom d p q) :
    ∀ {h : Nat} {m : KMap}, PageRep ps h d p m → p.keys.length < ps →
      PageShape q ∧ q.keys.length < ps := by
  induction hreach with
  | refl p =>
    intro h m hrep hlen
    refine ⟨?_, hlen⟩
    cases h with
    | zero => exact hrep.2.1
    | succ h' =>
      rcases hrep with hleaf | hnode
      · exact hleaf.2.1
      · exact hnode.2.1
  | child htype hkv hload hq ih =>
    intro h m hrep hlen
    cases h with
    | zero =>
      have h0 : PageType.kLeaf = PageType.kPage := hrep.1.symm.trans htype
      simp at h0
    | succ h' =>
      rcases hrep with hleaf | hnode
      · have h0 : PageType.kLeaf = PageType.kPage := hleaf.1.symm.trans htype
        simp at h0
      · obtain ⟨-, -, -, hlen2, ms, hms1, hms2, hch, -, -⟩ := hnode
        rename_i p c q kv
        obtain ⟨i, hi, hget⟩ := List.mem_iff_getElem.mp hkv
        obtain ⟨⟨c', hload', hclen, hcrep⟩, -⟩ := hch i hi
        rw [List.getD_eq_getElem _ _ hi, hget] at hload'
        have hc : c' = c := Except.ok.inj (hload'.symm.trans hload)
        subst hc
        exact ih hcrep hclen

/-- C2: after any trace of completed public operations on a well-formed
tree, every page reachable from the root has `byte_size` equal to the sum
of `24 + key.length` over its entries (`sumKVSize`), and strictly fewer
than `page_size` entries. -/
theorem claim_C2 {t t' : BpTree} {ops : List Op} {h : Nat} {m : KMap}
    {q : BpPage}
    (hrep : TreeRep t h m) (hsteps : Steps t ops t')
    (hreach : ReachableFrom t'.d t'.head_page q) :
    q.byte_size = sumKVSize q.keys ∧ q.keys.length < t.page_size := by
  obtain ⟨m', hrep', -, hps, -, -⟩ := Steps_preserve hrep hsteps
  obtain ⟨-, -, -, -, hlen, hprep⟩ := hrep'
  have hq := PageRep_reachable hreach hprep hlen
  exact ⟨hq.1, hps ▸ hq.2⟩

/-! ### Concrete trees for the witnesses -/

theorem TreeRep_open4 : TreeRep (bp_open_empty 4) 0 [] := by
  refine ⟨rfl, by decide, by decide, by decide, by decide, ?_⟩
  exact ⟨rfl, rfl, fun kv hkv => absurd hkv (List.not_mem_nil kv), rfl,
    List.Pairwise.nil⟩

def c1t0 : BpTree := bp_open_empty 4

def c1t1 : BpTree where
  d := [0, 0, 0, 0, 0, 0, 0, 4, 0, 0, 0, 0, 0, 0, 0, 0, 0, 0, 0, 0, 0, 0,
      0, 0, 0, 0, 0, 0, 0, 0, 0, 0, 9, 0, 0, 0, 0, 0, 0, 0, 0, 0, 0, 0, 0,
      0, 0, 1, 0, 0, 0, 0, 0, 0, 0, 32, 0, 0, 0, 0, 0, 0, 0, 1, 7, 0, 0, 0,
      0, 0, 0, 0, 0, 0, 0, 0, 0, 0, 0, 4, 0, 0, 0, 0, 0, 0, 0, 0, 0, 0, 0,
      0, 0, 0, 0, 40, 0, 0, 0, 0, 0, 0, 0, 51]
  head_page := ⟨.kLeaf, [⟨1, 32, 1, [7], true⟩], 25, 40, 51⟩
  page_size := 4
  compare := bp__default_compare_cb

theorem c1set_eval (f : Nat) : bp_set (f + 1) c1t0 [7] [9] = .ok c1t1 := by
  simp [bp_set, c1t0, bp_open_empty, bp__tree_write_head, bp__page_create,
    bp__page_insert, bp__page_search, bp__search_scan, BpTree.cfg,
    bp__writer_write, padTo8, htonll, beDigits, bp__page_insert_finish,
    bp__page_save, serPage, serKV, sumKVSize, BP__KV_SIZE, bp__kv_copy_alloc,
    c1t1, List.insertIdx, takePad]

theorem c1set : stepOk c1t0 (.set [7] [9]) c1t1 := by
  refine ⟨⟨1, ?_⟩, by decide, by decide, by decide⟩
  intro fuel' hf
  obtain ⟨f, rfl⟩ : ∃ f, fuel' = f + 1 := ⟨fuel' - 1, by omega⟩
  exact c1set_eval f

theorem claim_C2_witness :
    (bp_open_empty 4).head_page.byte_size =
      sumKVSize (bp_open_empty 4).head_page.keys ∧
    (bp_open_empty 4).head_page.keys.length < (bp_open_empty 4).page_size :=
  claim_C2 TreeRep_open4 (Steps.nil (bp_open_empty 4))
    (ReachableFrom.refl (bp_open_empty 4).head_page)

/-- C1: after a successful `set(k, v)` on a well-formed tree, followed by
any trace of completed operations none of which sets or removes a key
comparing equal (under the default comparator) to `k`, a `get` of `k` with
fuel above the height bound returns exactly `v`. -/
theorem claim_C1 {t t₁ t₂ : BpTree} {h : Nat} {m : KMap}
    {key value : List Nat} {ops : List Op}
    (hrep : TreeRep t h m)
    (hset : stepOk t (.set key value) t₁)
    (hsteps : Steps t₁ ops t₂)
    (havoid : ∀ op ∈ ops, avoids key op) :
    ∀ fuel, h + 1 + ops.length < fuel →
      bp_get fuel t₂ key =
        .ok ⟨value.length, if value.length = 0 then none else some value⟩ := by
  intro fuel hfuel
  obtain ⟨⟨f0, hrun⟩, hcap, hkey, hval⟩ := hset
  obtain ⟨t'', heq, hext, hps, hcmp, hcond⟩ :=
    bp_set_run (max f0 (h + 1)) hrep hkey hval
      (lt_of_lt_of_le (Nat.lt_succ_self h) (le_max_right _ _))
  have ht : t'' = t₁ :=
    Except.ok.inj ((heq.symm).trans (hrun _ (le_max_left _ _)))
  subst ht
  obtain ⟨hrep₁, hvalat⟩ := hcond hcap
  obtain ⟨m₂, hrep₂, hext₂, hps₂, hcmp₂, hfind₂⟩ := Steps_preserve hrep₁ hsteps
  have hfind : kmFind key m₂ =
      some ((bp__writer_write .kCompressed value t.d).2.1, value.length) := by
    rw [hfind₂ key havoid]
    exact kmFind_kmInsert_self
  exact (bp_get_run fuel hrep₂
    (show h + 1 + ops.length < fuel from hfuel)).2 _ value hfind
    (ValAt_mono hext₂ hvalat)

theorem claim_C1_witness :
    bp_get 2 c1t1 [7] = .ok ⟨1, some [9]⟩ :=
  claim_C1 TreeRep_open4 c1set (Steps.nil c1t1)
    (fun op hop => absurd hop (List.not_mem_nil op)) 2 (by decide)

/-- C6: removing a key that compares equal (under the default comparator)
to no stored key returns `ENOTFOUND` from the page engine with the file
unchanged — nothing is saved or appended — and `bp_remove` reports it
verbatim, so the tree state is untouched. -/
theorem claim_C6 {t : BpTree} {h : Nat} {m : KMap} {key : List Nat}
    {fuel : Nat}
    (hrep : TreeRep t h m)
    (habsent : ∀ x ∈ m, bp__default_compare_cb x.1 key ≠ 0)
    (hfuel : h < fuel) :
    bp__page_remove ⟨t.page_size, bp__default_compare_cb⟩ fuel true t.d
        t.head_page ⟨key.length, 0, 0, key, false⟩ = .err t.d .ENOTFOUND ∧
    bp_remove fuel t key = .error .ENOTFOUND := by
  have hnone : kmFind key m = none := kmFind_eq_none.mpr
    (fun x hx he => habsent x hx ((dcmp_eq_zero_iff _ _).mpr he))
  rcases bp_remove_run fuel hrep hfuel with ⟨t', -, -, -, -, hfind, -⟩ |
    ⟨h1, h2, -⟩
  · exact absurd hnone hfind
  · exact ⟨h1, h2⟩

theorem claim_C6_witness :
    bp__page_remove ⟨(bp_open_empty 4).page_size, bp__default_compare_cb⟩ 1
        true (bp_open_empty 4).d (bp_open_empty 4).head_page
        ⟨([3] : List Nat).length, 0, 0, [3], false⟩ =
      .err (bp_open_empty 4).d .ENOTFOUND ∧
    bp_remove 1 (bp_open_empty 4) [3] = .error .ENOTFOUND :=
  claim_C6 TreeRep_open4 (fun x hx => absurd hx (List.not_mem_nil x))
    (show (0 : Nat) < 1 by decide)

/-! ### The `EMPTYPAGE` collapse (claim C5) -/

/-- The collapse step of `bp__page_remove` (src/pages.c:317-333): drop the
emptied child's entry at `index`; with a single entry left, adopt its
`offset`/`config` and drop it, leaving an empty shell to reload from. -/
def bp__page_collapse (page : BpPage) (index : Nat) : BpPage :=
  bp__page_remove_idx
    { bp__page_remove_idx page index with
        offset := ((bp__page_remove_idx page index).keys.getD 0 default).offset,
        config := ((bp__page_remove_idx page index).keys.getD 0 default).config }
    0

/-- A loaded page's contents come from its `offset`/`config` alone. -/
theorem bp__page_load_as_loadPageAt {d : Disk} {p q : BpPage}
    (h : bp__page_load d p = .ok q) :
    ∃ c', loadPageAt d p.offset p.config = .ok c' ∧
      q.keys = c'.keys ∧ q.type = c'.type ∧ q.byte_size = c'.byte_size := by
  rw [bp__page_load_eq] at h
  unfold loadPageAt
  rw [bp__page_load_eq]
  rw [show (bp__page_create .kPage p.offset p.config).offset = p.offset from
    rfl]
  rw [show (bp__page_create .kPage p.offset p.config).config = p.config from
    rfl]
  cases hr : bp__writer_read .kCompressed p.offset (p.config / 2) d with
  | error e =>
    rw [hr] at h
    exact absurd h (by simp)
  | ok pr =>
    obtain ⟨buff, size2⟩ := pr
    rw [hr] at h
    have hq := Except.ok.inj h
    refine ⟨_, rfl, ?_, ?_, ?_⟩ <;> rw [← hq]

/-- C5: (a) when a child signals `EMPTYPAGE` during a remove and dropping
its entry leaves the internal parent with exactly one entry, the remove
collapses: the parent adopts that entry's `offset`/`config` and reloads
itself from disk — and what it reloads is exactly the page stored at the
surviving entry's `offset`/`config`, so that child's contents become the
parent's; (b) after any completed remove, every remaining key's binding is
still readable via `get`. -/
theorem claim_C5 :
    (∀ (cfg : BpCfg) (fuel : Nat) (isRoot : Bool) (d : Disk) (page : BpPage)
       (kv : BpKV) (res : BpSearchRes) (child : BpPage) (d' : Disk)
       (c : BpPage),
       bp__page_search cfg d page kv = .ok res →
       res.child = some child →
       bp__page_remove cfg fuel false d child kv = .emptypage d' c →
       (bp__page_remove_idx page res.index).keys.length = 1 →
       (bp__page_remove cfg (fuel + 1) isRoot d page kv =
         match bp__page_load d' (bp__page_collapse page res.index) with
         | .error e => .err d' e
         | .ok page4 => bp__page_remove_save d' page4) ∧
       ∀ page4, bp__page_load d' (bp__page_collapse page res.index) =
           .ok page4 →
         ∃ c', loadPageAt d'
             ((bp__page_remove_idx page res.index).keys.getD 0 default).offset
             ((bp__page_remove_idx page res.index).keys.getD 0 default).config
             = .ok c' ∧
           page4.keys = c'.keys ∧ page4.type = c'.type ∧
           page4.byte_size = c'.byte_size) ∧
    (∀ (fuel : Nat) (t t' : BpTree) (h : Nat) (m : KMap) (key : List Nat),
       TreeRep t h m → h < fuel → bp_remove fuel t key = .ok t' →
       t'.d.length < 2 ^ 64 →
       ∀ k oc v, bp__default_compare_cb k key ≠ 0 →
         kmFind k m = some oc → ValAt t.d oc v →
         ∀ fuel2, h < fuel2 →
           bp_get fuel2 t' k =
             .ok ⟨v.length, if v.length = 0 then none else some v⟩) := by
  constructor
  · intro cfg fuel isRoot d page kv res child d' c hsearch hchild hempty hone
    constructor
    · show bp__page_remove cfg (fuel + 1) isRoot d page kv = _
      simp only [bp__page_remove, hsearch, hchild, hempty]
      rw [if_pos hone]
      rfl
    · intro page4 hload4
      exact bp__page_load_as_loadPageAt hload4
  · intro fuel t t' h m key hrep hfuel hok hcap k oc v hkne hfindk hval
      fuel2 hfuel2
    rcases bp_remove_run fuel hrep hfuel with
      ⟨t'', heq, hext, hps, hcmp, -, hcond⟩ | ⟨-, heq, -⟩
    · have ht : t'' = t' := Except.ok.inj (heq.symm.trans hok)
      subst ht
      have hsorted : KMSorted m := PageRep_sorted hrep.2.2.2.2.2
      have hfind' : kmFind k (kmErase key m) = some oc := by
        rw [kmFind_kmErase_ne
          (fun he => hkne ((dcmp_eq_zero_iff k key).mpr he)) hsorted]
        exact hfindk
      exact (bp_get_run fuel2 (hcond hcap)
        (show h < fuel2 from hfuel2)).2 _ v hfind' (ValAt_mono hext hval)
    · exact absurd (heq.symm.trans hok) (by simp)

/-! ### Concrete collapse scenario and remove/get trace for the witness -/

def c5disk : Disk :=
  [0, 0, 0, 0, 0, 0, 0, 1, 0, 0, 0, 0, 0, 0, 0, 0, 0, 0, 0, 0, 0, 0, 0,
   0, 2]

def c5parent : BpPage :=
  ⟨.kPage, [⟨0, 0, 51, [], false⟩, ⟨1, 0, 51, [3], true⟩], 49, 0, 0⟩

def c5child : BpPage := ⟨.kLeaf, [⟨1, 0, 0, [2], false⟩], 25, 0, 51⟩

def c5kv : BpKV := ⟨1, 0, 0, [2], false⟩

theorem c5search_eval :
    bp__page_search c4cfg c5disk c5parent c5kv = .ok ⟨0, 1, some c5child⟩ := by
  simp [bp__page_search, bp__search_scan, loadPageAt, bp__page_load,
    bp__page_create, bp__writer_read, parseKVs, ntohll, beDigits, c5disk,
    c5parent, c5child, c5kv, c4cfg, bp__default_compare_cb]

theorem c5empty_eval :
    bp__page_remove c4cfg 1 false c5disk c5child c5kv =
      .emptypage c5disk ⟨.kLeaf, [], 0, 0, 51⟩ := by
  simp [bp__page_remove, bp__page_search, bp__search_scan, c5disk, c5child,
    c5kv, c4cfg, bp__default_compare_cb, bp__page_remove_idx, BP__KV_SIZE]

def c5t2 : BpTree where
  d := [0, 0, 0, 0, 0, 0, 0, 4, 0, 0, 0, 0, 0, 0, 0, 0, 0, 0, 0, 0, 0, 0, 0,
      0, 0, 0, 0, 0, 0, 0, 0, 0, 9, 0, 0, 0, 0, 0, 0, 0, 0, 0, 0, 0, 0, 0,
      0, 1, 0, 0, 0, 0, 0, 0, 0, 32, 0, 0, 0, 0, 0, 0, 0, 1, 7, 0, 0, 0,
      0, 0, 0, 0, 0, 0, 0, 0, 0, 0, 0, 4, 0, 0, 0, 0, 0, 0, 0, 0, 0, 0, 0,
      0, 0, 0, 0, 40, 0, 0, 0, 0, 0, 0, 0, 51, 6, 0, 0, 0, 0, 0, 0, 0, 0,
      0, 0, 0, 0, 0, 0, 1, 0, 0, 0, 0, 0, 0, 0, 104, 0, 0, 0, 0, 0, 0, 0,
      1, 5, 0, 0, 0, 0, 0, 0, 0, 1, 0, 0, 0, 0, 0, 0, 0, 32, 0, 0, 0, 0,
      0, 0, 0, 1, 7, 0, 0, 0, 0, 0, 0, 0, 0, 0, 0, 0, 0, 0, 4, 0, 0, 0, 0,
      0, 0, 0, 0, 0, 0, 0, 0, 0, 0, 0, 112, 0, 0, 0, 0, 0, 0, 0, 101]
  head_page := ⟨.kLeaf, [⟨1, 104, 1, [5], true⟩, ⟨1, 32, 1, [7], true⟩],
    50, 112, 101⟩
  page_size := 4
  compare := bp__default_compare_cb

def c5t3 : BpTree where
  d := [0, 0, 0, 0, 0, 0, 0, 4, 0, 0, 0, 0, 0, 0, 0, 0, 0, 0, 0, 0, 0, 0, 0,
      0, 0, 0, 0, 0, 0, 0, 0, 0, 9, 0, 0, 0, 0, 0, 0, 0, 0, 0, 0, 0, 0, 0,
      0, 1, 0, 0, 0, 0, 0, 0, 0, 32, 0, 0, 0, 0, 0, 0, 0, 1, 7, 0, 0, 0,
      0, 0, 0, 0, 0, 0, 0, 0, 0, 0, 0, 4, 0, 0, 0, 0, 0, 0, 0, 0, 0, 0, 0,
      0, 0, 0, 0, 40, 0, 0, 0, 0, 0, 0, 0, 51, 6, 0, 0, 0, 0, 0, 0, 0, 0,
      0, 0, 0, 0, 0, 0, 1, 0, 0, 0, 0, 0, 0, 0, 104, 0, 0, 0, 0, 0, 0, 0,
      1, 5, 0, 0, 0, 0, 0, 0, 0, 1, 0, 0, 0, 0, 0, 0, 0, 32, 0, 0, 0, 0,
      0, 0, 0, 1, 7, 0, 0, 0, 0, 0, 0, 0, 0, 0, 0, 0, 0, 0, 4, 0, 0, 0, 0,
      0, 0, 0, 0, 0, 0, 0, 0, 0, 0, 0, 112, 0, 0, 0, 0, 0, 0, 0, 101, 0,
      0, 0, 0, 0, 0, 0, 1, 0, 0, 0, 0, 0, 0, 0, 32, 0, 0, 0, 0, 0, 0, 0,
      1, 7, 0, 0, 0, 0, 0, 0, 0, 0, 0, 0, 0, 0, 0, 0, 4, 0, 0, 0, 0, 0, 0,
      0, 0, 0, 0, 0, 0, 0, 0, 0, 200, 0, 0, 0, 0, 0, 0, 0, 51]
  head_page := ⟨.kLeaf, [⟨1, 32, 1, [7], true⟩], 25, 200, 51⟩
  page_size := 4
  compare := bp__default_compare_cb

def c5map : KMap := [([5], (104, 1)), ([7], (32, 1))]

set_option maxRecDepth 8000 in
theorem c5t2_rep : TreeRep c5t2 0 c5map := by
  refine ⟨rfl, by decide, by decide, by decide, by decide,
    rfl, rfl, ?_, rfl, ?_⟩
  · intro kv hkv
    fin_cases hkv <;> exact ⟨by decide, by decide, by decide, by decide⟩
  · refine List.Pairwise.cons ?_ (List.pairwise_singleton _ _)
    intro y hy
    rw [show y = ⟨1, 32, 1, [7], true⟩ from by
      rcases List.mem_singleton.mp hy with rfl; rfl]
    exact (by decide : bp__default_compare_cb [5] [7] = -1)

set_option maxRecDepth 8000 in
theorem c5remove_eval : bp_remove 1 c5t2 [5] = .ok c5t3 := by
  simp [bp_remove, c5t2, c5t3, bp__page_remove, bp__page_search,
    bp__search_scan, BpTree.cfg, bp__default_compare_cb, bp__page_remove_idx,
    BP__KV_SIZE, bp__page_remove_save, bp__page_save, serPage, serKV,
    sumKVSize, takePad, bp__writer_write, padTo8, htonll, beDigits,
    bp__tree_write_head]

set_option maxRecDepth 8000 in
theorem claim_C5_witness :
    (bp__page_remove c4cfg (1 + 1) true c5disk c5parent c5kv =
      match bp__page_load c5disk (bp__page_collapse c5parent 0) with
      | .error e => .err c5disk e
      | .ok page4 => bp__page_remove_save c5disk page4) ∧
    (∃ c', loadPageAt c5disk
        ((bp__page_remove_idx c5parent 0).keys.getD 0 default).offset
        ((bp__page_remove_idx c5parent 0).keys.getD 0 default).config =
          .ok c' ∧
      c5child.keys = c'.keys ∧ c5child.type = c'.type ∧
      c5child.byte_size = c'.byte_size) ∧
    bp_get 1 c5t3 [7] = .ok ⟨1, some [9]⟩ := by
  have h5 := claim_C5
  have h1 := h5.1 c4cfg 1 true c5disk c5parent c5kv ⟨0, 1, some c5child⟩
    c5child c5disk ⟨.kLeaf, [], 0, 0, 51⟩ c5search_eval rfl c5empty_eval
    (by decide)
  refine ⟨h1.1, ?_, ?_⟩
  · refine h1.2 c5child ?_
    simp [bp__page_load, bp__page_collapse, bp__page_remove_idx, c5parent,
      c5child, c5disk, bp__writer_read, parseKVs, ntohll, beDigits,
      BP__KV_SIZE]
  · exact h5.2 1 c5t2 c5t3 0 c5map [5] c5t2_rep (by decide) c5remove_eval
      (by decide) [7] (32, 1) [9] (by decide) (by decide)
      ⟨rfl, by decide, by decide⟩ 1 (by decide)

end Bplus
